import Mathlib

/-!
# Template engine of `src/plugins/template.js`

A shallow embedding of the template interpolation engine (`interpolate`,
`interpolateObject`) and of the pure stages of `executeRequest` (URL text, headers,
response decoding), followed by the properties of the specification that concern them.
The namespace `Context` embeds the key derivation and the function `mergeObject` of
`src/config/context.js` over the same values.

Modelling conventions.

* JavaScript strings are lists of characters (`List Char`).  The patterns of the source
  test single characters only, so code points and UTF-16 units agree for them; the `length`
  of a string counts UTF-16 units, indexing a string is by character (exact in the Basic
  Multilingual Plane).
* Data contexts are JSON trees (`JSVal`).  Numbers are the doubles with an integer value,
  given by that value.  `String` prints them as JavaScript does (`numberString`: in decimal
  up to `2^53`, beyond it the shortest digits that denote the number, in exponent form from
  `10^21` on), and `Number.parseInt` rounds the value of a run of digits to the nearest
  number (`roundDouble`).  Property lookup sees own properties, the `length` of arrays
  and strings and their indexed elements; members inherited from the built-in prototypes
  (`constructor`, `toString`, ...) are not part of the model.  The one inherited member
  that changes what the code under study builds, the setter of `__proto__`, is modelled in
  `assignProp`.
* The conversion `String(value)` (`toJSString`), which a template literal makes as well,
  throws a `TypeError` for a mapping with an own key `toString`, and for an array that holds
  one: the value of the key is data, so no callable conversion method is left.
* The three regular expressions of the source are values of a small regular expression
  syntax (`Re`), run by a backtracking matcher that follows the order of alternatives of
  the ECMAScript matcher (greedy before shorter, lazy before longer, an optional group tried
  before it is skipped).  `replaceFrom` is `String.prototype.replace` for a global pattern:
  all matches are found from left to right, each is replaced by the result of the replacer.
* A thrown `TypeError` is the error `JSError.typeError` of `Except`; a formatter is a
  function that may throw as well.  The recursion of `interpolate` through `processLoop` is
  bounded by an explicit budget; the theorems `interpolate_eq_fuel` and `interpolate_error`
  show that the budget is never exhausted: an error of `interpolate` is a `TypeError` or
  the error of a call of the formatter.
* Network access (`fetch`), `new URL` and `JSON.parse` are outside the model: a response is
  given by its `ok` flag and the results of `text()` and `json()`.
-/

namespace Template

/-! ## Values -/

/-- JavaScript values that a JSON data context is made of. -/
inductive JSVal where
  | undefined
  | null
  | bool (b : Bool)
  | num (n : Int)
  | str (s : List Char)
  | arr (xs : List JSVal)
  | obj (kvs : List (List Char × JSVal))

/-- What a call can raise: a JavaScript `TypeError`, the `SyntaxError` of a failed JSON
parse, or the recursion budget of the embedding running out. -/
inductive JSError where
  | typeError
  | syntaxError
  | outOfFuel
  deriving DecidableEq, Repr

/-- Decimal digits of a natural number, least significant digit first, at most
`fuel` of them. -/
def digitsRev : Nat → Nat → List Char
  | 0, _ => []
  | fuel + 1, n =>
    if n < 10 then [Char.ofNat (48 + n)]
    else Char.ofNat (48 + n % 10) :: digitsRev fuel (n / 10)

/-- Decimal representation of a natural number. -/
def natToString (n : Nat) : List Char :=
  (digitsRev (n + 1) n).reverse

/-- Decimal representation of an integer: `String(n)` for an integer-valued number. -/
def intToString : Int → List Char
  | Int.ofNat n => natToString n
  | Int.negSucc n => '-' :: natToString (n + 1)

/-- The largest integer up to which every integer is a number of JavaScript: `2^53`. -/
def maxExact : Nat := 9007199254740992

/-- Number of binary digits of a natural number, found by halving at most `fuel` times. -/
def bitsOf : Nat → Nat → Nat
  | 0, _ => 0
  | fuel + 1, n => if n = 0 then 0 else bitsOf fuel (n / 2) + 1

/-- The number of JavaScript nearest to a natural number: up to `2^53` the number itself,
above it the nearest multiple of the spacing of the doubles of that size, a tie going to the
even significand.  A result of `2^1024` or more stands for `Infinity`. -/
def roundDouble (n : Nat) : Nat :=
  if n ≤ maxExact then n
  else
    let e := bitsOf n n - 53
    let q := n / 2 ^ e
    let r := n % 2 ^ e
    let half := 2 ^ (e - 1)
    if r < half then q * 2 ^ e
    else if half < r then (q + 1) * 2 ^ e
    else if q % 2 = 0 then q * 2 ^ e
    else (q + 1) * 2 ^ e

/-- The number of JavaScript nearest to an integer. -/
def toDouble : Int → Int
  | Int.ofNat n => Int.ofNat (roundDouble n)
  | Int.negSucc n => -(Int.ofNat (roundDouble (n + 1)))

/-- The shortest decimal significand of the number `x`: the pair `(s, m)` with the largest
exponent `m ≤ bound` for which `s × 10^m` rounds to `x`; of two significands with the same
exponent the one nearer to `x`, and the even one if both are equally near. -/
def shortest (x : Nat) : Nat → Nat × Nat
  | 0 => (x, 0)
  | m + 1 =>
    let p := 10 ^ (m + 1)
    let lo := x / p
    let hi := lo + 1
    let okLo := decide (lo ≠ 0) && decide (roundDouble (lo * p) = x)
    let okHi := decide (roundDouble (hi * p) = x)
    if okLo && okHi then
      if x - lo * p < hi * p - x then (lo, m + 1)
      else if hi * p - x < x - lo * p then (hi, m + 1)
      else if lo % 2 = 0 then (lo, m + 1)
      else (hi, m + 1)
    else if okLo then (lo, m + 1)
    else if okHi then (hi, m + 1)
    else shortest x m

/-- The text of `String(x)` for a number `x ≥ 0` with an integer value: decimal up to `2^53`;
above it the digits of the shortest significand, followed by zeros below `10^21` and in
exponent form from there on; `Infinity` from `2^1024` on. -/
def natNumberString (x : Nat) : List Char :=
  if x ≤ maxExact then natToString x
  else if 2 ^ 1024 ≤ x then "Infinity".toList
  else
    let sm := shortest x (natToString x).length
    let ds := natToString sm.1
    let n := ds.length + sm.2
    if n ≤ 21 then ds ++ List.replicate sm.2 '0'
    else
      match ds with
      | [] => []
      | [d] => d :: 'e' :: '+' :: natToString (n - 1)
      | d :: rest => d :: '.' :: rest ++ 'e' :: '+' :: natToString (n - 1)

/-- The text of `String(n)` for a number with an integer value. -/
def numberString : Int → List Char
  | Int.ofNat n => natNumberString n
  | Int.negSucc n => '-' :: natNumberString (n + 1)

mutual
/-- The conversion `String(value)`, also made by a template literal.  A mapping with an own
key `toString` has no callable conversion method left (the value of the key is data, and
the inherited `valueOf` returns the mapping itself), so the conversion throws a `TypeError`;
every other mapping prints as `[object Object]`.  An array prints its elements joined by
commas. -/
def toJSString : JSVal → Except JSError (List Char)
  | .undefined => .ok "undefined".toList
  | .null => .ok "null".toList
  | .bool true => .ok "true".toList
  | .bool false => .ok "false".toList
  | .num n => .ok (numberString n)
  | .str s => .ok s
  | .arr xs => joinComma xs
  | .obj kvs =>
    if "toString".toList ∈ kvs.map Prod.fst then .error .typeError
    else .ok "[object Object]".toList
/-- The method `Array.prototype.join` with the separator `","`: `undefined` and `null`
elements contribute the empty string, every other element its string form. -/
def joinComma : List JSVal → Except JSError (List Char)
  | [] => .ok []
  | [x] => elemString x
  | x :: y :: rest => do
    let a ← elemString x
    let b ← joinComma (y :: rest)
    pure (a ++ ',' :: b)
/-- The string an array element contributes to `join`. -/
def elemString : JSVal → Except JSError (List Char)
  | .undefined => .ok []
  | .null => .ok []
  | .bool true => .ok "true".toList
  | .bool false => .ok "false".toList
  | .num n => .ok (numberString n)
  | .str s => .ok s
  | .arr xs => joinComma xs
  | .obj kvs =>
    if "toString".toList ∈ kvs.map Prod.fst then .error .typeError
    else .ok "[object Object]".toList
end

/-- JavaScript truthiness (`ToBoolean`). -/
def truthy : JSVal → Bool
  | .undefined => false
  | .null => false
  | .bool b => b
  | .num n => n != 0
  | .str s => !s.isEmpty
  | .arr _ => true
  | .obj _ => true

/-- Own property lookup in the entries of a mapping. -/
def lookupKey (key : List Char) : List (List Char × JSVal) → JSVal
  | [] => .undefined
  | (k, v) :: rest => if k = key then v else lookupKey key rest

/-- A canonical array index: a decimal numeral without a leading zero. -/
def parseIndex? (key : List Char) : Option Nat :=
  match key with
  | [] => none
  | ['0'] => some 0
  | c :: rest =>
    if c ≠ '0' ∧ (c :: rest).all Char.isDigit then
      some ((c :: rest).foldl (fun acc d => acc * 10 + (d.toNat - 48)) 0)
    else none

/-- Number of UTF-16 code units of a string. -/
def utf16Length (s : List Char) : Nat :=
  (s.map (fun c => if c.toNat < 65536 then 1 else 2)).sum

/-- The property read `value?.[key]`. -/
def getProp (value : JSVal) (key : List Char) : JSVal :=
  match value with
  | .undefined => .undefined
  | .null => .undefined
  | .bool _ => .undefined
  | .num _ => .undefined
  | .str s =>
    if key = "length".toList then .num (utf16Length s)
    else match parseIndex? key with
      | some i => match s.get? i with
        | some c => .str [c]
        | none => .undefined
      | none => .undefined
  | .arr xs =>
    if key = "length".toList then .num xs.length
    else match parseIndex? key with
      | some i => (xs.get? i).getD .undefined
      | none => .undefined
  | .obj kvs => lookupKey key kvs

/-! ## Regular expressions -/

/-- The fragment of regular expression syntax used by the three patterns of the source. -/
inductive Re where
  | lit (s : List Char)
  | plus (cls : Char → Bool)
  | lazyStar (cls : Char → Bool)
  | group (i : Nat) (r : Re)
  | opt (r : Re)
  | seq (r₁ r₂ : Re)

/-- Capture groups: `none` is a group that did not participate (`undefined`). -/
abbrev Caps := Nat → Option (List Char)

/-- Record the text of group `i`. -/
def setCap (c : Caps) (i : Nat) (s : List Char) : Caps :=
  fun j => if j = i then some s else c j

/-- The remainder of `s` after the literal `p`, when `s` starts with `p`. -/
def dropLit : List Char → List Char → Option (List Char)
  | [], s => some s
  | _ :: _, [] => none
  | p :: ps, a :: s => if p = a then dropLit ps s else none

/-- Greedy `cls*`: the longest run first, then shorter ones. -/
def greedyStar {α : Type} (cls : Char → Bool) :
    List Char → Caps → (List Char → Caps → Option α) → Option α
  | [], c, k => k [] c
  | a :: s, c, k =>
    if cls a then
      match greedyStar cls s c k with
      | some x => some x
      | none => k (a :: s) c
    else k (a :: s) c

/-- Lazy `cls*?`: the shortest run first, then longer ones. -/
def lazyStarRun {α : Type} (cls : Char → Bool) :
    List Char → Caps → (List Char → Caps → Option α) → Option α
  | [], c, k => k [] c
  | a :: s, c, k =>
    match k (a :: s) c with
    | some x => some x
    | none => if cls a then lazyStarRun cls s c k else none

/-- The backtracking matcher, in continuation-passing style. -/
def Re.run {α : Type} :
    Re → List Char → Caps → (List Char → Caps → Option α) → Option α
  | .lit p, s, c, k =>
    match dropLit p s with
    | some rest => k rest c
    | none => none
  | .plus cls, s, c, k =>
    match s with
    | [] => none
    | a :: s' => if cls a then greedyStar cls s' c k else none
  | .lazyStar cls, s, c, k => lazyStarRun cls s c k
  | .group i r, s, c, k =>
    r.run s c (fun rest c' => k rest (setCap c' i (s.take (s.length - rest.length))))
  | .opt r, s, c, k =>
    match r.run s c k with
    | some x => some x
    | none => k s c
  | .seq r₁ r₂, s, c, k => r₁.run s c (fun rest c' => r₂.run rest c' k)

/-- A match anchored at the start of `s`: the captures and the text after the match. -/
def Re.exec (r : Re) (s : List Char) : Option (Caps × List Char) :=
  r.run s (fun _ => none) (fun rest c => some (c, rest))

/-- Concatenation of a sequence of patterns. -/
def Re.cat : List Re → Re
  | [] => .lit []
  | [r] => r
  | r :: rs => .seq r (Re.cat rs)

/-- The class `\w`. -/
def isWord (c : Char) : Bool :=
  ('a' ≤ c ∧ c ≤ 'z') || ('A' ≤ c ∧ c ≤ 'Z') || ('0' ≤ c ∧ c ≤ '9') || c = '_'

/-- The class `\s`. -/
def isSpace (c : Char) : Bool :=
  let n := c.toNat
  (9 ≤ n ∧ n ≤ 13) || n = 32 || n = 160 || n = 5760 || (8192 ≤ n ∧ n ≤ 8202) ||
    n = 8232 || n = 8233 || n = 8239 || n = 8287 || n = 12288 || n = 65279

/-- The class `[\w.[\]]`. -/
def isExprChar (c : Char) : Bool :=
  isWord c || c = '.' || c = '[' || c = ']'

/-- The class `[\s\S]`. -/
def anyChar (_ : Char) : Bool := true

/-- The text `{{`, which opens a placeholder. -/
abbrev holeOpen : List Char := "\x7b\x7b".toList

/-- The text `}}`, which closes a placeholder or an opening tag. -/
abbrev holeClose : List Char := "\x7d\x7d".toList

/-- The text `{{#each`. -/
abbrev eachOpen : List Char := "\x7b\x7b#each".toList

/-- The text `{{/each}}`. -/
abbrev eachClose : List Char := "\x7b\x7b/each\x7d\x7d".toList

/-- The text `{{#if`. -/
abbrev ifOpen : List Char := "\x7b\x7b#if".toList

/-- The text `{{else}}`. -/
abbrev elseTag : List Char := "\x7b\x7belse\x7d\x7d".toList

/-- The text `{{/if}}`. -/
abbrev ifClose : List Char := "\x7b\x7b/if\x7d\x7d".toList

/-- The placeholder text `{{expr}}`. -/
def hole (expr : List Char) : List Char := holeOpen ++ expr ++ holeClose


/-- Whether the text `p` occurs somewhere in `s`. -/
def containsText (p : List Char) : List Char → Bool
  | [] => (dropLit p []).isSome
  | a :: s => (dropLit p (a :: s)).isSome || containsText p s

/-- A text without any of the five directive tags `{{#each`, `{{#if`, `{{else}}`,
`{{/if}}`, `{{/each}}`. -/
def directiveFree (s : List Char) : Bool :=
  !containsText eachOpen s && !containsText ifOpen s &&
    !containsText elseTag s && !containsText ifClose s &&
    !containsText eachClose s

/-- A non-empty run of characters of the class `\w`: a loop item name. -/
def isName (s : List Char) : Bool := !s.isEmpty && s.all isWord

/-- A non-empty run of characters of the class `[\w.[\]]`: a path expression. -/
def isExpr (s : List Char) : Bool := !s.isEmpty && s.all isExprChar

/-- The text `s` is empty or starts with a character outside `cls`. -/
def stopsAt (cls : Char → Bool) : List Char → Bool
  | [] => true
  | a :: _ => !cls a

deriving instance DecidableEq for Except

/-- The pattern `/\{\{#each\s+(\w+)\s+in\s+([\w.[\]]+)\}\}([\s\S]*?)\{\{\/each\}\}/`. -/
def INTERPOLATE_LOOP_REGEXP : Re :=
  Re.cat [.lit eachOpen, .plus isSpace, .group 1 (.plus isWord), .plus isSpace,
    .lit "in".toList, .plus isSpace, .group 2 (.plus isExprChar), .lit holeClose,
    .group 3 (.lazyStar anyChar), .lit eachClose]

/-- The pattern
`/\{\{#if\s+([\w.[\]]+)\}\}([\s\S]*?)(?:\{\{else\}\}([\s\S]*?))?\{\{\/if\}\}/`. -/
def INTERPOLATE_CONDITION_REGEXP : Re :=
  Re.cat [.lit ifOpen, .plus isSpace, .group 1 (.plus isExprChar), .lit holeClose,
    .group 2 (.lazyStar anyChar), .opt (.seq (.lit elseTag) (.group 3 (.lazyStar anyChar))),
    .lit ifClose]

/-- The pattern `/\{\{([\w.[\]]+)\}\}/`. -/
def INTERPOLATE_VARIABLE_REGEXP : Re :=
  Re.cat [.lit holeOpen, .group 1 (.plus isExprChar), .lit holeClose]

/-- `String.prototype.replace` with a global pattern and a replacer function,
scanning from the position reached after skipping `skip` characters: the leftmost
match is replaced and the scan resumes after it. -/
def replaceFrom (r : Re) (f : Caps → Except JSError (List Char)) :
    Nat → List Char → Except JSError (List Char)
  | _, [] =>
    match r.exec [] with
    | some (c, _) => f c
    | none => pure []
  | skip + 1, _ :: s => replaceFrom r f skip s
  | 0, a :: s =>
    match r.exec (a :: s) with
    | some (c, rest) => do
      let out ← f c
      let len := (a :: s).length - rest.length
      if len = 0 then do
        let tail ← replaceFrom r f 0 s
        pure (out ++ a :: tail)
      else do
        let tail ← replaceFrom r f (len - 1) s
        pure (out ++ tail)
    | none => do
      let tail ← replaceFrom r f 0 s
      pure (a :: tail)

/-- The call `str.replace(regexp, replacer)`. -/
def replace (r : Re) (f : Caps → Except JSError (List Char)) (s : List Char) :
    Except JSError (List Char) :=
  replaceFrom r f 0 s

/-! ## Expression evaluation -/

/-- The method `String.prototype.split` with a one-character separator. -/
def splitOn (sep : Char) : List Char → List (List Char)
  | [] => [[]]
  | c :: s =>
    if c = sep then [] :: splitOn sep s
    else match splitOn sep s with
      | h :: t => (c :: h) :: t
      | [] => [[c]]

/-- The value of a run of decimal digits. -/
def digitsValue (ds : List Char) : Nat :=
  ds.foldl (fun acc d => acc * 10 + (d.toNat - 48)) 0

/-- The call `Number.parseInt(s, 10)`: the value of the leading digits, rounded to the
nearest number of JavaScript, as the engine of the Workers runtime computes it (the language
standard lets an implementation ignore the digits after the twentieth); `none` stands for
`NaN`. -/
def parseInt (s : List Char) : Option Int :=
  let body := s.dropWhile isSpace
  let signed : Bool × List Char :=
    match body with
    | '-' :: rest => (true, rest)
    | '+' :: rest => (false, rest)
    | _ => (false, body)
  let ds := signed.2.takeWhile Char.isDigit
  if ds.isEmpty then none
  else
    some (if signed.1 then -(roundDouble (digitsValue ds) : Int)
      else (roundDouble (digitsValue ds) : Int))

/-- The property key a number is converted to when it indexes a value. -/
def numberKey : Option Int → List Char
  | none => "NaN".toList
  | some n => numberString n

/-- The property key that the index text of the integer `i` reads: the text is parsed to a
number, and the number is converted to a string. -/
def indexKey (i : Int) : List Char := numberKey (some (toDouble i))

/-- One step of the `reduce` in `evaluateExpression`. -/
def evalStep (value : JSVal) (key : List Char) : JSVal :=
  if key.contains '[' && key.contains ']' then
    let parts := splitOn '[' key
    let arrayKey := parts.headD []
    let index := (parts.tail.head?.map parseInt).getD none
    getProp (getProp value arrayKey) (numberKey index)
  else getProp value key

/-- The function `evaluateExpression` of `interpolate`.  The case `expr === '.'` reads a
property of `localData` outside the `try` block, so it throws on `null` and `undefined`. -/
def evaluateExpression (expr : List Char) (localData : JSVal) : Except JSError JSVal :=
  if expr = ['.'] then
    match localData with
    | .undefined => .error .typeError
    | .null => .error .typeError
    | _ =>
      match getProp localData ['.'] with
      | .undefined => .ok localData
      | .null => .ok localData
      | v => .ok v
  else .ok ((splitOn '.' expr).foldl evalStep localData)

/-! ## Rendering -/

/-- A formatter argument of `interpolate`: a function of the value that returns a string or
throws. -/
abbrev Formatter := JSVal → Except JSError (List Char)

/-- The function `processConditional` of `interpolate`. -/
def processConditional (condition trueBlock : List Char) (falseBlock : Option (List Char))
    (localData : JSVal) : Except JSError (List Char) := do
  let result ← evaluateExpression condition localData
  pure (if truthy result then trueBlock else falseBlock.getD [])

/-- Assignment of an own property by a computed key in an object literal. -/
def defineProp (key : List Char) (v : JSVal) :
    List (List Char × JSVal) → List (List Char × JSVal)
  | [] => [(key, v)]
  | (k, w) :: rest => if k = key then (k, v) :: rest else (k, w) :: defineProp key v rest

/-- Keys `0, 1, ...` paired with the elements of a list, starting at `i`. -/
def indexed (f : JSVal → JSVal) : Nat → List JSVal → List (List Char × JSVal)
  | _, [] => []
  | i, x :: xs => (natToString i, f x) :: indexed f (i + 1) xs

/-- The own enumerable properties copied by the spread `{ ...value }`. -/
def spread : JSVal → List (List Char × JSVal)
  | .obj kvs => kvs
  | .arr xs => indexed id 0 xs
  | .str s => indexed id 0 (s.map (fun c => JSVal.str [c]))
  | _ => []

/-- The child scope `{ ...localData, [itemName]: item, '.': item }` of a loop iteration. -/
def itemData (localData : JSVal) (itemName : List Char) (item : JSVal) : JSVal :=
  .obj (defineProp ['.'] item (defineProp itemName item (spread localData)))

/-- The body of `array.map(...).join('')` in `processLoop`. -/
def renderItems (render : List Char → JSVal → Except JSError (List Char))
    (itemName loopContent : List Char) (localData : JSVal) :
    List JSVal → Except JSError (List Char)
  | [] => pure []
  | item :: rest => do
    let out ← render loopContent (itemData localData itemName item)
    let outs ← renderItems render itemName loopContent localData rest
    pure (out ++ outs)

/-- The function `processLoop` of `interpolate`; `render` is the recursive call
`interpolate(loopContent, itemData)`, which passes no formatter. -/
def processLoop (render : List Char → JSVal → Except JSError (List Char))
    (itemName arrayExpr loopContent : List Char) (localData : JSVal) :
    Except JSError (List Char) := do
  let array ← evaluateExpression arrayExpr localData
  match array with
  | .arr xs => renderItems render itemName loopContent localData xs
  | _ => pure []

/-- The replacer of the variable pass of `processTemplate`. -/
def substituteVariable (formatter : Option Formatter) (localData : JSVal) (expr : List Char) :
    Except JSError (List Char) := do
  let value ← evaluateExpression expr localData
  match value with
  | .undefined => pure (hole expr)
  | v =>
    match formatter with
    | some fmt => fmt v
    | none => toJSString v

/-- The loop pass of `processTemplate`. -/
def loopPass (render : List Char → JSVal → Except JSError (List Char)) (localData : JSVal)
    (tmpl : List Char) : Except JSError (List Char) :=
  replace INTERPOLATE_LOOP_REGEXP
    (fun c => processLoop render ((c 1).getD []) ((c 2).getD []) ((c 3).getD []) localData) tmpl

/-- The conditional pass of `processTemplate`. -/
def conditionPass (localData : JSVal) (tmpl : List Char) : Except JSError (List Char) :=
  replace INTERPOLATE_CONDITION_REGEXP
    (fun c => processConditional ((c 1).getD []) ((c 2).getD []) (c 3) localData) tmpl

/-- The variable pass of `processTemplate`. -/
def variablePass (formatter : Option Formatter) (localData : JSVal) (tmpl : List Char) :
    Except JSError (List Char) :=
  replace INTERPOLATE_VARIABLE_REGEXP
    (fun c => substituteVariable formatter localData ((c 1).getD [])) tmpl

/-- The function `processTemplate` of `interpolate`: loops, then conditionals, then variables. -/
def processTemplate (render : List Char → JSVal → Except JSError (List Char))
    (formatter : Option Formatter) (tmpl : List Char) (localData : JSVal) :
    Except JSError (List Char) := do
  let t₁ ← loopPass render localData tmpl
  let t₂ ← conditionPass localData t₁
  variablePass formatter localData t₂

/-- The function `interpolate` with an explicit bound on the depth of recursive calls. -/
def interpolateFuel :
    Nat → List Char → JSVal → Option Formatter → Except JSError (List Char)
  | 0, _, _, _ => .error .outOfFuel
  | fuel + 1, template, data, formatter =>
    processTemplate (fun body scope => interpolateFuel fuel body scope none)
      formatter template data

/-- The function `interpolate(template, data, formatter = null)`.  A recursive call renders
a loop body, which is strictly shorter than the template, so the length of the template
bounds the depth. -/
def interpolate (template : List Char) (data : JSVal) (formatter : Option Formatter := none) :
    Except JSError (List Char) :=
  interpolateFuel (template.length + 1) template data formatter

/-! ## Text predicates used in the statements -/

/-- The template text `{{#each x in A}}B{{/each}}`. -/
def eachBlock (x A B : List Char) : List Char :=
  eachOpen ++ [' '] ++ x ++ " in ".toList ++ A ++ holeClose ++ B ++ eachClose

/-- The template text `{{#if C}}T{{else}}F{{/if}}`. -/
def ifElseBlock (C T F : List Char) : List Char :=
  ifOpen ++ [' '] ++ C ++ holeClose ++ T ++ elseTag ++ F ++ ifClose

/-- The template text `{{#if C}}T{{/if}}`. -/
def ifBlock (C T : List Char) : List Char :=
  ifOpen ++ [' '] ++ C ++ holeClose ++ T ++ ifClose

/-- The expressions of the variable placeholders of a text: the first capture of every match
of `INTERPOLATE_VARIABLE_REGEXP`, at any position. -/
def placeholders : List Char → List (List Char)
  | [] => []
  | a :: s =>
    match INTERPOLATE_VARIABLE_REGEXP.exec (a :: s) with
    | some (c, _) => (c 1).getD [] :: placeholders s
    | none => placeholders s

/-! ## Structural interpolation -/

/-- The assignment `result[key] = value` on an ordinary object: an own property is replaced
or appended, except for the key `__proto__`, which the inherited setter intercepts, so that no
own property is created. -/
def assignProp (key : List Char) (value : JSVal) (result : List (List Char × JSVal)) :
    List (List Char × JSVal) :=
  if key = "__proto__".toList then result else defineProp key value result

mutual
/-- The function `interpolateObject(obj, data)`. -/
def interpolateObject : JSVal → JSVal → Except JSError JSVal
  | .undefined, _ => pure .null
  | .null, _ => pure .null
  | .str s, data => do
    let r ← interpolate s data
    pure (.str r)
  | .arr xs, data => do
    let ys ← interpolateItems xs data
    pure (.arr ys)
  | .obj kvs, data => do
    let result ← interpolateEntries kvs data []
    pure (.obj result)
  | .bool b, _ => pure (.bool b)
  | .num n, _ => pure (.num n)
termination_by structural obj => obj
/-- The call `obj.map(item => interpolateObject(item, data))`. -/
def interpolateItems : List JSVal → JSVal → Except JSError (List JSVal)
  | [], _ => pure []
  | x :: xs, data => do
    let y ← interpolateObject x data
    let ys ← interpolateItems xs data
    pure (y :: ys)
termination_by structural items => items
/-- The loop `for (const [key, value] of Object.entries(obj)) result[key] = ...`. -/
def interpolateEntries : List (List Char × JSVal) → JSVal → List (List Char × JSVal) →
    Except JSError (List (List Char × JSVal))
  | [], _, result => pure result
  | (key, value) :: rest, data, result => do
    let v ← interpolateObject value data
    interpolateEntries rest data (assignProp key v result)
termination_by structural entries => entries
end

/-! ## The request pipeline -/

/-- Upper-case hexadecimal digit. -/
def hexDigit (n : Nat) : Char :=
  if n < 10 then Char.ofNat (48 + n) else Char.ofNat (55 + n)

/-- The UTF-8 encoding of a code point. -/
def utf8Bytes (n : Nat) : List Nat :=
  if n < 128 then [n]
  else if n < 2048 then [192 + n / 64, 128 + n % 64]
  else if n < 65536 then [224 + n / 4096, 128 + n / 64 % 64, 128 + n % 64]
  else [240 + n / 262144, 128 + n / 4096 % 64, 128 + n / 64 % 64, 128 + n % 64]

/-- The characters `encodeURIComponent` leaves as they are. -/
def uriUnreserved (c : Char) : Bool :=
  isWord c || c = '-' || c = '.' || c = '!' || c = '~' || c = '*' || c.toNat = 39 ||
    c = '(' || c = ')'

/-- The escape sequence of one character. -/
def percentEncode (c : Char) : List Char :=
  if uriUnreserved c then [c]
  else (utf8Bytes c.toNat).flatMap (fun b => ['%', hexDigit (b / 16), hexDigit (b % 16)])

/-- The function `encodeURIComponent`: its argument is converted to a string, which may
throw, and every character of the string is escaped. -/
def encodeURIComponent (v : JSVal) : Except JSError (List Char) := do
  let s ← toJSString v
  pure (s.flatMap percentEncode)

/-- The text `executeRequest` hands to `new URL`:
`interpolate(template.url, data, encodeURIComponent)`. -/
def requestUrl (url : List Char) (data : JSVal) : Except JSError (List Char) :=
  interpolate url data (some encodeURIComponent)

/-- The entries `[key, interpolate(value, data)]` of the header mapping. -/
def renderEntries (data : JSVal) :
    List (List Char × List Char) → Except JSError (List (List Char × JSVal))
  | [] => pure []
  | (key, value) :: rest => do
    let v ← interpolate value data
    let vs ← renderEntries data rest
    pure ((key, .str v) :: vs)

/-- The test `headers[key] === null`. -/
def isNull : JSVal → Bool
  | .null => true
  | _ => false

/-- The headers `executeRequest` passes to `fetch`: every value rendered, then the entries
whose value is `null` deleted. -/
def requestHeaders (headers : List (List Char × List Char)) (data : JSVal) :
    Except JSError (List (List Char × JSVal)) := do
  let entries ← renderEntries data headers
  pure (entries.filter (fun kv => !isNull kv.2))

/-- Modelled from the spec: the constant `TemplateResponseTypeText` of `types/template.js`,
a file that is not among the sources; `input_type` is `json` (the default) or `text`. -/
def TemplateResponseTypeText : List Char := "text".toList

/-- One of the two response specs of a template. -/
structure ResponseSpec where
  input_type : Option (List Char)
  output : List Char
  output_type : List Char

/-- What `executeRequest` reads of the HTTP response: the flag `ok` and the results of
`response.text()` and `response.json()`. -/
structure HttpResponse where
  ok : Bool
  text : List Char
  json : Except JSError JSVal

/-- The value `executeRequest` returns. -/
structure RequestResult where
  type : List Char
  content : List Char
  deriving DecidableEq

/-- The function `renderOutput` of `executeRequest`. -/
def renderOutput (type : Option (List Char)) (temple : List Char) (response : HttpResponse) :
    Except JSError (List Char) :=
  if type = some TemplateResponseTypeText then interpolate temple (.str response.text)
  else do
    let data ← response.json
    interpolate temple data

/-- The part of `executeRequest` after `fetch`, for a template that has both response specs. -/
def executeResponse (content error : ResponseSpec) (response : HttpResponse) :
    Except JSError RequestResult :=
  if !response.ok then do
    let c ← renderOutput error.input_type error.output response
    pure { type := error.output_type, content := c }
  else do
    let c ← renderOutput content.input_type content.output response
    pure { type := content.output_type, content := c }

/-- The decoded body of a response: its text for the input type `text`, the parsed JSON
value otherwise. -/
def decodedBody (input_type : Option (List Char)) (response : HttpResponse) :
    Except JSError JSVal :=
  if input_type = some TemplateResponseTypeText then .ok (.str response.text) else response.json

mutual
/-- A value all of whose mappings have pairwise distinct keys, none of them `__proto__`. -/
def wellFormed : JSVal → Bool
  | .arr xs => wellFormedItems xs
  | .obj kvs => wellFormedEntries kvs
  | _ => true
termination_by structural v => v
/-- Every element of an array is well formed. -/
def wellFormedItems : List JSVal → Bool
  | [] => true
  | x :: xs => wellFormed x && wellFormedItems xs
termination_by structural items => items
/-- The entries of a mapping have distinct keys other than `__proto__` and well-formed
values. -/
def wellFormedEntries : List (List Char × JSVal) → Bool
  | [] => true
  | (key, value) :: rest =>
    decide (key ≠ "__proto__".toList) && decide (key ∉ rest.map Prod.fst) &&
      wellFormed value && wellFormedEntries rest
termination_by structural entries => entries
end

mutual
/-- The description of `interpolateObject` in the specification: `null` for `null` and
`undefined`, the rendered string for a string, the element-wise image of an array, the
key-preserving image of a mapping, and any other scalar unchanged. -/
def renderedShape : JSVal → JSVal → Except JSError JSVal
  | .undefined, _ => .ok .null
  | .null, _ => .ok .null
  | .str s, scope => (interpolate s scope).map JSVal.str
  | .arr xs, scope => (renderedItems xs scope).map JSVal.arr
  | .obj kvs, scope => (renderedValues kvs scope).map JSVal.obj
  | .bool b, _ => .ok (.bool b)
  | .num n, _ => .ok (.num n)
termination_by structural v => v
/-- Element-wise image of an array, in order. -/
def renderedItems : List JSVal → JSVal → Except JSError (List JSVal)
  | [], _ => .ok []
  | x :: xs, scope =>
    (renderedShape x scope).bind fun y => (renderedItems xs scope).map fun ys => y :: ys
termination_by structural items => items
/-- Image of a mapping: every key kept as it is, every value rendered. -/
def renderedValues : List (List Char × JSVal) → JSVal →
    Except JSError (List (List Char × JSVal))
  | [], _ => .ok []
  | (key, value) :: rest, scope =>
    (renderedShape value scope).bind fun v =>
      (renderedValues rest scope).map fun vs => (key, v) :: vs
termination_by structural entries => entries
end

/-! ## Templates and data of the scenarios -/

/-- The template `Hello {{#each n in names}}{{n}}, {{/each}}bye`. -/
def helloTemplate : List Char :=
  "Hello ".toList ++ eachBlock "n".toList "names".toList (hole "n".toList ++ ", ".toList) ++
    "bye".toList

/-- The data context `{names: ["Ann", "Bo"]}`. -/
def namesData : JSVal :=
  .obj [("names".toList, .arr [.str "Ann".toList, .str "Bo".toList])]

/-- The data context `{x: {name: "P"}, xs: [{}]}`. -/
def shadowData : JSVal :=
  .obj [("x".toList, .obj [("name".toList, .str "P".toList)]), ("xs".toList, .arr [.obj []])]

/-- The data context `{a: a, x: "X", y: "Y"}`. -/
def branchData (a : JSVal) : JSVal :=
  .obj [("a".toList, a), ("x".toList, .str "X".toList), ("y".toList, .str "Y".toList)]

/-- The template `To: {{user.name}} <{{mail}}>`. -/
def mailTemplate : List Char :=
  "To: ".toList ++ hole "user.name".toList ++ " <".toList ++ hole "mail".toList ++ ">".toList

/-- The URL template `https://h/s?{{#each t in tags}}t={{t}}&{{/each}}k={{k}}`. -/
def tagsUrl : List Char :=
  "https://h/s?".toList ++
    eachBlock "t".toList "tags".toList ("t=".toList ++ hole "t".toList ++ "&".toList) ++
    "k=".toList ++ hole "k".toList

/-- The JSON body `{"q": "{{query}}", "opts": [1, null, {"k": "{{query}}!"}]}`. -/
def queryBody : JSVal :=
  .obj [("q".toList, .str (hole "query".toList)),
    ("opts".toList,
      .arr [.num 1, .null, .obj [("k".toList, .str (hole "query".toList ++ "!".toList))]])]

/-- The JSON body `{"__proto__": "x", "q": "{{query}}"}`, with `__proto__` an own key. -/
def protoBody : JSVal :=
  .obj [("__proto__".toList, .str "x".toList), ("q".toList, .str (hole "query".toList))]

/-- The data context `{query: "cats"}`. -/
def queryData : JSVal := .obj [("query".toList, .str "cats".toList)]

/-- The response text `{"message":"bad request"}`. -/
def badRequestText : List Char :=
  "\x7b\"message\":\"bad request\"\x7d".toList

/-- The template `{{#each r in rows}}{{#each c in r.cells}}{{c}}{{/each}};{{/each}}`. -/
def nestedTemplate : List Char :=
  eachBlock "r".toList "rows".toList
    (eachBlock "c".toList "r.cells".toList (hole "c".toList) ++ ";".toList)

/-- The text `{{#each c in r.cells}}{{c}}`: the opener of the inner loop with its body. -/
def innerOpener : List Char :=
  eachOpen ++ " c in r.cells".toList ++ holeClose ++ hole "c".toList

/-- The data context `{rows: [{cells: [1, 2]}, {cells: [3]}]}`. -/
def rowsData : JSVal :=
  .obj [("rows".toList, .arr [.obj [("cells".toList, .arr [.num 1, .num 2])],
    .obj [("cells".toList, .arr [.num 3])]])]

/-- The template `{{#if a}}X{{#if b}}Y{{/if}}Z{{/if}}`. -/
def nestedIfTemplate : List Char :=
  ifBlock "a".toList ("X".toList ++ ifBlock "b".toList "Y".toList ++ "Z".toList)

/-- The text `X{{#if b}}Y`: the text up to the first `{{/if}}` of `nestedIfTemplate`. -/
def innerIfOpener : List Char :=
  "X".toList ++ ifOpen ++ " b".toList ++ holeClose ++ "Y".toList

/-- The data context `{a: a, b: b}`. -/
def abData (a b : JSVal) : JSVal := .obj [("a".toList, a), ("b".toList, b)]

/-- The template `{{#each item in items}}[{{item.title}}]{{/each}}`. -/
def titlesTemplate : List Char :=
  eachBlock "item".toList "items".toList
    ("[".toList ++ hole "item.title".toList ++ "]".toList)

/-- The data context `{item: {title: "P"}, items: items}`. -/
def titlesData (items : List JSVal) : JSVal :=
  .obj [("item".toList, .obj [("title".toList, .str "P".toList)]),
    ("items".toList, .arr items)]

/-- The mapping `{title: title}`. -/
def titled (title : List Char) : JSVal := .obj [("title".toList, .str title)]

/-- The data context `{a: "{{b}}", b: "x"}`. -/
def chainData : JSVal :=
  .obj [("a".toList, .str (hole "b".toList)), ("b".toList, .str "x".toList)]

/-- The template `{{#each x in xs}}{{.}};{{/each}}`. -/
def dotTemplate : List Char :=
  eachBlock "x".toList "xs".toList (hole ".".toList ++ ";".toList)

/-- The template `{{#each x in xs}}{{x}};{{/each}}`. -/
def itemTemplate : List Char :=
  eachBlock "x".toList "xs".toList (hole "x".toList ++ ";".toList)

/-- The data context `{xs: xs}`. -/
def xsData (xs : List JSVal) : JSVal := .obj [("xs".toList, .arr xs)]

/-- A text without the character `{`: plain text for the template engine. -/
def plainText (s : List Char) : Bool := s.all (fun c => c != '{')

/-- A piece of a template without directives: a text, or a placeholder `{{expr}}`. -/
inductive Piece where
  | text (s : List Char)
  | slot (expr : List Char)

/-- The template text of a list of pieces. -/
def templateOf : List Piece → List Char
  | [] => []
  | .text s :: ps => s ++ templateOf ps
  | .slot expr :: ps => hole expr ++ templateOf ps

/-- Every text piece is without `{` and every placeholder holds a path expression. -/
def simplePieces : List Piece → Bool
  | [] => true
  | .text s :: ps => plainText s && simplePieces ps
  | .slot expr :: ps => isExpr expr && simplePieces ps

/-- The pieces rendered from left to right: a text stands for itself, a placeholder for the
text that `substituteVariable` returns for its expression. -/
def renderPieces (formatter : Option Formatter) (localData : JSVal) :
    List Piece → Except JSError (List Char)
  | [] => pure []
  | .text s :: ps => do
    let tail ← renderPieces formatter localData ps
    pure (s ++ tail)
  | .slot expr :: ps => do
    let out ← substituteVariable formatter localData expr
    let tail ← renderPieces formatter localData ps
    pure (out ++ tail)

/-- The template `{{#each x in xs}}{{#if x.ok}}yes{{else}}no{{/if}}{{/each}}`. -/
def okTemplate : List Char :=
  eachBlock "x".toList "xs".toList (ifElseBlock "x.ok".toList "yes".toList "no".toList)

/-- The data context `{x: {ok: true}, xs: [{ok: true}, {ok: 0}, {}]}`. -/
def okData : JSVal :=
  .obj [("x".toList, .obj [("ok".toList, .bool true)]),
    ("xs".toList, .arr [.obj [("ok".toList, .bool true)], .obj [("ok".toList, .num 0)],
      .obj []])]

/-- The template `{{#each n in names}}{{n}}{{/each}}`. -/
def leakTemplate : List Char :=
  eachBlock "n".toList "names".toList (hole "n".toList)

/-- The data context `{names: ["{{secret}}"], secret: v}`. -/
def leakData (v : JSVal) : JSVal :=
  .obj [("names".toList, .arr [.str (hole "secret".toList)]), ("secret".toList, v)]

/-- The data context `{names: ["{{#if secret}}Y{{else}}N{{/if}}"], secret: v}`. -/
def gateData (v : JSVal) : JSVal :=
  .obj [("names".toList, .arr [.str (ifElseBlock "secret".toList "Y".toList "N".toList)]),
    ("secret".toList, v)]

/-- The path text of a list of segments: the segments joined with `.`. -/
def joinDots : List (List Char) → List Char
  | [] => []
  | [seg] => seg
  | seg :: next :: rest => seg ++ '.' :: joinDots (next :: rest)

/-- The data context `{a: {"9007199254740992": "even", "9007199254740993": "odd"}}`. -/
def bigIndexData : JSVal :=
  .obj [("a".toList, .obj [("9007199254740992".toList, .str "even".toList),
    ("9007199254740993".toList, .str "odd".toList)])]

/-- The data context `{a: {b: [0, {c: "x"}]}, n: null}`. -/
def pathData : JSVal :=
  .obj [("a".toList, .obj [("b".toList, .arr [.num 0, .obj [("c".toList, .str "x".toList)]])]),
    ("n".toList, .null)]

/-- The data context `{m: [[1, 2], [3, 4]]}`. -/
def matrixData : JSVal :=
  .obj [("m".toList, .arr [.arr [.num 1, .num 2], .arr [.num 3, .num 4]])]

end Template

/-! # Share context of `src/config/context.js`

The method `Context._initShareContext` is a function of the fields of `CONST` and `ENV` that it
reads, of the object `SHARE_CONTEXT` before the call and of the message.  It returns the
outcome of the call (a normal return, or what is thrown; the method is `async`, so a throw
rejects the promise) together with `SHARE_CONTEXT` as the call leaves it, since assignments
made before a throw stay. -/

namespace Context

open Template

/-- What `_initShareContext` and `mergeObject` can raise: an `Error` with its message, or the
`TypeError` of a property read on `undefined` or `null` or of a call of what is no function. -/
inductive Thrown where
  | error (message : List Char)
  | typeError
  deriving DecidableEq, Repr

/-- The field of `CONST` that `_initShareContext` reads: an array of strings. -/
structure Const where
  GROUP_TYPES : List (List Char)

/-- The field of `ENV` that `_initShareContext` reads. -/
structure Env where
  GROUP_CHAT_BOT_SHARE_MODE : JSVal

/-- The object `SHARE_CONTEXT`. -/
structure ShareContext where
  currentBotId : JSVal
  currentBotToken : JSVal
  currentBotName : JSVal
  chatHistoryKey : JSVal
  chatLastMessageIdKey : JSVal
  configStoreKey : JSVal
  groupAdminKey : JSVal
  usageKey : JSVal
  chatType : JSVal
  chatId : JSVal
  speakerId : JSVal
  extraMessageContext : JSVal

/-- The test `value === undefined || value === null`. -/
def isNullish : JSVal → Bool
  | .undefined => true
  | .null => true
  | _ => false

/-- The call `array.includes(value)` on an array of strings. -/
def includes (array : List (List Char)) : JSVal → Bool
  | .str s => array.contains s
  | _ => false

/-- The text a template literal takes for the part `${value}`: the conversion to a string,
which throws a `TypeError` where `String(value)` does. -/
def literal (value : JSVal) : Except Thrown (List Char) :=
  match toJSString value with
  | .ok text => .ok text
  | .error _ => .error .typeError

/-- The update `key += ":" + text`, for the text of the template literal part. -/
def appendId (key text : List Char) : List Char :=
  key ++ ':' :: text

/-- The expression `message?.chat?.id`. -/
def messageChatId (message : JSVal) : JSVal :=
  getProp (getProp message "chat".toList) "id".toList

/-- The expression `message.chat?.type`. -/
def messageChatType (message : JSVal) : JSVal :=
  getProp (getProp message "chat".toList) "type".toList

/-- The value of `message.from.id` when `message.from` is neither `undefined` nor `null`. -/
def messageFromId (message : JSVal) : JSVal :=
  getProp (getProp message "from".toList) "id".toList

/-- The test `CONST.GROUP_TYPES.includes(message.chat?.type)`. -/
def isGroupType (CONST : Const) (message : JSVal) : Bool :=
  includes CONST.GROUP_TYPES (messageChatType message)

/-- The three nested tests of the topic block: `message?.chat?.is_forum`,
`message?.is_topic_message` and `message?.message_thread_id` are all truthy. -/
def inTopic (message : JSVal) : Bool :=
  truthy (getProp (getProp message "chat".toList) "is_forum".toList) &&
    truthy (getProp message "is_topic_message".toList) &&
    truthy (getProp message "message_thread_id".toList)

/-- The method `Context._initShareContext(message)`.  The template literals convert the bot
id, the chat id and, where they are appended, the id of the sender and of the thread; each
conversion may throw, and all of them come before the first assignment of a key. -/
def _initShareContext (CONST : Const) (ENV : Env) (SHARE_CONTEXT : ShareContext)
    (message : JSVal) : Except Thrown Unit × ShareContext :=
  match literal SHARE_CONTEXT.currentBotId with
  | .error e => (.error e, SHARE_CONTEXT)
  | .ok botText =>
    let ctx₁ := { SHARE_CONTEXT with usageKey := .str ("usage:".toList ++ botText) }
    let id := messageChatId message
    if isNullish id then (.error (.error "Chat id not found".toList), ctx₁)
    else
      match literal id with
      | .error e => (.error e, ctx₁)
      | .ok idText =>
        let botId := ctx₁.currentBotId
        let historyKey₀ := "history:".toList ++ idText
        let configStoreKey₀ := "user_config:".toList ++ idText
        let historyKey₁ := if truthy botId then appendId historyKey₀ botText else historyKey₀
        let configStoreKey₁ :=
          if truthy botId then appendId configStoreKey₀ botText else configStoreKey₀
        let isGroup := isGroupType CONST message
        let readsFrom := isGroup && !truthy ENV.GROUP_CHAT_BOT_SHARE_MODE
        if readsFrom && isNullish (getProp message "from".toList) then
          (.error .typeError, ctx₁)
        else
          let addsFrom := readsFrom && truthy (messageFromId message)
          match (if addsFrom then literal (messageFromId message) else .ok []) with
          | .error e => (.error e, ctx₁)
          | .ok fromText =>
            let historyKey₂ := if addsFrom then appendId historyKey₁ fromText else historyKey₁
            let configStoreKey₂ :=
              if addsFrom then appendId configStoreKey₁ fromText else configStoreKey₁
            let groupAdminKey : JSVal :=
              if isGroup then .str ("group_admin:".toList ++ idText) else .null
            let threadId := getProp message "message_thread_id".toList
            match (if inTopic message then literal threadId else .ok []) with
            | .error e => (.error e, ctx₁)
            | .ok threadText =>
              let historyKey₃ :=
                if inTopic message then appendId historyKey₂ threadText else historyKey₂
              let configStoreKey₃ :=
                if inTopic message then appendId configStoreKey₂ threadText
                else configStoreKey₂
              let ctx₂ := { ctx₁ with
                chatHistoryKey := .str historyKey₃
                chatLastMessageIdKey := .str ("last_message_id:".toList ++ historyKey₃)
                configStoreKey := .str configStoreKey₃
                groupAdminKey := groupAdminKey
                chatType := messageChatType message
                chatId := id }
              if isNullish (getProp message "from".toList) then (.error .typeError, ctx₂)
              else
                (.ok (), { ctx₂ with
                  speakerId :=
                    if truthy (messageFromId message) then messageFromId message else id })

/-- The object `SHARE_CONTEXT` of a fresh `Context` after `initTelegramContext` has stored
the bot id `botId`. -/
def freshContext (botId : JSVal) : ShareContext :=
  { currentBotId := botId, currentBotToken := .null, currentBotName := .null,
    chatHistoryKey := .null, chatLastMessageIdKey := .null, configStoreKey := .null,
    groupAdminKey := .null, usageKey := .null, chatType := .null, chatId := .null,
    speakerId := .null, extraMessageContext := .null }

/-- The group types `['group', 'supergroup']`. -/
def groupTypes : Const := { GROUP_TYPES := ["group".toList, "supergroup".toList] }

/-- A message `{chat: {id: chatId, type: chatType}, from: {id: fromId}}`. -/
def messageOf (chatId : JSVal) (chatType : List Char) (fromId : JSVal) : JSVal :=
  .obj [("chat".toList, .obj [("id".toList, chatId), ("type".toList, .str chatType)]),
    ("from".toList, .obj [("id".toList, fromId)])]

/-- The forum topic message `{chat: {id: -100, type: "supergroup", is_forum: true},
from: {id: 42}, is_topic_message: true, message_thread_id: 5}`. -/
def topicMessage : JSVal :=
  .obj [("chat".toList, .obj [("id".toList, .num (-100)),
      ("type".toList, .str "supergroup".toList), ("is_forum".toList, .bool true)]),
    ("from".toList, .obj [("id".toList, .num 42)]),
    ("is_topic_message".toList, .bool true), ("message_thread_id".toList, .num 5)]

/-- A value that `String` cannot convert: the mapping `{toString: 1}`. -/
def unprintable : JSVal := .obj [("toString".toList, .num 1)]

/-! ## The function `mergeObject`

The target is a mapping, given by its entries; `Object.keys(target)` is read once, before
the loop, and the outcome of the loop does not depend on the order in which the keys are
visited (`mergeKeys_order`).  The call returns the outcome together with the target as the
call leaves it. -/

/-- The operator `typeof` on the values of a JSON tree. -/
def typeOf : JSVal → List Char
  | .undefined => "undefined".toList
  | .null => "object".toList
  | .bool _ => "boolean".toList
  | .num _ => "number".toList
  | .str _ => "string".toList
  | .arr _ => "object".toList
  | .obj _ => "object".toList

/-- The comparison that `Array.prototype.includes` makes between an element and the string
`key`. -/
def sameString (key : List Char) : JSVal → Bool
  | .str s => decide (s = key)
  | _ => false

/-- The test `keys !== null && !keys.includes(key)`.  An array has the method of
`Array.prototype`, a string the substring test of `String.prototype`; on any other value
other than `null` the call of `keys.includes` throws a `TypeError`. -/
def excluded (keys : JSVal) (key : List Char) : Except Thrown Bool :=
  match keys with
  | .null => .ok false
  | .arr xs => .ok (!xs.any (sameString key))
  | .str s => .ok (!containsText key s)
  | _ => .error .typeError

/-- The loop of `mergeObject` over the keys that are still to be visited. -/
def mergeKeys (source keys : JSVal) :
    List (List Char) → List (List Char × JSVal) →
      Except Thrown Unit × List (List Char × JSVal)
  | [], target => (.ok (), target)
  | key :: rest, target =>
    if isNullish source then (.error .typeError, target)
    else if truthy (getProp source key) then
      match excluded keys key with
      | .error e => (.error e, target)
      | .ok true => mergeKeys source keys rest target
      | .ok false =>
        if typeOf (getProp source key) = typeOf (lookupKey key target) then
          mergeKeys source keys rest (defineProp key (getProp source key) target)
        else mergeKeys source keys rest target
    else mergeKeys source keys rest target

/-- The function `mergeObject(target, source, keys)`. -/
def mergeObject (target : List (List Char × JSVal)) (source keys : JSVal) :
    Except Thrown Unit × List (List Char × JSVal) :=
  mergeKeys source keys (target.map Prod.fst) target

/-- The three conditions under which the loop assigns `target[key] = source[key]`: the
source value is truthy, the key is not excluded by `keys`, and both values have the same
`typeof`. -/
def merges (target : List (List Char × JSVal)) (source keys : JSVal) (key : List Char) :
    Bool :=
  truthy (getProp source key) && decide (excluded keys key = .ok false) &&
    decide (typeOf (getProp source key) = typeOf (lookupKey key target))

/-- The values of `keys` on which `keys.includes` can be called. -/
def hasIncludes : JSVal → Bool
  | .null => true
  | .arr _ => true
  | .str _ => true
  | _ => false

/-- The visit of `key` throws: `source[key]` on `undefined` or `null`, or the call of
`keys.includes` for a truthy source value when `keys` has no such method. -/
def throwsAt (source keys : JSVal) (key : List Char) : Bool :=
  isNullish source || (truthy (getProp source key) && !hasIncludes keys)

/-- The target `{on: true, n: 1, name: "x", list: null}`. -/
def configTarget : List (List Char × JSVal) :=
  [("on".toList, .bool true), ("n".toList, .num 1), ("name".toList, .str "x".toList),
    ("list".toList, .null)]

/-- The source `{on: false, n: 0, name: "", list: ["a"], extra: 5}`. -/
def falsySource : JSVal :=
  .obj [("on".toList, .bool false), ("n".toList, .num 0), ("name".toList, .str []),
    ("list".toList, .arr [.str "a".toList]), ("extra".toList, .num 5)]

/-- The source `{on: "yes", n: 7, name: "y"}`. -/
def mixedSource : JSVal :=
  .obj [("on".toList, .str "yes".toList), ("n".toList, .num 7),
    ("name".toList, .str "y".toList)]

end Context

namespace Template

/-! ## Lemmas on the matcher -/

theorem dropLit_append (p s : List Char) : dropLit p (p ++ s) = some s := by
  induction p with
  | nil => cases s <;> rfl
  | cons a p ih => simp [dropLit, ih]

theorem dropLit_nil (s : List Char) : dropLit [] s = some s := by
  cases s <;> rfl

theorem dropLit_eq_some {p s r : List Char} (h : dropLit p s = some r) : s = p ++ r := by
  induction p generalizing s with
  | nil => rw [dropLit_nil] at h; simpa using h
  | cons a p ih =>
    cases s with
    | nil => simp [dropLit] at h
    | cons b s =>
      simp only [dropLit] at h
      split at h
      · next hab => subst hab; simp [ih h]
      · simp at h

theorem dropLit_overlap {p u v r : List Char} (h : dropLit p (u ++ v) = some r) :
    (dropLit p u).isSome = true ∨
      (u.length < p.length ∧ (dropLit (p.drop u.length) v).isSome = true) := by
  induction u generalizing p with
  | nil =>
    cases p with
    | nil => left; rfl
    | cons a p => right; simp at h; simp [h]
  | cons b u ih =>
    cases p with
    | nil => left; rfl
    | cons a p =>
      simp only [List.cons_append, dropLit] at h
      split at h
      · next hab =>
        rcases ih h with h1 | ⟨h1, h2⟩
        · left; simp [dropLit, hab, h1]
        · right; simp [h1, h2]
      · simp at h

/-- A text that does not occur in `u` cannot start inside `u` and end in `v` when
no proper suffix of it starts `v`. -/
theorem dropLit_straddle {p u v : List Char} (hu : u ≠ [])
    (hp : (dropLit p u).isSome = false)
    (hv : ∀ k, 0 < k → k < p.length → dropLit (p.drop k) v = none) :
    dropLit p (u ++ v) = none := by
  cases hd : dropLit p (u ++ v) with
  | none => rfl
  | some r =>
    rcases dropLit_overlap hd with h1 | ⟨h1, h2⟩
    · simp [hp] at h1
    · have hpos : 0 < u.length := List.length_pos.mpr hu
      rw [hv _ hpos h1] at h2
      simp at h2

theorem containsText_head {p s : List Char} (h : containsText p s = false) :
    (dropLit p s).isSome = false := by
  cases s with
  | nil => simpa [containsText] using h
  | cons a s =>
    simp only [containsText, Bool.or_eq_false_iff] at h
    exact h.1

theorem containsText_suffix {p : List Char} (pre u : List Char)
    (h : containsText p (pre ++ u) = false) : containsText p u = false := by
  induction pre with
  | nil => simpa using h
  | cons a pre ih =>
    simp only [List.cons_append, containsText, Bool.or_eq_false_iff] at h
    exact ih h.2

theorem containsText_dropLit {p : List Char} (pre u : List Char)
    (h : containsText p (pre ++ u) = false) : dropLit p u = none := by
  have := containsText_head (containsText_suffix pre u h)
  cases hd : dropLit p u with
  | none => rfl
  | some r => simp [hd] at this

theorem containsText_append {p u v : List Char} (hu : containsText p u = false)
    (hv : containsText p v = false)
    (ho : ∀ k, 0 < k → k < p.length → dropLit (p.drop k) v = none) :
    containsText p (u ++ v) = false := by
  induction u with
  | nil => simpa using hv
  | cons a u ih =>
    simp only [containsText, Bool.or_eq_false_iff] at hu
    simp only [List.cons_append, containsText, Bool.or_eq_false_iff]
    refine ⟨?_, ih hu.2⟩
    have := dropLit_straddle (u := a :: u) (v := v) (by simp) hu.1 ho
    simpa using congrArg Option.isSome this

theorem containsText_longer {p q s : List Char} (h : containsText p s = false) :
    containsText (p ++ q) s = false := by
  have key : ∀ t : List Char, (dropLit p t).isSome = false →
      (dropLit (p ++ q) t).isSome = false := by
    intro t ht
    cases hd : dropLit (p ++ q) t with
    | none => rfl
    | some r =>
      have h1 := dropLit_eq_some hd
      rw [List.append_assoc] at h1
      rw [h1, dropLit_append] at ht
      simp at ht
  induction s with
  | nil => simp only [containsText] at h ⊢; exact key _ h
  | cons a s ih =>
    simp only [containsText, Bool.or_eq_false_iff] at h ⊢
    exact ⟨key _ h.1, ih h.2⟩

theorem take_consumed (w s : List Char) : (w ++ s).take ((w ++ s).length - s.length) = w := by
  simp

theorem greedyStar_stop {α : Type} (cls : Char → Bool) (s : List Char) (c : Caps)
    (k : List Char → Caps → Option α) (hs : stopsAt cls s = true) :
    greedyStar cls s c k = k s c := by
  cases s with
  | nil => rfl
  | cons a s => simp [stopsAt] at hs; simp [greedyStar, hs]

theorem greedyStar_run {α : Type} (cls : Char → Bool) (w s : List Char) (c : Caps)
    (k : List Char → Caps → Option α) (r : α) (hw : w.all cls = true)
    (hs : stopsAt cls s = true) (hk : k s c = some r) :
    greedyStar cls (w ++ s) c k = some r := by
  induction w with
  | nil => simpa [greedyStar_stop cls s c k hs] using hk
  | cons a w ih =>
    simp only [List.all_cons, Bool.and_eq_true] at hw
    simp [greedyStar, hw.1, ih hw.2]

theorem run_lit {α : Type} (p s : List Char) (c : Caps) (k : List Char → Caps → Option α) :
    (Re.lit p).run (p ++ s) c k = k s c := by
  simp [Re.run, dropLit_append]

theorem run_lit_none {α : Type} (p s : List Char) (c : Caps)
    (k : List Char → Caps → Option α) (h : dropLit p s = none) :
    (Re.lit p).run s c k = none := by
  simp [Re.run, h]

theorem run_plus {α : Type} (cls : Char → Bool) (w s : List Char) (c : Caps)
    (k : List Char → Caps → Option α) (r : α) (hne : w ≠ []) (hw : w.all cls = true)
    (hs : stopsAt cls s = true) (hk : k s c = some r) :
    (Re.plus cls).run (w ++ s) c k = some r := by
  cases w with
  | nil => exact absurd rfl hne
  | cons a w =>
    simp only [List.all_cons, Bool.and_eq_true] at hw
    simp [Re.run, hw.1, greedyStar_run cls w s c k r hw.2 hs hk]

theorem run_group_plus {α : Type} (i : Nat) (cls : Char → Bool) (w s : List Char) (c : Caps)
    (k : List Char → Caps → Option α) (r : α) (hne : w ≠ []) (hw : w.all cls = true)
    (hs : stopsAt cls s = true) (hk : k s (setCap c i w) = some r) :
    (Re.group i (.plus cls)).run (w ++ s) c k = some r := by
  simp only [Re.run]
  apply run_plus cls w s c _ r hne hw hs
  simpa using hk

theorem lazyStarRun_skip {α : Type} (B s : List Char) (c : Caps)
    (k : List Char → Caps → Option α) (r : α)
    (hB : ∀ pre u, B = pre ++ u → u ≠ [] → k (u ++ s) c = none) (hk : k s c = some r) :
    lazyStarRun anyChar (B ++ s) c k = some r := by
  induction B with
  | nil =>
    cases s with
    | nil => simpa [lazyStarRun] using hk
    | cons a s => simp [lazyStarRun, hk]
  | cons a B ih =>
    have h0 := hB [] (a :: B) rfl (by simp)
    simp only [List.cons_append] at h0
    rw [List.cons_append, lazyStarRun, h0]
    simp only [anyChar, if_true]
    exact ih (fun pre u hpre hu => hB (a :: pre) u (by simp [hpre]) hu)

theorem run_group_lazy {α : Type} (i : Nat) (B s : List Char) (c : Caps)
    (k : List Char → Caps → Option α) (r : α)
    (hB : ∀ pre u c', B = pre ++ u → u ≠ [] → k (u ++ s) c' = none)
    (hk : k s (setCap c i B) = some r) :
    (Re.group i (.lazyStar anyChar)).run (B ++ s) c k = some r := by
  simp only [Re.run]
  apply lazyStarRun_skip B s c _ r
  · intro pre u hpre hu
    exact hB pre u _ hpre hu
  · simpa using hk

theorem replaceFrom_skip (r : Re) (f : Caps → Except JSError (List Char)) (w s : List Char) :
    replaceFrom r f w.length (w ++ s) = replaceFrom r f 0 s := by
  induction w with
  | nil => rfl
  | cons a w ih => simpa [replaceFrom] using ih

theorem replaceFrom_match (r : Re) (f : Caps → Except JSError (List Char))
    (m rest : List Char) (c : Caps) (hm : m ≠ [])
    (he : r.exec (m ++ rest) = some (c, rest)) :
    replaceFrom r f 0 (m ++ rest) =
      (do let out ← f c
          let tail ← replaceFrom r f 0 rest
          pure (out ++ tail)) := by
  cases m with
  | nil => exact absurd rfl hm
  | cons a m =>
    rw [List.cons_append] at he ⊢
    rw [replaceFrom, he]
    have hlen : (a :: (m ++ rest)).length - rest.length = m.length + 1 := by
      simp; omega
    simp only [hlen, Nat.add_one_ne_zero, if_false, Nat.add_sub_cancel, replaceFrom_skip]

theorem replaceFrom_noMatch (r : Re) (f : Caps → Except JSError (List Char)) (s : List Char)
    (h : ∀ pre u, s = pre ++ u → r.exec u = none) :
    replaceFrom r f 0 s = .ok s := by
  induction s with
  | nil => simp [replaceFrom, h [] [] rfl]; rfl
  | cons a s ih =>
    have h0 := h [] (a :: s) rfl
    have ih' := ih (fun pre u hpre => h (a :: pre) u (by simp [hpre]))
    simp [replaceFrom, h0, ih']

theorem exec_lit_none (p : List Char) (r : Re) (u : List Char) (h : dropLit p u = none) :
    (Re.seq (.lit p) r).exec u = none := by
  simp [Re.exec, Re.run, h]

/-- A pass whose pattern starts with a literal leaves a text without that literal unchanged. -/
theorem replace_absent (p : List Char) (r : Re) (f : Caps → Except JSError (List Char))
    (s : List Char) (h : containsText p s = false) :
    replace (Re.seq (.lit p) r) f s = .ok s := by
  apply replaceFrom_noMatch
  intro pre u hs
  exact exec_lit_none p r u (containsText_dropLit pre u (hs ▸ h))

theorem run_seq {α : Type} (a b : Re) (s : List Char) (c : Caps)
    (k : List Char → Caps → Option α) :
    (Re.seq a b).run s c k = a.run s c (fun rest c' => b.run rest c' k) := rfl

theorem stopsAt_of_all {cls cls' : Char → Bool} (w t : List Char) (hne : w ≠ [])
    (hw : w.all cls' = true) (hd : ∀ a, cls' a = true → cls a = false) :
    stopsAt cls (w ++ t) = true := by
  cases w with
  | nil => exact absurd rfl hne
  | cons a w =>
    simp only [List.all_cons, Bool.and_eq_true] at hw
    simp [stopsAt, hd a hw.1]

theorem isWord_not_isSpace (a : Char) (h : isWord a = true) : isSpace a = false := by
  simp only [isWord, Bool.or_eq_true, Bool.and_eq_true, decide_eq_true_eq] at h
  simp only [isSpace]
  have h1 : ('a' : Char).toNat = 97 := rfl
  have h2 : ('z' : Char).toNat = 122 := rfl
  have h3 : ('A' : Char).toNat = 65 := rfl
  have h4 : ('Z' : Char).toNat = 90 := rfl
  have h5 : ('0' : Char).toNat = 48 := rfl
  have h6 : ('9' : Char).toNat = 57 := rfl
  have h7 : ('_' : Char).toNat = 95 := rfl
  have hle : ∀ a b : Char, a ≤ b ↔ a.toNat ≤ b.toNat := fun a b => Iff.rfl
  simp only [hle, h1, h2, h3, h4, h5, h6] at h
  have : 48 ≤ a.toNat ∧ a.toNat ≤ 122 := by
    rcases h with ((h | h) | h) | h
    · omega
    · omega
    · omega
    · subst h; simp [h7]
  simp
  omega

theorem isExprChar_not_isSpace (a : Char) (h : isExprChar a = true) : isSpace a = false := by
  simp only [isExprChar, Bool.or_eq_true, decide_eq_true_eq] at h
  rcases h with ((h | h) | h) | h
  · exact isWord_not_isSpace a h
  · subst h; decide
  · subst h; decide
  · subst h; decide

theorem loop_exec (x A B rest : List Char) (hx : isName x = true) (hA : isExpr A = true)
    (hB : containsText eachClose B = false) :
    INTERPOLATE_LOOP_REGEXP.exec
        (eachOpen ++ [' '] ++ x ++ " in ".toList ++ A ++ holeClose ++ B ++
          eachClose ++ rest) =
      some (setCap (setCap (setCap (fun _ => none) 1 x) 2 A) 3 B, rest) := by
  simp only [isName, isExpr, Bool.and_eq_true, Bool.not_eq_true', List.isEmpty_eq_false] at hx hA
  have hx0 : x ≠ [] := by intro h; simp [h] at hx
  have hA0 : A ≠ [] := by intro h; simp [h] at hA
  have e : eachOpen ++ [' '] ++ x ++ " in ".toList ++ A ++ holeClose ++ B ++
      eachClose ++ rest =
      eachOpen ++ ([' '] ++ (x ++ ([' '] ++ ("in".toList ++ ([' '] ++ (A ++
        (holeClose ++ (B ++ (eachClose ++ rest))))))))) := by simp
  rw [e]
  unfold INTERPOLATE_LOOP_REGEXP Re.exec
  simp only [Re.cat]
  rw [run_seq, run_lit, run_seq]
  refine run_plus isSpace [' '] _ _ _ _ (by simp) (by decide)
    (stopsAt_of_all x _ hx0 hx.2 isWord_not_isSpace) ?_
  rw [run_seq]
  refine run_group_plus 1 isWord x _ _ _ _ hx0 hx.2 ?_ ?_
  · rfl
  rw [run_seq]
  refine run_plus isSpace [' '] _ _ _ _ (by simp) (by decide) ?_ ?_
  · rfl
  rw [run_seq, run_lit, run_seq]
  refine run_plus isSpace [' '] _ _ _ _ (by simp) (by decide)
    (stopsAt_of_all A _ hA0 hA.2 isExprChar_not_isSpace) ?_
  rw [run_seq]
  refine run_group_plus 2 isExprChar A _ _ _ _ hA0 hA.2 ?_ ?_
  · rfl
  rw [run_seq, run_lit, run_seq]
  apply run_group_lazy 3 B
  · intro pre u c' hpre hu
    apply run_lit_none
    apply dropLit_straddle hu (containsText_head (containsText_suffix pre u (hpre ▸ hB)))
    intro k hk0 hk1
    have hk2 : k < 9 := hk1
    interval_cases k <;> rfl
  · rw [run_lit]

theorem ok_bind {α β : Type} (a : α) (f : α → Except JSError β) :
    (Except.ok a >>= f) = f a := rfl

theorem error_bind {α β : Type} (e : JSError) (f : α → Except JSError β) :
    (Except.error e >>= f) = Except.error e := rfl

theorem loopPass_absent (render : List Char → JSVal → Except JSError (List Char))
    (d : JSVal) (s : List Char) (h : containsText eachOpen s = false) :
    loopPass render d s = .ok s :=
  replace_absent _ _ _ s h

theorem conditionPass_absent (d : JSVal) (s : List Char)
    (h : containsText ifOpen s = false) : conditionPass d s = .ok s :=
  replace_absent _ _ _ s h

theorem variablePass_absent (f : Option Formatter) (d : JSVal) (s : List Char)
    (h : containsText holeOpen s = false) : variablePass f d s = .ok s :=
  replace_absent _ _ _ s h

/-- A template without loop and conditional openers is rendered by the variable pass alone,
whatever the recursion budget. -/
theorem interpolateFuel_plain (fuel : Nat) (t : List Char) (d : JSVal) (f : Option Formatter)
    (h₁ : containsText eachOpen t = false) (h₂ : containsText ifOpen t = false) :
    interpolateFuel (fuel + 1) t d f = variablePass f d t := by
  simp only [interpolateFuel, processTemplate, loopPass_absent _ d t h₁,
    conditionPass_absent d t h₂, ok_bind]

theorem interpolate_plain (t : List Char) (d : JSVal) (f : Option Formatter)
    (h₁ : containsText eachOpen t = false) (h₂ : containsText ifOpen t = false) :
    interpolate t d f = variablePass f d t :=
  interpolateFuel_plain _ t d f h₁ h₂

theorem directiveFree_iff (s : List Char) :
    directiveFree s = true ↔
      containsText eachOpen s = false ∧ containsText ifOpen s = false ∧
      containsText elseTag s = false ∧ containsText ifClose s = false ∧
      containsText eachClose s = false := by
  simp [directiveFree, and_assoc]

theorem renderItems_congr (r₁ r₂ : List Char → JSVal → Except JSError (List Char))
    (x B : List Char) (d : JSVal) (xs : List JSVal) (h : ∀ s, r₁ B s = r₂ B s) :
    renderItems r₁ x B d xs = renderItems r₂ x B d xs := by
  induction xs with
  | nil => rfl
  | cons a xs ih => simp only [renderItems, h, ih]

theorem replaceFrom_total (r : Re) (f : Caps → Except JSError (List Char))
    (hf : ∀ c, ∃ o, f c = .ok o) (skip : Nat) (s : List Char) :
    ∃ o, replaceFrom r f skip s = .ok o := by
  induction s generalizing skip with
  | nil =>
    simp only [replaceFrom]
    split
    · exact hf _
    · exact ⟨[], rfl⟩
  | cons a s ih =>
    cases skip with
    | succ n => simpa [replaceFrom] using ih n
    | zero =>
      simp only [replaceFrom]
      split
      · next c rest _ =>
        obtain ⟨o, ho⟩ := hf c
        simp only [ho]
        split
        · obtain ⟨o', ho'⟩ := ih 0
          exact ⟨_, by rw [ho']; rfl⟩
        · obtain ⟨o', ho'⟩ := ih ((a :: s).length - rest.length - 1)
          exact ⟨_, by rw [ho']; rfl⟩
      · obtain ⟨o', ho'⟩ := ih 0
        exact ⟨_, by rw [ho']; rfl⟩

theorem evaluateExpression_obj (e : List Char) (kvs : List (List Char × JSVal)) :
    ∃ v, evaluateExpression e (.obj kvs) = .ok v := by
  unfold evaluateExpression
  split
  · simp only []
    split <;> exact ⟨_, rfl⟩
  · exact ⟨_, rfl⟩

theorem renderItems_fuel (fuel : Nat) (x B : List Char) (scope : JSVal) (xs : List JSVal)
    (h₁ : containsText eachOpen B = false) (h₂ : containsText ifOpen B = false) :
    renderItems (fun b s => interpolateFuel (fuel + 1) b s none) x B scope xs =
      renderItems (fun b s => interpolate b s none) x B scope xs :=
  renderItems_congr _ _ x B scope xs
    (fun s => by rw [interpolateFuel_plain fuel B s none h₁ h₂, interpolate_plain B s none h₁ h₂])

theorem renderItems_outs (render : List Char → JSVal → Except JSError (List Char))
    (x B : List Char) (scope : JSVal) (xs : List JSVal) (outs : List (List Char))
    (h : List.Forall₂ (fun item out => render B (itemData scope x item) = .ok out) xs outs) :
    renderItems render x B scope xs = .ok outs.flatten := by
  induction h with
  | nil => rfl
  | cons h₁ _ ih => simp only [renderItems, h₁, ih, ok_bind, List.flatten_cons]; rfl

theorem renderItems_throws (render : List Char → JSVal → Except JSError (List Char))
    (x B : List Char) (scope : JSVal) (xs : List JSVal) (item : JSVal) (e : JSError)
    (hi : item ∈ xs) (h : render B (itemData scope x item) = .error e) :
    ∃ e', renderItems render x B scope xs = .error e' := by
  induction xs with
  | nil => cases hi
  | cons a xs ih =>
    simp only [renderItems]
    cases ha : render B (itemData scope x a) with
    | error e' => exact ⟨e', rfl⟩
    | ok out =>
      have hi' : item ∈ xs := by
        rcases List.mem_cons.mp hi with rfl | hi'
        · rw [h] at ha; cases ha
        · exact hi'
      obtain ⟨e', he'⟩ := ih hi'
      exact ⟨e', by rw [he']; rfl⟩

theorem loopPass_each (render : List Char → JSVal → Except JSError (List Char))
    (x A B : List Char) (scope : JSVal) (hx : isName x = true) (hA : isExpr A = true)
    (hB : containsText eachClose B = false) :
    loopPass render scope
        (eachOpen ++ [' '] ++ x ++ " in ".toList ++ A ++ holeClose ++ B ++
          eachClose) =
      processLoop render x A B scope := by
  have hm := replaceFrom_match INTERPOLATE_LOOP_REGEXP
    (fun c => processLoop render ((c 1).getD []) ((c 2).getD []) ((c 3).getD []) scope)
    (eachOpen ++ [' '] ++ x ++ " in ".toList ++ A ++ holeClose ++ B ++ eachClose) []
    _ (by simp) (loop_exec x A B [] hx hA hB)
  rw [List.append_nil] at hm
  rw [loopPass, replace, hm]
  have h0 : replaceFrom INTERPOLATE_LOOP_REGEXP
      (fun c => processLoop render ((c 1).getD []) ((c 2).getD []) ((c 3).getD []) scope) 0 [] =
      .ok [] := rfl
  rw [h0]
  simp only [setCap]
  simp
  cases processLoop render x A B scope <;> simp [bind, Except.bind, pure, Except.pure]

/-- C1 (amended): for a loop item name `x`, a path `A` that evaluates to an array and a
directive-free body `B`, the render of `{{#each x in A}}B{{/each}}` is the concatenation of
the renders of `B` for the elements (`renderItems`: in element order, without separator, the
first element render that throws making the loop throw), passed once more through the
conditional and the variable pass of the enclosing scope.  When every element renders, to
`outs`, the loop renders the concatenation of `outs` passed through these two passes, and
the concatenation itself when it contains no `{{`; when an element render throws, so does
the loop.  The scenario `Hello {{#each n in names}}{{n}}, {{/each}}bye` renders
`Hello Ann, Bo, bye`. -/
theorem interpolate_each (x A B : List Char) (scope : JSVal) (xs : List JSVal)
    (fmt : Option Formatter) (hx : isName x = true) (hA : isExpr A = true)
    (hB : directiveFree B = true) (hxs : evaluateExpression A scope = .ok (.arr xs)) :
    interpolate (eachBlock x A B) scope fmt =
      (do let joined ← renderItems (fun b s => interpolate b s none) x B scope xs
          let t ← conditionPass scope joined
          variablePass fmt scope t) ∧
    (∀ outs : List (List Char),
      List.Forall₂ (fun item out => interpolate B (itemData scope x item) = .ok out) xs outs →
      interpolate (eachBlock x A B) scope fmt =
        (conditionPass scope outs.flatten >>= variablePass fmt scope) ∧
      (containsText holeOpen outs.flatten = false →
        interpolate (eachBlock x A B) scope fmt = .ok outs.flatten)) ∧
    (∀ item e, item ∈ xs → interpolate B (itemData scope x item) = .error e →
      ∃ e', interpolate (eachBlock x A B) scope fmt = .error e') ∧
    interpolate helloTemplate namesData = .ok "Hello Ann, Bo, bye".toList := by
  obtain ⟨h1, h2, -, -, h5⟩ := (directiveFree_iff B).mp hB
  have key : interpolate (eachBlock x A B) scope fmt =
      (do let joined ← renderItems (fun b s => interpolate b s none) x B scope xs
          let t ← conditionPass scope joined
          variablePass fmt scope t) := by
    have hlen : ∃ k, (eachBlock x A B).length = k + 1 := ⟨_, by simp [eachBlock]; rfl⟩
    obtain ⟨k, hk⟩ := hlen
    rw [interpolate, hk, interpolateFuel, processTemplate, eachBlock,
      loopPass_each _ x A B scope hx hA h5, processLoop, hxs]
    simp only [ok_bind, renderItems_fuel k x B scope xs h1 h2]
  refine ⟨key, fun outs ho => ?_, fun item e hi he => ?_, by rfl⟩
  · have hr := renderItems_outs (fun b s => interpolate b s none) x B scope xs outs ho
    have key' : interpolate (eachBlock x A B) scope fmt =
        (conditionPass scope outs.flatten >>= variablePass fmt scope) := by
      rw [key, hr]; rfl
    refine ⟨key', fun hno => ?_⟩
    rw [key', conditionPass_absent scope _ (containsText_longer (q := "#if".toList) hno),
      ok_bind, variablePass_absent fmt scope _ hno]
  · obtain ⟨e', he'⟩ := renderItems_throws (fun b s => interpolate b s none) x B scope xs
      item e hi he
    exact ⟨e', by rw [key, he']; rfl⟩

/-- Witness for C1: the loop over `names = ["Ann", "Bo"]` with the body `{{n}}, `, whose
element renders are `Ann, ` and `Bo, `. -/
theorem interpolate_each_witness :
    (isName "n".toList = true ∧ isExpr "names".toList = true ∧
      directiveFree (hole "n".toList ++ ", ".toList) = true ∧
      evaluateExpression "names".toList namesData =
        .ok (.arr [.str "Ann".toList, .str "Bo".toList]) ∧
      List.Forall₂ (fun item out => interpolate (hole "n".toList ++ ", ".toList)
        (itemData namesData "n".toList item) = .ok out)
        [.str "Ann".toList, .str "Bo".toList] ["Ann, ".toList, "Bo, ".toList] ∧
      containsText holeOpen ["Ann, ".toList, "Bo, ".toList].flatten = false) ∧
    interpolate (eachBlock "n".toList "names".toList (hole "n".toList ++ ", ".toList))
        namesData none = .ok ["Ann, ".toList, "Bo, ".toList].flatten :=
  ⟨⟨by decide, by decide, by decide, by rfl,
      List.Forall₂.cons (by rfl) (List.Forall₂.cons (by rfl) List.Forall₂.nil), by decide⟩,
    ((interpolate_each "n".toList "names".toList (hole "n".toList ++ ", ".toList) namesData
      [.str "Ann".toList, .str "Bo".toList] none (by decide) (by decide) (by decide)
      (by rfl)).2.1 ["Ann, ".toList, "Bo, ".toList]
      (List.Forall₂.cons (by rfl) (List.Forall₂.cons (by rfl) List.Forall₂.nil))).2
      (by decide)⟩

/-- Counterexample to C1 as stated: with `xs = [{}]` and a parent key `x = {name: "P"}`, the
body `{{x.name}}` renders `{{x.name}}` for the single element, so the concatenation of the
element renders is `{{x.name}}`, but the loop renders `P`: the output of the loop is scanned
again against the enclosing scope. -/
theorem interpolate_each_counterexample :
    isName "x".toList = true ∧ isExpr "xs".toList = true ∧
    directiveFree (hole "x.name".toList) = true ∧
    evaluateExpression "xs".toList shadowData = .ok (.arr [.obj []]) ∧
    interpolate (hole "x.name".toList) (itemData shadowData "x".toList (.obj [])) =
      .ok (hole "x.name".toList) ∧
    interpolate (eachBlock "x".toList "xs".toList (hole "x.name".toList)) shadowData =
      .ok "P".toList ∧
    interpolate (eachBlock "x".toList "xs".toList (hole "x.name".toList)) shadowData ≠
      .ok (hole "x.name".toList) := by
  refine ⟨by decide, by decide, by decide, by rfl, by rfl, by rfl, by decide⟩

theorem run_opt_some {α : Type} (r : Re) (s : List Char) (c : Caps)
    (k : List Char → Caps → Option α) (x : α) (h : r.run s c k = some x) :
    (Re.opt r).run s c k = some x := by
  simp [Re.run, h]

theorem run_opt_none {α : Type} (r : Re) (s : List Char) (c : Caps)
    (k : List Char → Caps → Option α) (h : r.run s c k = none) :
    (Re.opt r).run s c k = k s c := by
  simp [Re.run, h]

theorem cond_exec_else (C T F rest : List Char) (hC : isExpr C = true)
    (hT₁ : containsText elseTag T = false)
    (hT₂ : containsText ifClose T = false)
    (hF : containsText ifClose F = false) :
    INTERPOLATE_CONDITION_REGEXP.exec
        (ifOpen ++ [' '] ++ C ++ holeClose ++ T ++ elseTag ++ F ++
          ifClose ++ rest) =
      some (setCap (setCap (setCap (fun _ => none) 1 C) 2 T) 3 F, rest) := by
  simp only [isExpr, Bool.and_eq_true, Bool.not_eq_true', List.isEmpty_eq_false] at hC
  have hC0 : C ≠ [] := by intro h; simp [h] at hC
  have e : ifOpen ++ [' '] ++ C ++ holeClose ++ T ++ elseTag ++ F ++
      ifClose ++ rest =
      ifOpen ++ ([' '] ++ (C ++ (holeClose ++ (T ++ (elseTag ++ (F ++
        (ifClose ++ rest))))))) := by simp
  rw [e]
  unfold INTERPOLATE_CONDITION_REGEXP Re.exec
  simp only [Re.cat]
  rw [run_seq, run_lit, run_seq]
  refine run_plus isSpace [' '] _ _ _ _ (by simp) (by decide)
    (stopsAt_of_all C _ hC0 hC.2 isExprChar_not_isSpace) ?_
  rw [run_seq]
  refine run_group_plus 1 isExprChar C _ _ _ _ hC0 hC.2 ?_ ?_
  · rfl
  rw [run_seq, run_lit, run_seq]
  apply run_group_lazy 2 T
  · intro pre u c' hpre hu
    rw [run_seq, run_opt_none]
    · apply run_lit_none
      apply dropLit_straddle hu (containsText_head (containsText_suffix pre u (hpre ▸ hT₂)))
      intro k hk0 hk1
      have hk2 : k < 7 := hk1
      interval_cases k <;> rfl
    · rw [run_seq]
      apply run_lit_none
      apply dropLit_straddle hu (containsText_head (containsText_suffix pre u (hpre ▸ hT₁)))
      intro k hk0 hk1
      have hk2 : k < 8 := hk1
      interval_cases k <;> rfl
  · rw [run_seq]
    apply run_opt_some
    rw [run_seq, run_lit]
    apply run_group_lazy 3 F
    · intro pre u c' hpre hu
      apply run_lit_none
      apply dropLit_straddle hu (containsText_head (containsText_suffix pre u (hpre ▸ hF)))
      intro k hk0 hk1
      have hk2 : k < 7 := hk1
      interval_cases k <;> rfl
    · rw [run_lit]

theorem cond_exec_plain (C T rest : List Char) (hC : isExpr C = true)
    (hT₁ : containsText elseTag T = false)
    (hT₂ : containsText ifClose T = false) :
    INTERPOLATE_CONDITION_REGEXP.exec
        (ifOpen ++ [' '] ++ C ++ holeClose ++ T ++ ifClose ++ rest) =
      some (setCap (setCap (fun _ => none) 1 C) 2 T, rest) := by
  simp only [isExpr, Bool.and_eq_true, Bool.not_eq_true', List.isEmpty_eq_false] at hC
  have hC0 : C ≠ [] := by intro h; simp [h] at hC
  have e : ifOpen ++ [' '] ++ C ++ holeClose ++ T ++ ifClose ++ rest =
      ifOpen ++ ([' '] ++ (C ++ (holeClose ++ (T ++
        (ifClose ++ rest))))) := by simp
  rw [e]
  unfold INTERPOLATE_CONDITION_REGEXP Re.exec
  simp only [Re.cat]
  rw [run_seq, run_lit, run_seq]
  refine run_plus isSpace [' '] _ _ _ _ (by simp) (by decide)
    (stopsAt_of_all C _ hC0 hC.2 isExprChar_not_isSpace) ?_
  rw [run_seq]
  refine run_group_plus 1 isExprChar C _ _ _ _ hC0 hC.2 ?_ ?_
  · rfl
  rw [run_seq, run_lit, run_seq]
  apply run_group_lazy 2 T
  · intro pre u c' hpre hu
    rw [run_seq, run_opt_none]
    · apply run_lit_none
      apply dropLit_straddle hu (containsText_head (containsText_suffix pre u (hpre ▸ hT₂)))
      intro k hk0 hk1
      have hk2 : k < 7 := hk1
      interval_cases k <;> rfl
    · rw [run_seq]
      apply run_lit_none
      apply dropLit_straddle hu (containsText_head (containsText_suffix pre u (hpre ▸ hT₁)))
      intro k hk0 hk1
      have hk2 : k < 8 := hk1
      interval_cases k <;> rfl
  · rw [run_seq, run_opt_none]
    · rw [run_lit]
    · rw [run_seq]
      apply run_lit_none
      rfl

theorem containsText_expr (p C : List Char) (hC : C.all isExprChar = true) :
    containsText ('{' :: p) C = false := by
  induction C with
  | nil => rfl
  | cons a C ih =>
    simp only [List.all_cons, Bool.and_eq_true] at hC
    have ha : ¬ ('{' = a) := by
      intro h
      subst h
      exact absurd hC.1 (by decide)
    simp [containsText, dropLit, ha, ih hC.2]

theorem noEach_ifElseBlock (C T F : List Char) (hC : isExpr C = true)
    (hT : containsText eachOpen T = false)
    (hF : containsText eachOpen F = false) :
    containsText eachOpen (ifElseBlock C T F) = false := by
  simp only [isExpr, Bool.and_eq_true] at hC
  have h1 : containsText eachOpen (F ++ ifClose) = false := by
    apply containsText_append hF (by decide)
    intro k hk0 hk1
    have hk2 : k < 7 := hk1
    interval_cases k <;> rfl
  have h2 : containsText eachOpen (elseTag ++ (F ++ ifClose)) =
      false := by
    simpa [containsText, dropLit] using h1
  have h3 : containsText eachOpen
      (T ++ (elseTag ++ (F ++ ifClose))) = false := by
    apply containsText_append hT h2
    intro k hk0 hk1
    have hk2 : k < 7 := hk1
    interval_cases k <;> rfl
  have h4 : containsText eachOpen
      (holeClose ++ (T ++ (elseTag ++ (F ++ ifClose)))) = false := by
    simpa [containsText, dropLit] using h3
  have h5 : containsText eachOpen
      (C ++ (holeClose ++ (T ++ (elseTag ++ (F ++ ifClose))))) =
      false := by
    apply containsText_append (containsText_expr _ C hC.2) h4
    intro k hk0 hk1
    have hk2 : k < 7 := hk1
    interval_cases k <;> rfl
  have e : ifElseBlock C T F = ifOpen ++ [' '] ++
      (C ++ (holeClose ++ (T ++ (elseTag ++ (F ++ ifClose))))) := by
    simp [ifElseBlock]
  rw [e]
  simpa [containsText, dropLit] using h5

theorem noEach_ifBlock (C T : List Char) (hC : isExpr C = true)
    (hT : containsText eachOpen T = false) :
    containsText eachOpen (ifBlock C T) = false := by
  simp only [isExpr, Bool.and_eq_true] at hC
  have h3 : containsText eachOpen (T ++ ifClose) = false := by
    apply containsText_append hT (by decide)
    intro k hk0 hk1
    have hk2 : k < 7 := hk1
    interval_cases k <;> rfl
  have h4 : containsText eachOpen (holeClose ++ (T ++ ifClose)) = false := by
    simpa [containsText, dropLit] using h3
  have h5 : containsText eachOpen
      (C ++ (holeClose ++ (T ++ ifClose))) = false := by
    apply containsText_append (containsText_expr _ C hC.2) h4
    intro k hk0 hk1
    have hk2 : k < 7 := hk1
    interval_cases k <;> rfl
  have e : ifBlock C T = ifOpen ++ [' '] ++ (C ++ (holeClose ++ (T ++ ifClose))) := by
    simp [ifBlock]
  rw [e]
  simpa [containsText, dropLit] using h5

theorem replace_whole (r : Re) (f : Caps → Except JSError (List Char)) (m : List Char)
    (c : Caps) (hm : m ≠ []) (he : r.exec m = some (c, [])) (h0 : r.exec [] = none) :
    replace r f m = f c := by
  have hm' := replaceFrom_match r f m [] c hm (by simpa using he)
  rw [List.append_nil] at hm'
  rw [replace, hm']
  have : replaceFrom r f 0 [] = .ok [] := by simp [replaceFrom, h0]; rfl
  rw [this]
  cases f c <;> simp [bind, Except.bind, pure, Except.pure]

theorem conditionPass_ifElseBlock (C T F : List Char) (scope : JSVal) (hC : isExpr C = true)
    (hT₁ : containsText elseTag T = false)
    (hT₂ : containsText ifClose T = false)
    (hF : containsText ifClose F = false) :
    conditionPass scope (ifElseBlock C T F) = processConditional C T (some F) scope := by
  have he := cond_exec_else C T F [] hC hT₁ hT₂ hF
  rw [List.append_nil] at he
  rw [conditionPass, ifElseBlock, replace_whole _ _ _ _ (by simp) he rfl]
  simp [setCap]

theorem conditionPass_ifBlock (C T : List Char) (scope : JSVal) (hC : isExpr C = true)
    (hT₁ : containsText elseTag T = false)
    (hT₂ : containsText ifClose T = false) :
    conditionPass scope (ifBlock C T) = processConditional C T none scope := by
  have he := cond_exec_plain C T [] hC hT₁ hT₂
  rw [List.append_nil] at he
  rw [conditionPass, ifBlock, replace_whole _ _ _ _ (by simp) he rfl]
  simp [setCap]

/-- C2: for a path `C` that evaluates to `v` and directive-free branch texts `T` and `F`,
`{{#if C}}T{{else}}F{{/if}}` renders as `T` renders when `v` is truthy and as `F` renders
otherwise, and `{{#if C}}T{{/if}}` renders as `T` renders when `v` is truthy and as the empty
string otherwise; a placeholder of the branch that is not chosen contributes nothing, as in
`{{#if a}}{{x}}{{else}}{{y}}{{/if}}` with `x` and `y` both in scope. -/
theorem interpolate_if (C T F : List Char) (scope v : JSVal) (fmt : Option Formatter)
    (hC : isExpr C = true) (hT : directiveFree T = true) (hF : directiveFree F = true)
    (hv : evaluateExpression C scope = .ok v) :
    interpolate (ifElseBlock C T F) scope fmt =
      (if truthy v = true then interpolate T scope fmt else interpolate F scope fmt) ∧
    interpolate (ifBlock C T) scope fmt =
      (if truthy v = true then interpolate T scope fmt else .ok []) ∧
    interpolate (ifElseBlock "a".toList (hole "x".toList) (hole "y".toList))
      (branchData (.bool true)) = .ok "X".toList ∧
    interpolate (ifElseBlock "a".toList (hole "x".toList) (hole "y".toList))
      (branchData (.num 0)) = .ok "Y".toList := by
  obtain ⟨t1, t2, t3, t4, -⟩ := (directiveFree_iff T).mp hT
  obtain ⟨f1, f2, -, f4, -⟩ := (directiveFree_iff F).mp hF
  refine ⟨?_, ?_, by rfl, by rfl⟩
  · rw [interpolate, interpolateFuel, processTemplate,
      loopPass_absent _ scope _ (noEach_ifElseBlock C T F hC t1 f1), ok_bind,
      conditionPass_ifElseBlock C T F scope hC t3 t4 f4, processConditional, hv]
    simp only [ok_bind, Option.getD_some]
    by_cases hb : truthy v = true
    · simp only [hb, if_true, interpolate_plain T scope fmt t1 t2]; rfl
    · simp only [hb, if_false, interpolate_plain F scope fmt f1 f2]; rfl
  · rw [interpolate, interpolateFuel, processTemplate,
      loopPass_absent _ scope _ (noEach_ifBlock C T hC t1), ok_bind,
      conditionPass_ifBlock C T scope hC t3 t4, processConditional, hv]
    simp only [ok_bind, Option.getD_none]
    by_cases hb : truthy v = true
    · simp only [hb, if_true, interpolate_plain T scope fmt t1 t2]; rfl
    · simp only [hb, if_false]; rfl

/-- Witness for C2: condition `a` true, branches `{{x}}` and `{{y}}`. -/
theorem interpolate_if_witness :
    (isExpr "a".toList = true ∧ directiveFree (hole "x".toList) = true ∧
      directiveFree (hole "y".toList) = true ∧
      evaluateExpression "a".toList (branchData (.bool true)) = .ok (.bool true)) ∧
    interpolate (ifElseBlock "a".toList (hole "x".toList) (hole "y".toList))
        (branchData (.bool true)) none =
      (if truthy (.bool true) = true then
        interpolate (hole "x".toList) (branchData (.bool true)) none
      else interpolate (hole "y".toList) (branchData (.bool true)) none) :=
  ⟨⟨by decide, by decide, by decide, by rfl⟩,
    (interpolate_if "a".toList (hole "x".toList) (hole "y".toList)
      (branchData (.bool true)) (.bool true) none
      (by decide) (by decide) (by decide) (by rfl)).1⟩

theorem greedyStar_sound {α : Type} (cls : Char → Bool) (s : List Char) (c : Caps)
    (k : List Char → Caps → Option α) (r : α) (h : greedyStar cls s c k = some r) :
    ∃ w rest, s = w ++ rest ∧ w.all cls = true ∧ k rest c = some r := by
  induction s with
  | nil => exact ⟨[], [], rfl, rfl, by simpa [greedyStar] using h⟩
  | cons a s ih =>
    simp only [greedyStar] at h
    split at h
    · next ha =>
      split at h
      · next x hx =>
        simp only [Option.some.injEq] at h
        subst h
        obtain ⟨w, rest, hs, hw, hk⟩ := ih hx
        exact ⟨a :: w, rest, by simp [hs], by simp [ha, hw], hk⟩
      · exact ⟨[], a :: s, rfl, rfl, h⟩
    · exact ⟨[], a :: s, rfl, rfl, h⟩

theorem plus_sound {α : Type} (cls : Char → Bool) (s : List Char) (c : Caps)
    (k : List Char → Caps → Option α) (r : α) (h : (Re.plus cls).run s c k = some r) :
    ∃ w rest, s = w ++ rest ∧ w ≠ [] ∧ w.all cls = true ∧ k rest c = some r := by
  cases s with
  | nil => simp [Re.run] at h
  | cons a s =>
    simp only [Re.run] at h
    split at h
    · next ha =>
      obtain ⟨w, rest, hs, hw, hk⟩ := greedyStar_sound cls s c k r h
      exact ⟨a :: w, rest, by simp [hs], by simp, by simp [ha, hw], hk⟩
    · simp at h

theorem var_exec_sound (s rest : List Char) (c : Caps)
    (h : INTERPOLATE_VARIABLE_REGEXP.exec s = some (c, rest)) :
    ∃ e, c 1 = some e ∧ isExpr e = true ∧ s = holeOpen ++ e ++ holeClose ++ rest := by
  unfold INTERPOLATE_VARIABLE_REGEXP Re.exec at h
  simp only [Re.cat, run_seq] at h
  rw [Re.run] at h
  split at h
  · next s₁ h₁ =>
    have hs := dropLit_eq_some h₁
    rw [Re.run] at h
    obtain ⟨w, r₂, hs₁, hw0, hw, hk⟩ := plus_sound _ _ _ _ _ h
    rw [Re.run] at hk
    split at hk
    · next r₃ h₃ =>
      have hr := dropLit_eq_some h₃
      simp only [Option.some.injEq, Prod.mk.injEq] at hk
      obtain ⟨hc, hrest⟩ := hk
      subst hrest
      refine ⟨w, ?_, ?_, ?_⟩
      · rw [← hc, hs₁]; simp [setCap]
      · simp [isExpr, hw, hw0]
      · rw [hs, hs₁, hr]; simp
    · simp at hk
  · simp at h

theorem placeholders_suffix (pre u e : List Char) (h : e ∈ placeholders u) :
    e ∈ placeholders (pre ++ u) := by
  induction pre with
  | nil => simpa using h
  | cons a pre ih =>
    simp only [List.cons_append, placeholders]
    split
    · exact List.mem_cons_of_mem _ ih
    · exact ih

theorem variablePass_unresolved (fmt : Option Formatter) (scope : JSVal) (n : Nat) :
    ∀ s : List Char, s.length ≤ n →
      (∀ e ∈ placeholders s, evaluateExpression e scope = .ok .undefined) →
      variablePass fmt scope s = .ok s := by
  induction n with
  | zero =>
    intro s hs _
    have : s = [] := List.length_eq_zero.mp (Nat.le_zero.mp hs)
    subst this
    rfl
  | succ n ih =>
    intro s hs hu
    cases s with
    | nil => rfl
    | cons a s =>
      cases hex : INTERPOLATE_VARIABLE_REGEXP.exec (a :: s) with
      | none =>
        have ih' := ih s (by simpa using hs)
          (fun e he => hu e (placeholders_suffix [a] s e he))
        simp only [variablePass, replace] at ih' ⊢
        simp [replaceFrom, hex, ih']
      | some cr =>
        obtain ⟨c, rest⟩ := cr
        obtain ⟨e, hc, -, hs'⟩ := var_exec_sound _ _ _ hex
        have hmem : e ∈ placeholders (a :: s) := by
          simp [placeholders, hex, hc]
        have hev := hu e hmem
        have hlen : rest.length ≤ n := by
          have := congrArg List.length hs'
          simp at this hs
          omega
        have ih' := ih rest hlen (fun e' he' => hu e' (by
          rw [hs']; exact placeholders_suffix _ rest e' he'))
        simp only [variablePass, replace] at ih' ⊢
        rw [hs'] at hex ⊢
        rw [replaceFrom_match _ _ (holeOpen ++ e ++ holeClose) rest c (by simp) hex, ih']
        simp [hc, substituteVariable, hev, ok_bind, hole]

theorem var_exec (e rest : List Char) (he : isExpr e = true)
    (hr : stopsAt isExprChar (holeClose ++ rest) = true) :
    INTERPOLATE_VARIABLE_REGEXP.exec (holeOpen ++ e ++ holeClose ++ rest) =
      some (setCap (fun _ => none) 1 e, rest) := by
  simp only [isExpr, Bool.and_eq_true, Bool.not_eq_true', List.isEmpty_eq_false] at he
  have he0 : e ≠ [] := by intro h; simp [h] at he
  have e' : holeOpen ++ e ++ holeClose ++ rest =
      holeOpen ++ (e ++ (holeClose ++ rest)) := by simp
  rw [e']
  unfold INTERPOLATE_VARIABLE_REGEXP Re.exec
  simp only [Re.cat]
  rw [run_seq, run_lit, run_seq]
  refine run_group_plus 1 isExprChar e _ _ _ _ he0 he.2 hr ?_
  rw [run_lit]

theorem noOpeners_placeholder (e : List Char) (he : isExpr e = true) :
    containsText eachOpen (holeOpen ++ e ++ holeClose) = false ∧
    containsText ifOpen (holeOpen ++ e ++ holeClose) = false := by
  simp only [isExpr, Bool.and_eq_true, Bool.not_eq_true', List.isEmpty_eq_false] at he
  have e' : holeOpen ++ e ++ holeClose = holeOpen ++ (e ++ holeClose) := by simp
  rw [e']
  cases e with
  | nil => simp at he
  | cons a e =>
    have ha : isExprChar a = true := by
      have := he.2
      simp only [List.all_cons, Bool.and_eq_true] at this
      exact this.1
    have ha1 : ¬ ('{' = a) := by intro h; subst h; exact absurd ha (by decide)
    have ha2 : ¬ ('#' = a) := by intro h; subst h; exact absurd ha (by decide)
    have h1 : containsText eachOpen (a :: e ++ holeClose) = false := by
      apply containsText_append (containsText_expr _ _ he.2) (by decide)
      intro k hk0 hk1
      have hk2 : k < 7 := hk1
      interval_cases k <;> rfl
    have h2 : containsText ifOpen (a :: e ++ holeClose) = false := by
      apply containsText_append (containsText_expr _ _ he.2) (by decide)
      intro k hk0 hk1
      have hk2 : k < 5 := hk1
      interval_cases k <;> rfl
    constructor
    · simpa [containsText, dropLit, ha1, ha2] using h1
    · simpa [containsText, dropLit, ha1, ha2] using h2

theorem interpolate_placeholder_undefined (expr : List Char) (scope : JSVal)
    (fmt : Option Formatter) (he : isExpr expr = true)
    (hx : evaluateExpression expr scope = .ok .undefined) :
    interpolate (holeOpen ++ expr ++ holeClose) scope fmt =
      .ok (holeOpen ++ expr ++ holeClose) := by
  obtain ⟨n1, n2⟩ := noOpeners_placeholder expr he
  rw [interpolate_plain _ scope fmt n1 n2, variablePass]
  have hex := var_exec expr [] he rfl
  rw [List.append_nil] at hex
  rw [replace_whole _ _ _ _ (by simp) hex rfl]
  simp [setCap, substituteVariable, hx, ok_bind]
  rfl

/-- C3: a template without `#each` and `#if` openers, all of whose variable placeholders
evaluate to `undefined` in the scope, is returned unchanged; in particular `{{expr}}` is
returned as the literal text `{{expr}}` when `expr` evaluates to `undefined`. -/
theorem interpolate_unresolved (t expr : List Char) (scope : JSVal) (fmt : Option Formatter)
    (h₁ : containsText eachOpen t = false) (h₂ : containsText ifOpen t = false)
    (hu : ∀ e ∈ placeholders t, evaluateExpression e scope = .ok .undefined)
    (he : isExpr expr = true) (hx : evaluateExpression expr scope = .ok .undefined) :
    interpolate t scope fmt = .ok t ∧
    interpolate (hole expr) scope fmt = .ok (hole expr) := by
  constructor
  · rw [interpolate_plain t scope fmt h₁ h₂]
    exact variablePass_unresolved fmt scope _ t (Nat.le_refl _) hu
  · exact interpolate_placeholder_undefined expr scope fmt he hx

/-- Witness for C3: the template `To: {{user.name}} <{{mail}}>` against `{user: {}}`. -/
theorem interpolate_unresolved_witness :
    interpolate mailTemplate (.obj [("user".toList, .obj [])]) none = .ok mailTemplate ∧
    interpolate (hole "mail".toList) (.obj [("user".toList, .obj [])]) none =
      .ok (hole "mail".toList) :=
  interpolate_unresolved mailTemplate "mail".toList
    (.obj [("user".toList, .obj [])]) none (by decide) (by decide)
    (by
      intro e he
      have hp : placeholders mailTemplate = ["user.name".toList, "mail".toList] := by rfl
      rw [hp] at he
      simp only [List.mem_cons, List.mem_singleton, List.not_mem_nil, or_false] at he
      rcases he with rfl | rfl <;> rfl)
    (by decide) (by rfl)

/-- C4 (code defect): for every data context without a `token` property the header mapping
`{Authorization: "{{token}}"}` is rendered to the string `{{token}}`, never to `null`, and the
`Authorization` header stays among the headers passed to the HTTP call. -/
theorem requestHeaders_unresolved (data : JSVal)
    (h : getProp data "token".toList = .undefined) :
    requestHeaders [("Authorization".toList, hole "token".toList)] data =
      .ok [("Authorization".toList, .str (hole "token".toList))] := by
  have hx : evaluateExpression "token".toList data = .ok .undefined := by
    rw [← h]; rfl
  have hi : interpolate (hole "token".toList) data none = .ok (hole "token".toList) :=
    interpolate_placeholder_undefined "token".toList data none (by decide) hx
  simp only [requestHeaders, renderEntries, hi, ok_bind]
  rfl

/-- Witness for C4: the empty data context `{}`. -/
theorem requestHeaders_unresolved_witness :
    getProp (.obj []) "token".toList = .undefined ∧
    requestHeaders [("Authorization".toList, hole "token".toList)] (.obj []) =
      .ok [("Authorization".toList, .str (hole "token".toList))] :=
  ⟨rfl, requestHeaders_unresolved (.obj []) rfl⟩

theorem processLoop_nonArray (render : List Char → JSVal → Except JSError (List Char))
    (x A B : List Char) (scope v : JSVal) (hv : evaluateExpression A scope = .ok v)
    (hna : ∀ xs, v ≠ .arr xs) : processLoop render x A B scope = .ok [] := by
  rw [processLoop, hv, ok_bind]
  cases v with
  | arr xs => exact absurd rfl (hna xs)
  | _ => rfl

/-- C6 (amended): when the loop source `A` evaluates to a value that is not an array,
`{{#each x in A}}B{{/each}}` renders the empty string, without an exception, for every body
`B` that does not contain the closing tag `{{/each}}`. -/
theorem each_nonArray_empty (x A B : List Char) (scope v : JSVal)
    (fmt : Option Formatter) (hx : isName x = true) (hA : isExpr A = true)
    (hB : containsText eachClose B = false)
    (hv : evaluateExpression A scope = .ok v) (hna : ∀ xs, v ≠ .arr xs) :
    interpolate (eachBlock x A B) scope fmt = .ok [] := by
  rw [interpolate, interpolateFuel, processTemplate, eachBlock,
    loopPass_each _ x A B scope hx hA hB, processLoop_nonArray _ x A B scope v hv hna]
  rfl

/-- Witness for C6: the loop source `n` is the number `5`. -/
theorem each_nonArray_empty_witness :
    (isName "x".toList = true ∧ isExpr "n".toList = true ∧
      containsText eachClose ("<".toList ++ hole "x".toList ++ ">".toList) = false ∧
      evaluateExpression "n".toList (.obj [("n".toList, .num 5)]) = .ok (.num 5)) ∧
    interpolate
      (eachBlock "x".toList "n".toList ("<".toList ++ hole "x".toList ++ ">".toList))
      (.obj [("n".toList, .num 5)]) none = .ok [] :=
  ⟨⟨by decide, by decide, by decide, by rfl⟩,
    each_nonArray_empty "x".toList "n".toList
      ("<".toList ++ hole "x".toList ++ ">".toList) (.obj [("n".toList, .num 5)]) (.num 5)
      none (by decide) (by decide) (by decide) (by rfl) (by intro xs h; cases h)⟩

/-- Counterexample to C6 as stated: the body `{{#each y in ys}}{{y}}{{/each}}` contains a
closing tag, the loop source `n` is the number `5`, and the render is `{{/each}}`, not the
empty string. -/
theorem each_nonArray_empty_counterexample :
    evaluateExpression "n".toList
        (.obj [("n".toList, .num 5), ("ys".toList, .arr [.num 1])]) = .ok (.num 5) ∧
    interpolate
        (eachBlock "x".toList "n".toList (eachBlock "y".toList "ys".toList (hole "y".toList)))
        (.obj [("n".toList, .num 5), ("ys".toList, .arr [.num 1])]) = .ok eachClose ∧
    interpolate
        (eachBlock "x".toList "n".toList (eachBlock "y".toList "ys".toList (hole "y".toList)))
        (.obj [("n".toList, .num 5), ("ys".toList, .arr [.num 1])]) ≠ .ok [] := by
  refine ⟨by rfl, by rfl, by decide⟩

/-- C7 (code defect): `processLoop` calls `interpolate(loopContent, itemData)` without the
formatter.  With `encodeURIComponent` a top-level placeholder is encoded (`a b` becomes
`a%20b`), a placeholder in a loop body is not, and a URL template with a loop receives the
raw values `a&b=c d`. -/
theorem formatter_dropped_in_loop :
    interpolate (hole "x".toList) (.obj [("x".toList, .str "a b".toList)])
        (some encodeURIComponent) = .ok "a%20b".toList ∧
    interpolate (eachBlock "x".toList "xs".toList (hole "x".toList))
        (.obj [("xs".toList, .arr [.str "a b".toList])])
        (some encodeURIComponent) = .ok "a b".toList ∧
    requestUrl tagsUrl
        (.obj [("tags".toList, .arr [.str "a&b=c d".toList]), ("k".toList, .str "x y".toList)]) =
      .ok "https://h/s?t=a&b=c d&k=x%20y".toList := by
  refine ⟨by rfl, by rfl, by rfl⟩

theorem defineProp_fresh (key : List Char) (v : JSVal) (acc : List (List Char × JSVal))
    (h : key ∉ acc.map Prod.fst) : defineProp key v acc = acc ++ [(key, v)] := by
  induction acc with
  | nil => rfl
  | cons a acc ih =>
    obtain ⟨k, w⟩ := a
    simp only [List.map_cons, List.mem_cons, not_or] at h
    have hk : ¬ (k = key) := fun e => h.1 e.symm
    simp [defineProp, hk, ih h.2]

theorem assignProp_fresh (key : List Char) (v : JSVal) (acc : List (List Char × JSVal))
    (hp : key ≠ "__proto__".toList) (h : key ∉ acc.map Prod.fst) :
    assignProp key v acc = acc ++ [(key, v)] := by
  rw [assignProp, if_neg hp, defineProp_fresh key v acc h]

mutual
theorem interpolateObject_refines : ∀ (v scope : JSVal), wellFormed v = true →
    interpolateObject v scope = renderedShape v scope
  | .undefined, _, _ => rfl
  | .null, _, _ => rfl
  | .bool _, _, _ => rfl
  | .num _, _, _ => rfl
  | .str s, scope, _ => by
    simp only [interpolateObject, renderedShape]
    cases interpolate s scope <;> rfl
  | .arr xs, scope, h => by
    simp only [wellFormed] at h
    simp only [interpolateObject, renderedShape, interpolateItems_refines xs scope h]
    cases renderedItems xs scope <;> rfl
  | .obj kvs, scope, h => by
    simp only [wellFormed] at h
    simp only [interpolateObject, renderedShape,
      interpolateEntries_refines kvs scope [] h (fun k _ => List.not_mem_nil k)]
    cases renderedValues kvs scope <;> simp [Except.map, bind, Except.bind, pure, Except.pure]
termination_by structural v => v
theorem interpolateItems_refines : ∀ (xs : List JSVal) (scope : JSVal),
    wellFormedItems xs = true → interpolateItems xs scope = renderedItems xs scope
  | [], _, _ => rfl
  | x :: xs, scope, h => by
    simp only [wellFormedItems, Bool.and_eq_true] at h
    simp only [interpolateItems, renderedItems, interpolateObject_refines x scope h.1,
      interpolateItems_refines xs scope h.2]
    cases renderedShape x scope <;> cases renderedItems xs scope <;> rfl
termination_by structural xs => xs
theorem interpolateEntries_refines : ∀ (kvs : List (List Char × JSVal)) (scope : JSVal)
    (acc : List (List Char × JSVal)), wellFormedEntries kvs = true →
    (∀ k ∈ kvs.map Prod.fst, k ∉ acc.map Prod.fst) →
    interpolateEntries kvs scope acc = (renderedValues kvs scope).map (fun vs => acc ++ vs)
  | [], _, acc, _, _ => by simp [interpolateEntries, renderedValues, Except.map, pure, Except.pure]
  | (key, value) :: rest, scope, acc, h, hd => by
    simp only [wellFormedEntries, Bool.and_eq_true, decide_eq_true_eq] at h
    obtain ⟨⟨⟨hp, hk⟩, hv⟩, hr⟩ := h
    simp only [interpolateEntries, renderedValues, interpolateObject_refines value scope hv]
    cases hrv : renderedShape value scope with
    | error e => rfl
    | ok w =>
      have hfresh : key ∉ acc.map Prod.fst := hd key (List.mem_cons_self _ _)
      have hd' : ∀ k ∈ rest.map Prod.fst, k ∉ (acc ++ [(key, w)]).map Prod.fst := by
        intro k hkr
        simp only [List.map_append, List.map_cons, List.map_nil, List.mem_append,
          List.mem_singleton, not_or]
        refine ⟨hd k (by simp only [List.map_cons, List.mem_cons]; exact Or.inr hkr), ?_⟩
        intro e
        exact hk (e ▸ hkr)
      simp only [ok_bind, Except.bind, assignProp_fresh key w acc hp hfresh,
        interpolateEntries_refines rest scope (acc ++ [(key, w)]) hr hd']
      cases renderedValues rest scope <;> simp [Except.map]
termination_by structural kvs => kvs
end

theorem renderedValues_keys (kvs : List (List Char × JSVal)) (scope : JSVal) :
    ∀ kvs', renderedValues kvs scope = .ok kvs' → kvs'.map Prod.fst = kvs.map Prod.fst := by
  induction kvs with
  | nil =>
    intro kvs' h
    simp only [renderedValues, Except.ok.injEq] at h
    subst h
    rfl
  | cons a kvs ih =>
    obtain ⟨k, v⟩ := a
    intro kvs' h
    simp only [renderedValues] at h
    cases hv : renderedShape v scope with
    | error e => simp [hv, Except.bind] at h
    | ok w =>
      cases hr : renderedValues kvs scope with
      | error e => simp [hv, hr, Except.bind, Except.map] at h
      | ok vs =>
        simp only [hv, hr, Except.bind, Except.map, Except.ok.injEq] at h
        subst h
        simp [ih vs hr]

theorem renderedItems_length (xs : List JSVal) (scope : JSVal) :
    ∀ ys, renderedItems xs scope = .ok ys → ys.length = xs.length := by
  induction xs with
  | nil =>
    intro ys h
    simp only [renderedItems, Except.ok.injEq] at h
    subst h
    rfl
  | cons x xs ih =>
    intro ys h
    simp only [renderedItems] at h
    cases hv : renderedShape x scope with
    | error e => simp [hv, Except.bind] at h
    | ok w =>
      cases hr : renderedItems xs scope with
      | error e => simp [hv, hr, Except.bind, Except.map] at h
      | ok vs =>
        simp only [hv, hr, Except.bind, Except.map, Except.ok.injEq] at h
        subst h
        simp [ih vs hr]

/-- C8 (code defect): on a value whose mappings have no key `__proto__`, `interpolateObject`
returns a value of the same shape with every string rendered, as the specification describes
it (`renderedShape`): `null` for `null` and `undefined`, `interpolate(s, scope)` for a string,
an array of the same length with every element rendered, a mapping with exactly the same keys
and rendered values, any other scalar unchanged; `{"q": "{{query}}"}` with `{query: "cats"}`
gives `{"q": "cats"}`.  The defect is the own key `__proto__` of a mapping, which the
result loses. -/
theorem interpolateObject_shape (v scope : JSVal) (h : wellFormed v = true) :
    interpolateObject v scope = renderedShape v scope ∧
    (∀ kvs r, v = .obj kvs → interpolateObject v scope = .ok r →
      ∃ kvs', r = .obj kvs' ∧ kvs'.map Prod.fst = kvs.map Prod.fst) ∧
    (∀ xs r, v = .arr xs → interpolateObject v scope = .ok r →
      ∃ ys, r = .arr ys ∧ ys.length = xs.length) ∧
    interpolateObject (.obj [("q".toList, .str (hole "query".toList))]) queryData =
      .ok (.obj [("q".toList, .str "cats".toList)]) := by
  have key := interpolateObject_refines v scope h
  refine ⟨key, ?_, ?_, by rfl⟩
  · intro kvs r hv hr
    subst hv
    rw [key, renderedShape] at hr
    cases hk : renderedValues kvs scope with
    | error e => simp [hk, Except.map] at hr
    | ok kvs' =>
      simp only [hk, Except.map, Except.ok.injEq] at hr
      exact ⟨kvs', hr.symm, renderedValues_keys kvs scope kvs' hk⟩
  · intro xs r hv hr
    subst hv
    rw [key, renderedShape] at hr
    cases hk : renderedItems xs scope with
    | error e => simp [hk, Except.map] at hr
    | ok ys =>
      simp only [hk, Except.map, Except.ok.injEq] at hr
      exact ⟨ys, hr.symm, renderedItems_length xs scope ys hk⟩

/-- Witness for C8: a JSON body with a nested array and mapping. -/
theorem interpolateObject_shape_witness :
    wellFormed queryBody = true ∧
    interpolateObject queryBody queryData = renderedShape queryBody queryData :=
  ⟨by rfl, (interpolateObject_shape queryBody queryData (by rfl)).1⟩

/-- The failing input of C8 evaluated: the mapping `{"__proto__": "x", "q": "{{query}}"}` (as
`JSON.parse` builds it, with `__proto__` an own key) is interpolated to `{"q": "cats"}`: the
assignment `result["__proto__"] = ...` creates no own property, so a key is lost. -/
theorem interpolateObject_counterexample :
    interpolateObject protoBody queryData = .ok (.obj [("q".toList, .str "cats".toList)]) ∧
    renderedShape protoBody queryData =
      .ok (.obj [("__proto__".toList, .str "x".toList), ("q".toList, .str "cats".toList)]) ∧
    ["q".toList] ≠ ["__proto__".toList, "q".toList] := by
  refine ⟨by rfl, by rfl, by decide⟩

theorem renderOutput_decoded (type : Option (List Char)) (temple : List Char)
    (response : HttpResponse) :
    renderOutput type temple response =
      (decodedBody type response).bind fun body => interpolate temple body := by
  unfold renderOutput decodedBody
  split
  · rfl
  · cases response.json <;> rfl

/-- C9: `executeResponse` uses exactly one response spec, chosen by `response.ok`: the
result has the `output_type` of the chosen spec and, as content, the chosen `output` template
rendered against the decoded body; the spec that is not chosen has no influence.  A failed
response with the error spec `{input_type: "json", output: "{{message}}",
output_type: "text"}` and the body `{"message": "bad request"}` yields
`{type: "text", content: "bad request"}`. -/
theorem executeResponse_selects (content error : ResponseSpec) (response : HttpResponse) :
    executeResponse content error response =
      ((decodedBody (if response.ok = true then content else error).input_type response).bind
        fun body =>
          (interpolate (if response.ok = true then content else error).output body).map
            fun c => { type := (if response.ok = true then content else error).output_type,
                       content := c }) ∧
    (∀ other, response.ok = false →
      executeResponse other error response = executeResponse content error response) ∧
    (∀ other, response.ok = true →
      executeResponse content other response = executeResponse content error response) ∧
    executeResponse content
        { input_type := some "json".toList, output := hole "message".toList,
          output_type := "text".toList }
        { ok := false, text := badRequestText,
          json := .ok (.obj [("message".toList, .str "bad request".toList)]) } =
      .ok { type := "text".toList, content := "bad request".toList } := by
  refine ⟨?_, ?_, ?_, by rfl⟩
  · unfold executeResponse
    cases hok : response.ok
    · simp only [Bool.not_false, if_true, Bool.false_eq_true, if_false, renderOutput_decoded]
      cases decodedBody error.input_type response with
      | error e => rfl
      | ok body => cases interpolate error.output body <;> rfl
    · simp only [Bool.not_true, Bool.false_eq_true, if_false, if_true, renderOutput_decoded]
      cases decodedBody content.input_type response with
      | error e => rfl
      | ok body => cases interpolate content.output body <;> rfl
  · intro other hok
    simp [executeResponse, hok]
  · intro other hok
    simp [executeResponse, hok]

theorem lazyStarRun_sound {α : Type} (cls : Char → Bool) (s : List Char) (c : Caps)
    (k : List Char → Caps → Option α) (x : α) (h : lazyStarRun cls s c k = some x) :
    ∃ pre rest, s = pre ++ rest ∧ k rest c = some x := by
  induction s with
  | nil => exact ⟨[], [], rfl, by simpa [lazyStarRun] using h⟩
  | cons a s ih =>
    simp only [lazyStarRun] at h
    split at h
    · next y hy =>
      simp only [Option.some.injEq] at h
      subst h
      exact ⟨[], a :: s, rfl, hy⟩
    · split at h
      · obtain ⟨pre, rest, hs, hk⟩ := ih h
        exact ⟨a :: pre, rest, by simp [hs], hk⟩
      · simp at h

/-- A successful run hands some suffix of the input to its continuation. -/
theorem run_sound {α : Type} (r : Re) : ∀ (s : List Char) (c : Caps)
    (k : List Char → Caps → Option α) (x : α), r.run s c k = some x →
    ∃ pre rest c', s = pre ++ rest ∧ k rest c' = some x := by
  induction r with
  | lit p =>
    intro s c k x h
    simp only [Re.run] at h
    split at h
    · next rest hd => exact ⟨p, rest, c, dropLit_eq_some hd, h⟩
    · simp at h
  | plus cls =>
    intro s c k x h
    obtain ⟨w, rest, hs, -, -, hk⟩ := plus_sound cls s c k x h
    exact ⟨w, rest, c, hs, hk⟩
  | lazyStar cls =>
    intro s c k x h
    obtain ⟨pre, rest, hs, hk⟩ := lazyStarRun_sound cls s c k x h
    exact ⟨pre, rest, c, hs, hk⟩
  | group i r ih =>
    intro s c k x h
    simp only [Re.run] at h
    obtain ⟨pre, rest, c', hs, hk⟩ := ih s c _ x h
    exact ⟨pre, rest, _, hs, hk⟩
  | opt r ih =>
    intro s c k x h
    simp only [Re.run] at h
    split at h
    · next y hy =>
      simp only [Option.some.injEq] at h
      subst h
      exact ih s c k y hy
    · exact ⟨[], s, c, rfl, h⟩
  | seq a b iha ihb =>
    intro s c k x h
    rw [run_seq] at h
    obtain ⟨pre₁, rest₁, c₁, hs₁, hk₁⟩ := iha s c _ x h
    obtain ⟨pre₂, rest₂, c₂, hs₂, hk₂⟩ := ihb rest₁ c₁ k x hk₁
    exact ⟨pre₁ ++ pre₂, rest₂, c₂, by simp [hs₁, hs₂], hk₂⟩

theorem containsText_of_head (p s : List Char) (h : (dropLit p s).isSome = true) :
    containsText p s = true := by
  cases s with
  | nil => simpa [containsText] using h
  | cons a s => simp [containsText, h]

theorem containsText_intro (p pre rest : List Char) :
    containsText p (pre ++ p ++ rest) = true := by
  induction pre with
  | nil =>
    apply containsText_of_head
    simp [dropLit_append]
  | cons a pre ih =>
    simp only [List.cons_append, containsText, Bool.or_eq_true]
    right
    simpa using ih

/-- Every match of the loop pattern ends with the closing tag. -/
theorem loop_exec_sound (u rest : List Char) (c : Caps)
    (h : INTERPOLATE_LOOP_REGEXP.exec u = some (c, rest)) :
    ∃ pre, u = pre ++ eachClose ++ rest := by
  unfold INTERPOLATE_LOOP_REGEXP Re.exec at h
  simp only [Re.cat] at h
  rw [run_seq] at h
  obtain ⟨p₁, r₁, c₁, h₁, k₁⟩ := run_sound _ _ _ _ _ h
  rw [run_seq] at k₁
  obtain ⟨p₂, r₂, c₂, h₂, k₂⟩ := run_sound _ _ _ _ _ k₁
  rw [run_seq] at k₂
  obtain ⟨p₃, r₃, c₃, h₃, k₃⟩ := run_sound _ _ _ _ _ k₂
  rw [run_seq] at k₃
  obtain ⟨p₄, r₄, c₄, h₄, k₄⟩ := run_sound _ _ _ _ _ k₃
  rw [run_seq] at k₄
  obtain ⟨p₅, r₅, c₅, h₅, k₅⟩ := run_sound _ _ _ _ _ k₄
  rw [run_seq] at k₅
  obtain ⟨p₆, r₆, c₆, h₆, k₆⟩ := run_sound _ _ _ _ _ k₅
  rw [run_seq] at k₆
  obtain ⟨p₇, r₇, c₇, h₇, k₇⟩ := run_sound _ _ _ _ _ k₆
  rw [run_seq] at k₇
  obtain ⟨p₈, r₈, c₈, h₈, k₈⟩ := run_sound _ _ _ _ _ k₇
  rw [run_seq] at k₈
  obtain ⟨p₉, r₉, c₉, h₉, k₉⟩ := run_sound _ _ _ _ _ k₈
  rw [Re.run] at k₉
  split at k₉
  · next r' hd =>
    simp only [Option.some.injEq, Prod.mk.injEq] at k₉
    have hr := dropLit_eq_some hd
    refine ⟨p₁ ++ p₂ ++ p₃ ++ p₄ ++ p₅ ++ p₆ ++ p₇ ++ p₈ ++ p₉, ?_⟩
    rw [h₁, h₂, h₃, h₄, h₅, h₆, h₇, h₈, h₉, hr, k₉.2]
    simp
  · simp at k₉

/-- The loop pass leaves a text without closing tag unchanged: such a text holds no complete
`#each` block. -/
theorem loopPass_noClose (render : List Char → JSVal → Except JSError (List Char))
    (d : JSVal) (B : List Char) (hB : containsText eachClose B = false) :
    loopPass render d B = .ok B := by
  apply replaceFrom_noMatch
  intro pre u hs
  cases hex : INTERPOLATE_LOOP_REGEXP.exec u with
  | none => rfl
  | some cr =>
    obtain ⟨c, rest⟩ := cr
    obtain ⟨pre', hu⟩ := loop_exec_sound u rest c hex
    have h1 := containsText_suffix pre u (hs ▸ hB)
    rw [hu, containsText_intro] at h1
    cases h1

theorem loopPass_each_then (render : List Char → JSVal → Except JSError (List Char))
    (x A B R : List Char) (scope : JSVal) (hx : isName x = true) (hA : isExpr A = true)
    (hB : containsText eachClose B = false) :
    loopPass render scope (eachBlock x A B ++ R) =
      (do let out ← processLoop render x A B scope
          let tail ← loopPass render scope R
          pure (out ++ tail)) := by
  have hm := replaceFrom_match INTERPOLATE_LOOP_REGEXP
    (fun c => processLoop render ((c 1).getD []) ((c 2).getD []) ((c 3).getD []) scope)
    (eachBlock x A B) R _ (by simp [eachBlock]) (loop_exec x A B R hx hA hB)
  rw [loopPass, replace, hm]
  simp [setCap, loopPass, replace]

/-- C10 (amended): loops do not nest.  The loop pattern pairs an `#each` opener with the
first `{{/each}}` after it: for a body `B` without `{{/each}}` (it may hold the opener of an
inner loop) and any text `R`, the loop pass replaces `{{#each x in A}}B{{/each}}` by the
result of `processLoop` on `B` and goes on in `R`; rendering `B` itself expands no loop,
being the conditional and the variable pass only.  So
`{{#each r in rows}}{{#each c in r.cells}}{{c}}{{/each}};{{/each}}` renders the inner
opener twice, followed by `;{{/each}}`. -/
theorem each_pairs_with_first_close
    (render : List Char → JSVal → Except JSError (List Char)) (x A B R : List Char)
    (scope : JSVal) (fmt : Option Formatter) (hx : isName x = true) (hA : isExpr A = true)
    (hB : containsText eachClose B = false) :
    loopPass render scope (eachBlock x A B ++ R) =
      (do let out ← processLoop render x A B scope
          let tail ← loopPass render scope R
          pure (out ++ tail)) ∧
    interpolate B scope fmt = (conditionPass scope B >>= variablePass fmt scope) ∧
    interpolate nestedTemplate rowsData =
      .ok (innerOpener ++ innerOpener ++ ";".toList ++ eachClose) := by
  refine ⟨loopPass_each_then render x A B R scope hx hA hB, ?_, by rfl⟩
  rw [interpolate, interpolateFuel, processTemplate, loopPass_noClose _ scope B hB, ok_bind]

/-- Witness for C10: the outer opener `{{#each r in rows}}` with the body
`{{#each c in r.cells}}{{c}}` and the remaining text `;{{/each}}`. -/
theorem each_pairs_with_first_close_witness :
    (isName "r".toList = true ∧ isExpr "rows".toList = true ∧
      containsText eachClose innerOpener = false) ∧
    loopPass (fun b s => interpolate b s) rowsData
        (eachBlock "r".toList "rows".toList innerOpener ++ (";".toList ++ eachClose)) =
      (do let out ← processLoop (fun b s => interpolate b s) "r".toList "rows".toList
            innerOpener rowsData
          let tail ← loopPass (fun b s => interpolate b s) rowsData (";".toList ++ eachClose)
          pure (out ++ tail)) :=
  ⟨⟨by decide, by decide, by decide⟩,
    (each_pairs_with_first_close (fun b s => interpolate b s) "r".toList "rows".toList
      innerOpener (";".toList ++ eachClose) rowsData none
      (by decide) (by decide) (by decide)).1⟩

/-- Counterexample to C10 as stated: the nested template of the claim, with
`rows = [{cells: [1, 2]}, {cells: [3]}]`, does not render `12;3;`. -/
theorem nested_each_counterexample :
    interpolate nestedTemplate rowsData ≠ .ok "12;3;".toList ∧
    interpolate (eachBlock "c".toList "cells".toList (hole "c".toList))
        (.obj [("cells".toList, .arr [.num 1, .num 2])]) = .ok "12".toList := by
  refine ⟨by decide, by rfl⟩

/-! ## The recursion budget is never exhausted -/

theorem lazyStarRun_sound_min {α : Type} (cls : Char → Bool) (s : List Char) (c : Caps)
    (k : List Char → Caps → Option α) (x : α) (h : lazyStarRun cls s c k = some x) :
    ∃ pre rest, s = pre ++ rest ∧ k rest c = some x ∧
      ∀ p u, pre = p ++ u → u ≠ [] → k (u ++ rest) c = none := by
  induction s with
  | nil =>
    refine ⟨[], [], rfl, by simpa [lazyStarRun] using h, ?_⟩
    intro p u hp hu
    have : u = [] := by
      have := congrArg List.length hp
      simp at this
      exact List.length_eq_zero.mp (by omega)
    exact absurd this hu
  | cons a s ih =>
    simp only [lazyStarRun] at h
    split at h
    · next y hy =>
      simp only [Option.some.injEq] at h
      subst h
      refine ⟨[], a :: s, rfl, hy, ?_⟩
      intro p u hp hu
      have : u = [] := by
        have := congrArg List.length hp
        simp at this
        exact List.length_eq_zero.mp (by omega)
      exact absurd this hu
    · next hnone =>
      split at h
      · obtain ⟨pre, rest, hs, hk, hmin⟩ := ih h
        refine ⟨a :: pre, rest, by simp [hs], hk, ?_⟩
        intro p u hp hu
        cases p with
        | nil =>
          simp only [List.nil_append] at hp
          subst hp
          simpa [hs] using hnone
        | cons b p =>
          simp only [List.cons_append, List.cons.injEq] at hp
          exact hmin p u hp.2 hu
      · simp at h

theorem dropLit_extend (p u rest : List Char) (h : (dropLit p u).isSome = true) :
    (dropLit p (u ++ rest)).isSome = true := by
  cases hd : dropLit p u with
  | none => simp [hd] at h
  | some r =>
    have := dropLit_eq_some hd
    rw [this, List.append_assoc, dropLit_append]
    rfl

theorem containsText_of_suffixes (p B rest : List Char) (hp : p ≠ [])
    (h : ∀ pre u, B = pre ++ u → u ≠ [] → dropLit p (u ++ rest) = none) :
    containsText p B = false := by
  induction B with
  | nil =>
    cases p with
    | nil => exact absurd rfl hp
    | cons a p => rfl
  | cons a B ih =>
    simp only [containsText, Bool.or_eq_false_iff]
    constructor
    · have h0 := h [] (a :: B) rfl (by simp)
      cases hd : (dropLit p (a :: B)).isSome with
      | false => rfl
      | true =>
        have := dropLit_extend p (a :: B) rest hd
        rw [h0] at this
        cases this
    · exact ih (fun pre u hB hu => h (a :: pre) u (by simp [hB]) hu)

/-- The body captured by a match of the loop pattern holds no closing tag. -/
theorem loop_exec_body (u rest : List Char) (c : Caps)
    (h : INTERPOLATE_LOOP_REGEXP.exec u = some (c, rest)) :
    ∃ B, c 3 = some B ∧ containsText eachClose B = false := by
  unfold INTERPOLATE_LOOP_REGEXP Re.exec at h
  simp only [Re.cat] at h
  rw [run_seq] at h
  obtain ⟨p₁, r₁, c₁, h₁, k₁⟩ := run_sound _ _ _ _ _ h
  rw [run_seq] at k₁
  obtain ⟨p₂, r₂, c₂, h₂, k₂⟩ := run_sound _ _ _ _ _ k₁
  rw [run_seq] at k₂
  obtain ⟨p₃, r₃, c₃, h₃, k₃⟩ := run_sound _ _ _ _ _ k₂
  rw [run_seq] at k₃
  obtain ⟨p₄, r₄, c₄, h₄, k₄⟩ := run_sound _ _ _ _ _ k₃
  rw [run_seq] at k₄
  obtain ⟨p₅, r₅, c₅, h₅, k₅⟩ := run_sound _ _ _ _ _ k₄
  rw [run_seq] at k₅
  obtain ⟨p₆, r₆, c₆, h₆, k₆⟩ := run_sound _ _ _ _ _ k₅
  rw [run_seq] at k₆
  obtain ⟨p₇, r₇, c₇, h₇, k₇⟩ := run_sound _ _ _ _ _ k₆
  rw [run_seq] at k₇
  obtain ⟨p₈, r₈, c₈, h₈, k₈⟩ := run_sound _ _ _ _ _ k₇
  rw [run_seq] at k₈
  simp only [Re.run] at k₈
  obtain ⟨B, rest', hB, hk, hmin⟩ := lazyStarRun_sound_min _ _ _ _ _ k₈
  split at hk
  · next r' hd =>
    simp only [Option.some.injEq, Prod.mk.injEq] at hk
    refine ⟨B, ?_, ?_⟩
    · rw [← hk.1, hB]
      simp [setCap]
    · apply containsText_of_suffixes _ B rest' (by simp)
      intro pre u hpre hu
      have := hmin pre u hpre hu
      cases hd' : dropLit eachClose (u ++ rest') with
      | none => rfl
      | some r'' => rw [hd'] at this; cases this
  · simp at hk

theorem replaceFrom_congr (r : Re) (f g : Caps → Except JSError (List Char))
    (h : ∀ u c rest, r.exec u = some (c, rest) → f c = g c) (skip : Nat) (s : List Char) :
    replaceFrom r f skip s = replaceFrom r g skip s := by
  induction s generalizing skip with
  | nil =>
    simp only [replaceFrom]
    split
    · next c rest hex => exact h [] c rest hex
    · rfl
  | cons a s ih =>
    cases skip with
    | succ n => simpa [replaceFrom] using ih n
    | zero =>
      simp only [replaceFrom]
      split
      · next c rest hex => simp only [h _ c rest hex, ih]
      · simp only [ih]

theorem replaceFrom_error (r : Re) (f : Caps → Except JSError (List Char)) (e : JSError)
    (skip : Nat) (s : List Char) (h : replaceFrom r f skip s = .error e) :
    ∃ u c rest, r.exec u = some (c, rest) ∧ f c = .error e := by
  induction s generalizing skip with
  | nil =>
    simp only [replaceFrom] at h
    split at h
    · next c rest hex => exact ⟨[], c, rest, hex, h⟩
    · cases h
  | cons a s ih =>
    cases skip with
    | succ n => exact ih n (by simpa [replaceFrom] using h)
    | zero =>
      simp only [replaceFrom] at h
      split at h
      · next c rest hex =>
        cases hf : f c with
        | error e' =>
          simp only [hf, error_bind, Except.error.injEq] at h
          exact ⟨_, c, rest, hex, h ▸ hf⟩
        | ok out =>
          simp only [hf, ok_bind] at h
          split at h
          · cases ht : replaceFrom r f 0 s with
            | error e' =>
              simp only [ht, error_bind, Except.error.injEq] at h
              exact ih 0 (h ▸ ht)
            | ok t => simp [ht, ok_bind, pure, Except.pure] at h
          · simp only [List.length_cons] at h
            cases ht : replaceFrom r f (s.length + 1 - rest.length - 1) s with
            | error e' =>
              rw [ht] at h
              simp only [error_bind, Except.error.injEq] at h
              exact ih _ (h ▸ ht)
            | ok t =>
              rw [ht] at h
              cases h
      · cases ht : replaceFrom r f 0 s with
        | error e' =>
          simp only [ht, error_bind, Except.error.injEq] at h
          exact ih 0 (h ▸ ht)
        | ok t => simp [ht, ok_bind, pure, Except.pure] at h

theorem evaluateExpression_error (expr : List Char) (d : JSVal) (e : JSError)
    (h : evaluateExpression expr d = .error e) : e = .typeError := by
  unfold evaluateExpression at h
  split at h
  · split at h
    · cases h; rfl
    · cases h; rfl
    · split at h <;> cases h
  · cases h

theorem conditionPass_error (d : JSVal) (s : List Char) (e : JSError)
    (h : conditionPass d s = .error e) : e = .typeError := by
  obtain ⟨u, c, rest, -, hf⟩ := replaceFrom_error _ _ e 0 s h
  simp only [processConditional] at hf
  cases hv : evaluateExpression ((c 1).getD []) d with
  | error e' =>
    simp only [hv, error_bind, Except.error.injEq] at hf
    exact hf ▸ evaluateExpression_error _ _ _ hv
  | ok v => simp [hv, ok_bind, pure, Except.pure] at hf

mutual
theorem toJSString_error : ∀ (v : JSVal) (e : JSError), toJSString v = .error e →
    e = .typeError
  | .undefined, _, h => by cases h
  | .null, _, h => by cases h
  | .bool true, _, h => by cases h
  | .bool false, _, h => by cases h
  | .num _, _, h => by cases h
  | .str _, _, h => by cases h
  | .arr xs, e, h => joinComma_error xs e (by simpa only [toJSString] using h)
  | .obj kvs, e, h => by
    simp only [toJSString] at h
    split at h
    · cases h; rfl
    · cases h
termination_by structural v => v
theorem joinComma_error : ∀ (xs : List JSVal) (e : JSError), joinComma xs = .error e →
    e = .typeError
  | [], _, h => by cases h
  | [x], e, h => elemString_error x e (by simpa only [joinComma] using h)
  | x :: y :: rest, e, h => by
    simp only [joinComma] at h
    cases hx : elemString x with
    | error e' =>
      simp only [hx, error_bind, Except.error.injEq] at h
      exact h ▸ elemString_error x e' hx
    | ok a =>
      simp only [hx, ok_bind] at h
      cases hr : joinComma (y :: rest) with
      | error e' =>
        simp only [hr, error_bind, Except.error.injEq] at h
        exact h ▸ joinComma_error (y :: rest) e' hr
      | ok b => simp [hr, ok_bind, pure, Except.pure] at h
termination_by structural xs => xs
theorem elemString_error : ∀ (v : JSVal) (e : JSError), elemString v = .error e →
    e = .typeError
  | .undefined, _, h => by cases h
  | .null, _, h => by cases h
  | .bool true, _, h => by cases h
  | .bool false, _, h => by cases h
  | .num _, _, h => by cases h
  | .str _, _, h => by cases h
  | .arr xs, e, h => joinComma_error xs e (by simpa only [elemString] using h)
  | .obj kvs, e, h => by
    simp only [elemString] at h
    split at h
    · cases h; rfl
    · cases h
termination_by structural v => v
end

/-- A throw of the replacer of the variable pass is the `TypeError` of `.` on a missing
scope, a throw of the conversion to a string, or a throw of the formatter. -/
theorem substituteVariable_error (f : Option Formatter) (d : JSVal) (expr : List Char)
    (e : JSError) (h : substituteVariable f d expr = .error e) :
    evaluateExpression expr d = .error e ∨
      ∃ v, evaluateExpression expr d = .ok v ∧
        ((f = none ∧ toJSString v = .error e) ∨ ∃ fmt, f = some fmt ∧ fmt v = .error e) := by
  simp only [substituteVariable] at h
  cases hv : evaluateExpression expr d with
  | error e' =>
    simp only [hv, error_bind, Except.error.injEq] at h
    exact Or.inl (h ▸ rfl)
  | ok v =>
    simp only [hv, ok_bind] at h
    refine Or.inr ⟨v, rfl, ?_⟩
    cases f with
    | none => cases v <;> first | (simp [pure, Except.pure] at h; done) | exact Or.inl ⟨rfl, h⟩
    | some fmt =>
      cases v <;> first | (simp [pure, Except.pure] at h; done) | exact Or.inr ⟨fmt, rfl, h⟩

theorem variablePass_error (d : JSVal) (s : List Char) (e : JSError)
    (h : variablePass none d s = .error e) : e = .typeError := by
  obtain ⟨u, c, rest, -, hf⟩ := replaceFrom_error _ _ e 0 s h
  rcases substituteVariable_error none d _ e hf with hv | ⟨v, -, ⟨-, hv⟩ | ⟨fmt, hfmt, -⟩⟩
  · exact evaluateExpression_error _ _ _ hv
  · exact toJSString_error v e hv
  · cases hfmt

/-- Rendering a loop body (a text without closing tag) needs a budget of one call. -/
theorem interpolateFuel_body (n : Nat) (B : List Char) (d : JSVal) (f : Option Formatter)
    (hB : containsText eachClose B = false) :
    interpolateFuel (n + 1) B d f = (conditionPass d B >>= variablePass f d) := by
  rw [interpolateFuel, processTemplate, loopPass_noClose _ d B hB, ok_bind]

theorem loopPass_fuel (n : Nat) (d : JSVal) (t : List Char) :
    loopPass (fun b s => interpolateFuel (n + 1) b s none) d t =
      loopPass (fun b s => interpolateFuel 1 b s none) d t := by
  apply replaceFrom_congr
  intro u c rest hex
  obtain ⟨B, hc, hB⟩ := loop_exec_body u rest c hex
  simp only [hc, Option.getD_some, processLoop]
  cases evaluateExpression ((c 2).getD []) d with
  | error e => rfl
  | ok v =>
    simp only [ok_bind]
    cases v with
    | arr xs =>
      exact renderItems_congr _ _ _ B d xs
        (fun s => by rw [interpolateFuel_body n B s none hB, interpolateFuel_body 0 B s none hB])
    | _ => rfl

theorem interpolateFuel_enough (n : Nat) (t : List Char) (d : JSVal) (f : Option Formatter) :
    interpolateFuel (n + 2) t d f = interpolateFuel 2 t d f := by
  rw [interpolateFuel, interpolateFuel, processTemplate, processTemplate, loopPass_fuel n d t]

/-- The budget `interpolate` starts with is enough: a larger one gives the same result. -/
theorem interpolate_eq_fuel (n : Nat) (t : List Char) (d : JSVal) (f : Option Formatter) :
    interpolateFuel (n + 2) t d f = interpolate t d f := by
  cases t with
  | nil => rfl
  | cons a t =>
    rw [interpolate, List.length_cons, interpolateFuel_enough n, interpolateFuel_enough t.length]

theorem renderItems_error (render : List Char → JSVal → Except JSError (List Char))
    (x B : List Char) (d : JSVal) (xs : List JSVal) (e : JSError)
    (h : renderItems render x B d xs = .error e) :
    ∃ a, render B (itemData d x a) = .error e := by
  induction xs with
  | nil => cases h
  | cons a xs ih =>
    simp only [renderItems] at h
    cases ha : render B (itemData d x a) with
    | error e' =>
      simp only [ha, error_bind, Except.error.injEq] at h
      exact ⟨_, h ▸ ha⟩
    | ok out =>
      simp only [ha, ok_bind] at h
      cases hr : renderItems render x B d xs with
      | error e' =>
        simp only [hr, error_bind, Except.error.injEq] at h
        exact ih (h ▸ hr)
      | ok outs => simp [hr, ok_bind, pure, Except.pure] at h

theorem variablePass_error_cases (f : Option Formatter) (d : JSVal) (s : List Char)
    (e : JSError) (h : variablePass f d s = .error e) :
    e = .typeError ∨ ∃ fmt v, f = some fmt ∧ fmt v = .error e := by
  obtain ⟨u, c, rest, -, hf⟩ := replaceFrom_error _ _ e 0 s h
  rcases substituteVariable_error f d _ e hf with hv | ⟨v, -, ⟨-, hv⟩ | ⟨fmt, hfmt, hv⟩⟩
  · exact Or.inl (evaluateExpression_error _ _ _ hv)
  · exact Or.inl (toJSString_error v e hv)
  · exact Or.inr ⟨fmt, v, hfmt, hv⟩

/-- A throw of `processLoop`, for a loop body without closing tag: the evaluation of the
loop source throws, or the conditional or the variable pass of an element render does. -/
theorem processLoop_error (n : Nat) (x A B : List Char) (d : JSVal) (e : JSError)
    (hB : containsText eachClose B = false)
    (h : processLoop (fun b s => interpolateFuel (n + 1) b s none) x A B d = .error e) :
    evaluateExpression A d = .error e ∨
      ∃ a, (conditionPass (itemData d x a) B >>= variablePass none (itemData d x a)) =
        .error e := by
  simp only [processLoop] at h
  cases hv : evaluateExpression A d with
  | error e' =>
    simp only [hv, error_bind, Except.error.injEq] at h
    exact Or.inl (h ▸ rfl)
  | ok v =>
    simp only [hv, ok_bind] at h
    cases v with
    | arr xs =>
      obtain ⟨a, ha⟩ := renderItems_error _ _ _ _ _ _ h
      simp only [interpolateFuel_body n B _ none hB] at ha
      exact Or.inr ⟨a, ha⟩
    | _ => simp [pure, Except.pure] at h

/-- The function `interpolate` never fails for lack of recursion budget: what it throws is
a `TypeError` (of `.` on a missing scope, or of the conversion of a value to a string) or
what the formatter throws. -/
theorem interpolate_error (t : List Char) (d : JSVal) (f : Option Formatter) (e : JSError)
    (h : interpolate t d f = .error e) :
    e = .typeError ∨ ∃ fmt v, f = some fmt ∧ fmt v = .error e := by
  rw [← interpolate_eq_fuel 0 t d f, interpolateFuel, processTemplate] at h
  cases hl : loopPass (fun b s => interpolateFuel 1 b s none) d t with
  | error e' =>
    simp only [hl, error_bind, Except.error.injEq] at h
    subst h
    obtain ⟨u, c, rest, hex, hf⟩ := replaceFrom_error _ _ e' 0 t hl
    obtain ⟨B, hc, hB⟩ := loop_exec_body u rest c hex
    simp only [hc, Option.getD_some] at hf
    rcases processLoop_error 0 _ _ B d e' hB hf with hv | ⟨a, ha⟩
    · exact Or.inl (evaluateExpression_error _ _ _ hv)
    · cases hcnd : conditionPass (itemData d ((c 1).getD []) a) B with
      | error e'' =>
        simp only [hcnd, error_bind, Except.error.injEq] at ha
        exact Or.inl (ha ▸ conditionPass_error _ _ _ hcnd)
      | ok t₂ =>
        simp only [hcnd, ok_bind] at ha
        exact Or.inl (variablePass_error _ _ _ ha)
  | ok t₁ =>
    simp only [hl, ok_bind] at h
    cases hcnd : conditionPass d t₁ with
    | error e' =>
      simp only [hcnd, error_bind, Except.error.injEq] at h
      exact Or.inl (h ▸ conditionPass_error _ _ _ hcnd)
    | ok t₂ =>
      simp only [hcnd, ok_bind] at h
      exact variablePass_error_cases _ _ _ _ h

theorem replaceFrom_total_of_matches (r : Re) (f : Caps → Except JSError (List Char))
    (hf : ∀ u c rest, r.exec u = some (c, rest) → ∃ o, f c = .ok o) (skip : Nat)
    (s : List Char) : ∃ o, replaceFrom r f skip s = .ok o := by
  cases h : replaceFrom r f skip s with
  | ok o => exact ⟨o, rfl⟩
  | error e =>
    obtain ⟨u, c, rest, hex, hc⟩ := replaceFrom_error r f e skip s h
    obtain ⟨o, ho⟩ := hf u c rest hex
    rw [ho] at hc
    cases hc

theorem evaluateExpression_total (expr : List Char) (d : JSVal) (h₁ : d ≠ .null)
    (h₂ : d ≠ .undefined) : ∃ v, evaluateExpression expr d = .ok v := by
  unfold evaluateExpression
  split
  · cases d with
    | null => exact absurd rfl h₁
    | undefined => exact absurd rfl h₂
    | _ => simp only []; split <;> exact ⟨_, rfl⟩
  · exact ⟨_, rfl⟩

theorem conditionPass_total (d : JSVal) (s : List Char) (h₁ : d ≠ .null)
    (h₂ : d ≠ .undefined) : ∃ o, conditionPass d s = .ok o := by
  apply replaceFrom_total
  intro c
  obtain ⟨v, hv⟩ := evaluateExpression_total ((c 1).getD []) d h₁ h₂
  exact ⟨_, by simp only [processConditional, hv, ok_bind]; rfl⟩

/-- On a data context other than `null` and `undefined` a throw of the variable pass without
formatter is a throw of the conversion to a string of the value of an expression. -/
theorem variablePass_throw_cause (d : JSVal) (s : List Char) (e : JSError) (h₁ : d ≠ .null)
    (h₂ : d ≠ .undefined) (h : variablePass none d s = .error e) :
    ∃ expr v, evaluateExpression expr d = .ok v ∧ toJSString v = .error e := by
  obtain ⟨u, c, rest, -, hf⟩ := replaceFrom_error _ _ e 0 s h
  rcases substituteVariable_error none d _ e hf with hv | ⟨v, hx, ⟨-, hv⟩ | ⟨fmt, hfmt, -⟩⟩
  · obtain ⟨w, hw⟩ := evaluateExpression_total ((c 1).getD []) d h₁ h₂
    rw [hw] at hv
    cases hv
  · exact ⟨_, v, hx, hv⟩
  · cases hfmt

theorem body_throw_cause (d : JSVal) (B : List Char) (e : JSError) (h₁ : d ≠ .null)
    (h₂ : d ≠ .undefined) (h : (conditionPass d B >>= variablePass none d) = .error e) :
    ∃ expr v, evaluateExpression expr d = .ok v ∧ toJSString v = .error e := by
  obtain ⟨t₂, ht₂⟩ := conditionPass_total d B h₁ h₂
  rw [ht₂, ok_bind] at h
  exact variablePass_throw_cause d t₂ e h₁ h₂ h

/-- On a data context other than `null` and `undefined`, `interpolate` without formatter
throws only where the conversion to a string of the value of an expression throws, the
expression being evaluated in the data context or in the child scope of a loop element. -/
theorem interpolate_throw_cause (t : List Char) (d : JSVal) (e : JSError) (h₁ : d ≠ .null)
    (h₂ : d ≠ .undefined) (h : interpolate t d none = .error e) :
    ∃ scope expr v, (scope = d ∨ ∃ x item, scope = itemData d x item) ∧
      evaluateExpression expr scope = .ok v ∧ toJSString v = .error e := by
  rw [← interpolate_eq_fuel 0 t d none, interpolateFuel, processTemplate] at h
  cases hl : loopPass (fun b s => interpolateFuel 1 b s none) d t with
  | error e' =>
    simp only [hl, error_bind, Except.error.injEq] at h
    subst h
    obtain ⟨u, c, rest, hex, hf⟩ := replaceFrom_error _ _ e' 0 t hl
    obtain ⟨B, hc, hB⟩ := loop_exec_body u rest c hex
    simp only [hc, Option.getD_some] at hf
    rcases processLoop_error 0 _ _ B d e' hB hf with hv | ⟨a, ha⟩
    · obtain ⟨w, hw⟩ := evaluateExpression_total ((c 2).getD []) d h₁ h₂
      rw [hw] at hv
      cases hv
    · obtain ⟨expr, v, hx, hv⟩ :=
        body_throw_cause _ B e' (by simp [itemData]) (by simp [itemData]) ha
      exact ⟨_, expr, v, Or.inr ⟨_, a, rfl⟩, hx, hv⟩
  | ok t₁ =>
    simp only [hl, ok_bind] at h
    obtain ⟨expr, v, hx, hv⟩ := body_throw_cause d t₁ e h₁ h₂ h
    exact ⟨d, expr, v, Or.inl rfl, hx, hv⟩

/-- C5 (code defect): with the data context `null` the template `{{.}}` makes `interpolate`
throw a `TypeError`: the case `expr === '.'` of `evaluateExpression` reads `localData['.']`
outside the `try` block.  The same happens for `undefined`, with a formatter, and for `.`
as the condition of an `#if` or the source of an `#each`.  On every other data context the
evaluation of an expression returns, and `interpolate` without formatter throws only where
the conversion to a string of the value of an expression throws, the expression being
evaluated in the data context or in the child scope of a loop element, as for `{{a}}` on
`{a: {toString: 1}}`. -/
theorem interpolate_dot_null_throws :
    interpolate (hole ".".toList) .null = .error .typeError ∧
    interpolate (hole ".".toList) .undefined = .error .typeError ∧
    interpolate (hole ".".toList) .null (some encodeURIComponent) = .error .typeError ∧
    interpolate (ifBlock ".".toList "yes".toList) .null = .error .typeError ∧
    interpolate (eachBlock "x".toList ".".toList (hole "x".toList)) .null =
      .error .typeError ∧
    (∀ (expr : List Char) (d : JSVal), d ≠ .null → d ≠ .undefined →
      ∃ v, evaluateExpression expr d = .ok v) ∧
    (∀ (t : List Char) (d : JSVal) (e : JSError), d ≠ .null → d ≠ .undefined →
      interpolate t d none = .error e →
      ∃ scope expr v, (scope = d ∨ ∃ x item, scope = itemData d x item) ∧
        evaluateExpression expr scope = .ok v ∧ toJSString v = .error e) ∧
    interpolate (hole "a".toList) (.obj [("a".toList, .obj [("toString".toList, .num 1)])]) =
      .error .typeError := by
  refine ⟨by rfl, by rfl, by rfl, by rfl, by rfl, ?_, ?_, by rfl⟩
  · exact fun expr d h₁ h₂ => evaluateExpression_total expr d h₁ h₂
  · exact fun t d e h₁ h₂ h => interpolate_throw_cause t d e h₁ h₂ h

/-- Witness for C5: the expression `a` on the data context `1`, and the throw of `{{a}}` on
`{a: {toString: 1}}`, whose cause is the conversion of `{toString: 1}`. -/
theorem interpolate_dot_null_throws_witness :
    ((JSVal.num 1) ≠ .null ∧ (JSVal.num 1) ≠ .undefined ∧
      interpolate (hole "a".toList)
        (.obj [("a".toList, .obj [("toString".toList, .num 1)])]) none =
        .error .typeError) ∧
    (∃ v, evaluateExpression "a".toList (.num 1) = .ok v) ∧
    (∃ scope expr v,
      (scope = .obj [("a".toList, .obj [("toString".toList, .num 1)])] ∨
        ∃ x item, scope = itemData (.obj [("a".toList, .obj [("toString".toList, .num 1)])])
          x item) ∧
      evaluateExpression expr scope = .ok v ∧ toJSString v = .error .typeError) :=
  ⟨⟨by simp, by simp, by rfl⟩,
    interpolate_dot_null_throws.2.2.2.2.2.1 "a".toList (.num 1) (by simp) (by simp),
    interpolate_dot_null_throws.2.2.2.2.2.2.1 (hole "a".toList)
      (.obj [("a".toList, .obj [("toString".toList, .num 1)])]) .typeError (by simp) (by simp)
      (by rfl)⟩

theorem conditionPass_if_then (C T R : List Char) (scope : JSVal) (hC : isExpr C = true)
    (hT₁ : containsText elseTag T = false) (hT₂ : containsText ifClose T = false) :
    conditionPass scope (ifBlock C T ++ R) =
      (do let out ← processConditional C T none scope
          let tail ← conditionPass scope R
          pure (out ++ tail)) := by
  have hm := replaceFrom_match INTERPOLATE_CONDITION_REGEXP
    (fun c => processConditional ((c 1).getD []) ((c 2).getD []) (c 3) scope)
    (ifBlock C T) R _ (by simp [ifBlock]) (cond_exec_plain C T R hC hT₁ hT₂)
  rw [conditionPass, replace, hm]
  simp [setCap, conditionPass, replace]

/-- C11 (amended): conditionals do not nest.  The conditional pattern pairs an `#if` opener
with the first `{{/if}}` after it: for a branch text `T` without `{{else}}` and `{{/if}}` (it
may hold the opener of an inner `#if`) and any text `R`, the conditional pass replaces
`{{#if C}}T{{/if}}` by the result of `processConditional` and goes on in `R`; the chosen
branch is not rendered again by the conditional pass, only the variable pass follows.  So
`{{#if a}}X{{#if b}}Y{{/if}}Z{{/if}}` with `a` truthy renders `X{{#if b}}YZ{{/if}}`, whatever
`b` is. -/
theorem if_pairs_with_first_close (C T R : List Char) (scope v : JSVal)
    (fmt : Option Formatter) (hC : isExpr C = true)
    (hT₀ : containsText eachOpen T = false) (hT₁ : containsText elseTag T = false)
    (hT₂ : containsText ifClose T = false) (hv : evaluateExpression C scope = .ok v) :
    conditionPass scope (ifBlock C T ++ R) =
      (do let tail ← conditionPass scope R
          pure ((if truthy v = true then T else []) ++ tail)) ∧
    interpolate (ifBlock C T) scope fmt =
      (if truthy v = true then variablePass fmt scope T else .ok []) ∧
    interpolate nestedIfTemplate (abData (.bool true) (.bool true)) =
      .ok (innerIfOpener ++ "Z".toList ++ ifClose) ∧
    interpolate nestedIfTemplate (abData (.bool true) (.bool false)) =
      .ok (innerIfOpener ++ "Z".toList ++ ifClose) := by
  refine ⟨?_, ?_, by rfl, by rfl⟩
  · rw [conditionPass_if_then C T R scope hC hT₁ hT₂, processConditional, hv]
    rfl
  · rw [interpolate, interpolateFuel, processTemplate,
      loopPass_absent _ scope _ (noEach_ifBlock C T hC hT₀), ok_bind,
      conditionPass_ifBlock C T scope hC hT₁ hT₂, processConditional, hv]
    simp only [ok_bind, Option.getD_none]
    by_cases hb : truthy v = true
    · simp only [hb, if_true]; rfl
    · simp only [hb, if_false]; rfl

/-- Witness for C11: the outer opener `{{#if a}}` with the branch text `X{{#if b}}Y` and the
remaining text `Z{{/if}}`. -/
theorem if_pairs_with_first_close_witness :
    (isExpr "a".toList = true ∧ containsText eachOpen innerIfOpener = false ∧
      containsText elseTag innerIfOpener = false ∧
      containsText ifClose innerIfOpener = false ∧
      evaluateExpression "a".toList (abData (.bool true) (.bool false)) = .ok (.bool true)) ∧
    conditionPass (abData (.bool true) (.bool false))
        (ifBlock "a".toList innerIfOpener ++ ("Z".toList ++ ifClose)) =
      (do let tail ← conditionPass (abData (.bool true) (.bool false)) ("Z".toList ++ ifClose)
          pure ((if truthy (.bool true) = true then innerIfOpener else []) ++ tail)) :=
  ⟨⟨by decide, by decide, by decide, by decide, by rfl⟩,
    (if_pairs_with_first_close "a".toList innerIfOpener ("Z".toList ++ ifClose)
      (abData (.bool true) (.bool false)) (.bool true) none
      (by decide) (by decide) (by decide) (by decide) (by rfl)).1⟩

/-- Counterexample to C11 as stated: `{{#if a}}X{{#if b}}Y{{/if}}Z{{/if}}` renders neither
`XYZ` for `a` and `b` true nor `XZ` for `a` true and `b` false. -/
theorem nested_if_counterexample :
    interpolate nestedIfTemplate (abData (.bool true) (.bool true)) ≠ .ok "XYZ".toList ∧
    interpolate nestedIfTemplate (abData (.bool true) (.bool false)) ≠ .ok "XZ".toList := by
  refine ⟨by decide, by decide⟩

theorem lookupKey_defineProp_same (key : List Char) (v : JSVal)
    (kvs : List (List Char × JSVal)) : lookupKey key (defineProp key v kvs) = v := by
  induction kvs with
  | nil => simp [defineProp, lookupKey]
  | cons a kvs ih =>
    obtain ⟨k, w⟩ := a
    by_cases hk : k = key
    · simp [defineProp, lookupKey, hk]
    · simp [defineProp, lookupKey, hk, ih]

theorem lookupKey_defineProp_other (key other : List Char) (v : JSVal)
    (kvs : List (List Char × JSVal)) (h : other ≠ key) :
    lookupKey other (defineProp key v kvs) = lookupKey other kvs := by
  induction kvs with
  | nil => simp [defineProp, lookupKey, Ne.symm h]
  | cons a kvs ih =>
    obtain ⟨k, w⟩ := a
    by_cases hk : k = key
    · have hk' : ¬ (k = other) := fun e => h (e.symm.trans hk)
      simp [defineProp, lookupKey, hk, hk', Ne.symm h]
    · by_cases ho : k = other
      · subst ho
        simp [defineProp, lookupKey, hk]
      · simp [defineProp, lookupKey, hk, ho, ih]

theorem isName_ne_dot (x : List Char) (hx : isName x = true) : x ≠ ['.'] := by
  intro h
  subst h
  exact absurd hx (by decide)

/-- In the child scope of an iteration the item name is bound to the element. -/
theorem getProp_itemData_item (scope : JSVal) (x : List Char) (item : JSVal)
    (hx : isName x = true) : getProp (itemData scope x item) x = item := by
  simp only [itemData, getProp]
  rw [lookupKey_defineProp_other _ _ _ _ (isName_ne_dot x hx), lookupKey_defineProp_same]

/-- In the child scope of an iteration `.` is bound to the element. -/
theorem getProp_itemData_dot (scope : JSVal) (x : List Char) (item : JSVal) :
    getProp (itemData scope x item) ['.'] = item := by
  simp only [itemData, getProp]
  rw [lookupKey_defineProp_same]

/-- Every other key of a parent mapping is visible in the child scope. -/
theorem getProp_itemData_other (kvs : List (List Char × JSVal)) (x k : List Char)
    (item : JSVal) (hk : k ≠ x) (hd : k ≠ ['.']) :
    getProp (itemData (.obj kvs) x item) k = getProp (.obj kvs) k := by
  simp only [itemData, getProp, spread]
  rw [lookupKey_defineProp_other _ _ _ _ hd, lookupKey_defineProp_other _ _ _ _ hk]

theorem splitOn_noSep (sep : Char) (x : List Char) (hx : ∀ c ∈ x, c ≠ sep) :
    splitOn sep x = [x] := by
  induction x with
  | nil => rfl
  | cons a x ih =>
    have ha : a ≠ sep := hx a (List.mem_cons_self _ _)
    have ih' := ih (fun c hc => hx c (List.mem_cons_of_mem _ hc))
    simp [splitOn, ha, ih']

theorem splitOn_cons_sep (sep : Char) (x tail : List Char) (hx : ∀ c ∈ x, c ≠ sep) :
    splitOn sep (x ++ sep :: tail) = x :: splitOn sep tail := by
  induction x with
  | nil => simp [splitOn]
  | cons a x ih =>
    have ha : a ≠ sep := hx a (List.mem_cons_self _ _)
    have ih' := ih (fun c hc => hx c (List.mem_cons_of_mem _ hc))
    simp [splitOn, ha, ih']

theorem isWord_all_ne (x : List Char) (hx : x.all isWord = true) (sep : Char)
    (hs : isWord sep = false) : ∀ c ∈ x, c ≠ sep := by
  intro c hc h
  subst h
  have := List.all_eq_true.mp hx c hc
  rw [hs] at this
  cases this

/-- A segment made of word characters is a plain property projection. -/
theorem evalStep_name (v : JSVal) (k : List Char) (hk : k.all isWord = true) :
    evalStep v k = getProp v k := by
  have h : k.contains '[' = false := by
    cases hc : k.contains '[' with
    | false => rfl
    | true =>
      have hm : '[' ∈ k := by simpa using hc
      exact absurd rfl (isWord_all_ne k hk '[' (by decide) '[' hm)
  have hm : '[' ∉ k := by
    intro hm
    exact absurd rfl (isWord_all_ne k hk '[' (by decide) '[' hm)
  simp [evalStep, hm]

/-- A path `k` or `k.tail` whose first segment is a name: the value of `k`, then the tail. -/
theorem evaluateExpression_path (k tail : List Char) (d : JSVal) (hk : isName k = true) :
    evaluateExpression k d = .ok (getProp d k) ∧
    evaluateExpression (k ++ '.' :: tail) d =
      .ok ((splitOn '.' tail).foldl evalStep (getProp d k)) := by
  have hk' := hk
  simp only [isName, Bool.and_eq_true, Bool.not_eq_true', List.isEmpty_eq_false] at hk'
  have hne := isWord_all_ne k hk'.2 '.' (by decide)
  constructor
  · unfold evaluateExpression
    rw [if_neg (isName_ne_dot k hk), splitOn_noSep '.' k hne]
    simp [evalStep_name _ k hk'.2]
  · have h2 : k ++ '.' :: tail ≠ ['.'] := by
      cases k with
      | nil => simp at hk'
      | cons a k =>
        intro h
        simp only [List.cons_append, List.cons.injEq] at h
        exact hne a (List.mem_cons_self _ _) h.1
    unfold evaluateExpression
    rw [if_neg h2, splitOn_cons_sep '.' k tail hne]
    simp [evalStep_name _ k hk'.2]

/-- C12 (amended): while the body of a loop is rendered for an element, the local bindings
shadow the parent keys of the same name: in the child scope of a parent mapping the paths
`x` and `x.tail` are evaluated against the current element only, and a path that starts with
another parent key `k` has the value it has in the parent scope.  With every `item.title`
defined, `{{#each item in items}}[{{item.title}}]{{/each}}` renders the titles of the elements,
whatever the parent key `item` holds. -/
theorem each_scope_shadowing (kvs : List (List Char × JSVal)) (x k tail : List Char)
    (item : JSVal) (hx : isName x = true) (hk : isName k = true) (hkx : k ≠ x) :
    evaluateExpression x (itemData (.obj kvs) x item) = .ok item ∧
    evaluateExpression (x ++ '.' :: tail) (itemData (.obj kvs) x item) =
      .ok ((splitOn '.' tail).foldl evalStep item) ∧
    evaluateExpression k (itemData (.obj kvs) x item) = evaluateExpression k (.obj kvs) ∧
    evaluateExpression (k ++ '.' :: tail) (itemData (.obj kvs) x item) =
      evaluateExpression (k ++ '.' :: tail) (.obj kvs) ∧
    interpolate titlesTemplate (titlesData [titled "A".toList, titled "B".toList]) =
      .ok "[A][B]".toList := by
  have hx1 := evaluateExpression_path x tail (itemData (.obj kvs) x item) hx
  have hk1 := evaluateExpression_path k tail (itemData (.obj kvs) x item) hk
  have hk2 := evaluateExpression_path k tail (.obj kvs) hk
  rw [getProp_itemData_item _ x item hx] at hx1
  rw [getProp_itemData_other kvs x k item hkx (isName_ne_dot k hk)] at hk1
  exact ⟨hx1.1, hx1.2, hk1.1.trans hk2.1.symm, hk1.2.trans hk2.2.symm, by rfl⟩

/-- Witness for C12: the item name `item`, the parent key `items` and the tail `title`. -/
theorem each_scope_shadowing_witness :
    (isName "item".toList = true ∧ isName "items".toList = true ∧
      "items".toList ≠ "item".toList) ∧
    evaluateExpression ("item".toList ++ '.' :: "title".toList)
        (itemData (.obj [("item".toList, titled "P".toList)]) "item".toList
          (titled "A".toList)) =
      .ok ((splitOn '.' "title".toList).foldl evalStep (titled "A".toList)) :=
  ⟨⟨by decide, by decide, by decide⟩,
    (each_scope_shadowing [("item".toList, titled "P".toList)] "item".toList "items".toList
      "title".toList (titled "A".toList) (by decide) (by decide) (by decide)).2.1⟩

/-- Counterexample to C12 as stated: the second element has no `title`, so its placeholder
`{{item.title}}` stays in the output of the loop and the enclosing variable pass resolves it
against the parent key `item`: the render is `[A][P]`. -/
theorem each_scope_shadowing_counterexample :
    evaluateExpression "item.title".toList
        (itemData (titlesData [titled "A".toList, .obj []]) "item".toList (.obj [])) =
      .ok .undefined ∧
    interpolate titlesTemplate (titlesData [titled "A".toList, .obj []]) =
      .ok "[A][P]".toList := by
  refine ⟨by rfl, by rfl⟩

/-- Counterexample to C13 as stated: the directive-free template `{{a}}` with
`a = "{{b}}"` and `b = "x"` renders `{{b}}`, and rendering that again gives `x`. -/
theorem rerender_counterexample :
    directiveFree (hole "a".toList) = true ∧
    interpolate (hole "a".toList) chainData = .ok (hole "b".toList) ∧
    interpolate (hole "b".toList) chainData = .ok "x".toList ∧
    (interpolate (hole "a".toList) chainData).bind (fun out => interpolate out chainData) ≠
      interpolate (hole "a".toList) chainData := by
  refine ⟨by decide, by rfl, by rfl, by decide⟩

theorem interpolate_placeholder_defined (expr : List Char) (scope v : JSVal)
    (he : isExpr expr = true) (hx : evaluateExpression expr scope = .ok v)
    (hv : v ≠ .undefined) :
    interpolate (hole expr) scope none = toJSString v := by
  obtain ⟨n1, n2⟩ := noOpeners_placeholder expr he
  unfold hole
  rw [interpolate_plain _ scope none n1 n2, variablePass]
  have hex := var_exec expr [] he rfl
  rw [List.append_nil] at hex
  rw [replace_whole _ _ _ _ (by simp) hex rfl]
  simp only [setCap, if_true, Option.getD_some, substituteVariable, hx, ok_bind]

theorem evaluateExpression_dot_binding (scope v : JSVal) (hs₁ : scope ≠ .null)
    (hs₂ : scope ≠ .undefined) (hb : getProp scope ['.'] = v) (hv₁ : v ≠ .null)
    (hv₂ : v ≠ .undefined) : evaluateExpression ['.'] scope = .ok v := by
  unfold evaluateExpression
  rw [if_pos rfl]
  cases scope with
  | null => exact absurd rfl hs₁
  | undefined => exact absurd rfl hs₂
  | _ => simp only [hb]

theorem evaluateExpression_dot_whole (scope : JSVal) (hs₁ : scope ≠ .null)
    (hs₂ : scope ≠ .undefined)
    (hb : getProp scope ['.'] = .undefined ∨ getProp scope ['.'] = .null) :
    evaluateExpression ['.'] scope = .ok scope := by
  unfold evaluateExpression
  rw [if_pos rfl]
  cases scope with
  | null => exact absurd rfl hs₁
  | undefined => exact absurd rfl hs₂
  | _ => rcases hb with hb | hb <;> simp only [hb]

/-- C14 (code defect): for every scope other than `null` and `undefined`, the expression `.`
evaluates to the scope's `.` binding when that binding is neither `null` nor `undefined`, and
to the whole scope otherwise, also when the scope has the binding `.` with the value `null`.
In the child scope of a loop iteration it evaluates to the current element and `{{.}}`
renders as `String(element)` does, for every element other than `null` and `undefined`:
`{{#each x in xs}}{{.}};{{/each}}` with `xs = [1, "b"]` renders `1;b;`.  For the element
`null` the expression `.` gives the whole child scope: `{{.}}` renders `[object Object]`
where `{{x}}` renders `null`. -/
theorem evaluate_dot (scope item : JSVal) (x : List Char) (hs₁ : scope ≠ .null)
    (hs₂ : scope ≠ .undefined) (hi₁ : item ≠ .null) (hi₂ : item ≠ .undefined) :
    (∀ v, getProp scope ['.'] = v → v ≠ .null → v ≠ .undefined →
      evaluateExpression ['.'] scope = .ok v) ∧
    (getProp scope ['.'] = .undefined ∨ getProp scope ['.'] = .null →
      evaluateExpression ['.'] scope = .ok scope) ∧
    evaluateExpression ['.'] (itemData scope x item) = .ok item ∧
    interpolate (hole ['.']) (itemData scope x item) = toJSString item ∧
    interpolate dotTemplate (xsData [.num 1, .str "b".toList]) = .ok "1;b;".toList ∧
    (evaluateExpression ['.'] (itemData scope x .null) = .ok (itemData scope x .null) ∧
      interpolate (hole ['.']) (itemData scope x .null) =
        toJSString (itemData scope x .null) ∧
      interpolate dotTemplate (xsData [.num 1, .null]) = .ok "1;[object Object];".toList ∧
      interpolate itemTemplate (xsData [.num 1, .null]) = .ok "1;null;".toList) := by
  have hd : evaluateExpression ['.'] (itemData scope x item) = .ok item :=
    evaluateExpression_dot_binding _ item (by simp [itemData]) (by simp [itemData])
      (getProp_itemData_dot scope x item) hi₁ hi₂
  have hn : evaluateExpression ['.'] (itemData scope x .null) = .ok (itemData scope x .null) :=
    evaluateExpression_dot_whole _ (by simp [itemData]) (by simp [itemData])
      (Or.inr (getProp_itemData_dot scope x .null))
  refine ⟨fun v hb hv₁ hv₂ => evaluateExpression_dot_binding scope v hs₁ hs₂ hb hv₁ hv₂,
    evaluateExpression_dot_whole scope hs₁ hs₂, hd,
    interpolate_placeholder_defined ['.'] _ item (by decide) hd hi₂, by rfl, hn,
    interpolate_placeholder_defined ['.'] _ _ (by decide) hn (by simp [itemData]),
    by rfl, by rfl⟩

/-- Witness for C14: the scope `{xs: [1]}` and the element `1`. -/
theorem evaluate_dot_witness :
    ((xsData [.num 1] ≠ .null ∧ xsData [.num 1] ≠ .undefined ∧ (JSVal.num 1) ≠ .null ∧
        (JSVal.num 1) ≠ .undefined) ∧
      (getProp (xsData [.num 1]) ['.'] = .undefined ∨ getProp (xsData [.num 1]) ['.'] = .null)) ∧
    evaluateExpression ['.'] (xsData [.num 1]) = .ok (xsData [.num 1]) ∧
    evaluateExpression ['.'] (itemData (xsData [.num 1]) "x".toList (.num 1)) =
      .ok (.num 1) ∧
    interpolate (hole ['.']) (itemData (xsData [.num 1]) "x".toList (.num 1)) =
      .ok "1".toList :=
  ⟨⟨⟨by simp [xsData], by simp [xsData], by simp, by simp⟩, Or.inl rfl⟩,
    (evaluate_dot (xsData [.num 1]) (.num 1) "x".toList (by simp [xsData]) (by simp [xsData])
      (by simp) (by simp)).2.1 (Or.inl rfl),
    (evaluate_dot (xsData [.num 1]) (.num 1) "x".toList (by simp [xsData]) (by simp [xsData])
      (by simp) (by simp)).2.2.1,
    (evaluate_dot (xsData [.num 1]) (.num 1) "x".toList (by simp [xsData]) (by simp [xsData])
      (by simp) (by simp)).2.2.2.1⟩

/-- The failing input of C14 evaluated: for the element `null` the child scope has the
binding `.` = `null`, yet `.` evaluates to the whole child scope, and `{{.}}` renders
`[object Object]` where `{{x}}` renders `null`. -/
theorem evaluate_dot_counterexample :
    getProp (itemData (xsData [.null]) "x".toList .null) ['.'] = .null ∧
    evaluateExpression ['.'] (itemData (xsData [.null]) "x".toList .null) =
      .ok (itemData (xsData [.null]) "x".toList .null) ∧
    interpolate dotTemplate (xsData [.num 1, .null]) = .ok "1;[object Object];".toList ∧
    interpolate itemTemplate (xsData [.num 1, .null]) = .ok "1;null;".toList := by
  refine ⟨by rfl, by rfl, by rfl, by rfl⟩

theorem containsText_plain (p s : List Char) (hs : plainText s = true) :
    containsText ('{' :: p) s = false := by
  induction s with
  | nil => rfl
  | cons a s ih =>
    simp only [plainText, List.all_cons, Bool.and_eq_true, bne_iff_ne, ne_eq] at hs
    have ha : ¬ ('{' = a) := fun h => hs.1 h.symm
    have ih' := ih (by simpa [plainText] using hs.2)
    simp [containsText, dropLit, ha, ih']

theorem plainText_flatten (ls : List (List Char)) (h : ∀ l ∈ ls, plainText l = true) :
    plainText ls.flatten = true := by
  induction ls with
  | nil => rfl
  | cons l ls ih =>
    have h1 := h l (List.mem_cons_self _ _)
    have h2 := ih (fun l' hl' => h l' (List.mem_cons_of_mem _ hl'))
    simp only [plainText, List.flatten_cons, List.all_append, Bool.and_eq_true] at h1 h2 ⊢
    exact ⟨h1, h2⟩

theorem containsText_skip_expr (p C r : List Char) (hC : C.all isExprChar = true) :
    containsText ('{' :: p) (C ++ r) = containsText ('{' :: p) r := by
  induction C with
  | nil => rfl
  | cons a C ih =>
    simp only [List.all_cons, Bool.and_eq_true] at hC
    have ha : ¬ ('{' = a) := by
      intro h
      subst h
      exact absurd hC.1 (by decide)
    simp [containsText, dropLit, ha, ih hC.2]

theorem noClose_ifElseBlock (C T F : List Char) (hC : isExpr C = true)
    (hT : containsText eachClose T = false) (hF : containsText eachClose F = false) :
    containsText eachClose (ifElseBlock C T F) = false := by
  simp only [isExpr, Bool.and_eq_true] at hC
  have h1 : containsText eachClose (F ++ ifClose) = false := by
    apply containsText_append hF (by decide)
    intro k hk0 hk1
    have hk2 : k < 9 := hk1
    interval_cases k <;> rfl
  have h2 : containsText eachClose (elseTag ++ (F ++ ifClose)) = false := by
    simpa [containsText, dropLit] using h1
  have h3 : containsText eachClose (T ++ (elseTag ++ (F ++ ifClose))) = false := by
    apply containsText_append hT h2
    intro k hk0 hk1
    have hk2 : k < 9 := hk1
    interval_cases k <;> rfl
  have h4 : containsText eachClose (holeClose ++ (T ++ (elseTag ++ (F ++ ifClose)))) =
      false := by
    simpa [containsText, dropLit] using h3
  have h5 : containsText eachClose
      (C ++ (holeClose ++ (T ++ (elseTag ++ (F ++ ifClose))))) = false := by
    exact (containsText_skip_expr _ C _ hC.2).trans h4
  have e : ifElseBlock C T F = ifOpen ++ [' '] ++
      (C ++ (holeClose ++ (T ++ (elseTag ++ (F ++ ifClose))))) := by
    simp [ifElseBlock]
  rw [e]
  simpa [containsText, dropLit] using h5

theorem renderItems_map (render : List Char → JSVal → Except JSError (List Char))
    (x B : List Char) (d : JSVal) (g : JSVal → List Char) (xs : List JSVal)
    (h : ∀ item, render B (itemData d x item) = .ok (g item)) :
    renderItems render x B d xs = .ok (xs.map g).flatten := by
  induction xs with
  | nil => rfl
  | cons a xs ih => simp only [renderItems, h, ih, ok_bind, List.map_cons, List.flatten_cons]; rfl

theorem isName_append_field (x k : List Char) (hx : isName x = true) (hk : isName k = true) :
    isExpr (x ++ '.' :: k) = true := by
  simp only [isName, isExpr, Bool.and_eq_true, Bool.not_eq_true', List.isEmpty_eq_false,
    List.all_eq_true] at hx hk ⊢
  refine ⟨by simp, ?_⟩
  intro c hc
  simp only [List.mem_append, List.mem_cons] at hc
  rcases hc with hc | hc | hc
  · simp [isExprChar, hx.2 c hc]
  · subst hc; decide
  · simp [isExprChar, hk.2 c hc]

/-- C16: for an item name `x`, a loop source `A` that evaluates to the array `xs`, a field
name `k` and plain texts `T` and `F`, `{{#each x in A}}{{#if x.k}}T{{else}}F{{/if}}{{/each}}`
renders, element by element, `T` when the field `k` of the element is truthy and `F`
otherwise; the parent scope enters only through `A`.  With a parent key `x = {ok: true}` and
`xs = [{ok: true}, {ok: 0}, {}]` the template with `yes` and `no` renders `yesnono`. -/
theorem each_if_per_element (x A k T F : List Char) (scope : JSVal) (xs : List JSVal)
    (fmt : Option Formatter) (hx : isName x = true) (hA : isExpr A = true)
    (hk : isName k = true) (hT : plainText T = true) (hF : plainText F = true)
    (hxs : evaluateExpression A scope = .ok (.arr xs)) :
    interpolate (eachBlock x A (ifElseBlock (x ++ '.' :: k) T F)) scope fmt =
      .ok (xs.map (fun el => if truthy (getProp el k) = true then T else F)).flatten ∧
    interpolate okTemplate okData = .ok "yesnono".toList := by
  refine ⟨?_, by rfl⟩
  have hC := isName_append_field x k hx hk
  have hB := noClose_ifElseBlock (x ++ '.' :: k) T F hC (containsText_plain _ T hT)
    (containsText_plain _ F hF)
  have hitem : ∀ (n : Nat) (item : JSVal),
      interpolateFuel (n + 1) (ifElseBlock (x ++ '.' :: k) T F) (itemData scope x item) none =
        .ok (if truthy (getProp item k) = true then T else F) := by
    intro n item
    rw [interpolateFuel_body n _ _ none hB,
      conditionPass_ifElseBlock _ T F _ hC (containsText_plain _ T hT)
        (containsText_plain _ T hT) (containsText_plain _ F hF),
      processConditional, (evaluateExpression_path x k _ hx).2,
      getProp_itemData_item scope x item hx]
    have hk' := hk
    simp only [isName, Bool.and_eq_true] at hk'
    rw [splitOn_noSep '.' k (isWord_all_ne k hk'.2 '.' (by decide))]
    simp only [List.foldl_cons, List.foldl_nil, evalStep_name _ k hk'.2, ok_bind,
      Option.getD_some]
    by_cases hb : truthy (getProp item k) = true
    · simp only [hb, if_true]
      exact variablePass_absent none _ T (containsText_plain _ T hT)
    · simp only [hb, if_false]
      exact variablePass_absent none _ F (containsText_plain _ F hF)
  have hlen : ∃ n, (eachBlock x A (ifElseBlock (x ++ '.' :: k) T F)).length = n + 1 :=
    ⟨_, by simp [eachBlock]; rfl⟩
  obtain ⟨n, hn⟩ := hlen
  have hout : plainText
      (xs.map (fun el => if truthy (getProp el k) = true then T else F)).flatten = true := by
    apply plainText_flatten
    intro l hl
    simp only [List.mem_map] at hl
    obtain ⟨el, -, rfl⟩ := hl
    split
    · exact hT
    · exact hF
  rw [interpolate, hn, interpolateFuel, processTemplate, eachBlock,
    loopPass_each _ x A _ scope hx hA hB, processLoop, hxs]
  simp only [ok_bind]
  rw [renderItems_map (fun body scope => interpolateFuel (n + 1) body scope none) x _ scope _ xs
      (hitem n), ok_bind,
    conditionPass_absent scope _ (containsText_plain _ _ hout), ok_bind,
    variablePass_absent fmt scope _ (containsText_plain _ _ hout)]

/-- Witness for C16: the template with `yes` and `no` against the scenario data. -/
theorem each_if_per_element_witness :
    (isName "x".toList = true ∧ isExpr "xs".toList = true ∧ isName "ok".toList = true ∧
      plainText "yes".toList = true ∧ plainText "no".toList = true) ∧
    interpolate (eachBlock "x".toList "xs".toList
        (ifElseBlock ("x".toList ++ '.' :: "ok".toList) "yes".toList "no".toList))
        okData none =
      .ok ([.obj [("ok".toList, .bool true)], .obj [("ok".toList, .num 0)], .obj []].map
        (fun el => if truthy (getProp el "ok".toList) = true then "yes".toList
          else "no".toList)).flatten :=
  ⟨⟨by decide, by decide, by decide, by decide, by decide⟩,
    (each_if_per_element "x".toList "xs".toList "ok".toList "yes".toList "no".toList okData
      [.obj [("ok".toList, .bool true)], .obj [("ok".toList, .num 0)], .obj []] none
      (by decide) (by decide) (by decide) (by decide) (by decide) (by rfl)).1⟩

theorem replaceFrom_congr_on (r : Re) (f g : Caps → Except JSError (List Char))
    (skip : Nat) (s : List Char)
    (h : ∀ pre u c rest, s = pre ++ u → r.exec u = some (c, rest) → f c = g c) :
    replaceFrom r f skip s = replaceFrom r g skip s := by
  induction s generalizing skip with
  | nil =>
    simp only [replaceFrom]
    split
    · next c rest hex => exact h [] [] c rest rfl hex
    · rfl
  | cons a s ih =>
    have ih' := fun k => ih k (fun pre u c rest hs hex => h (a :: pre) u c rest (by simp [hs]) hex)
    cases skip with
    | succ n => simpa [replaceFrom] using ih' n
    | zero =>
      simp only [replaceFrom]
      split
      · next c rest hex => simp only [h [] _ c rest rfl hex, ih']
      · simp only [ih']

theorem placeholders_exec (u rest : List Char) (c : Caps)
    (h : INTERPOLATE_VARIABLE_REGEXP.exec u = some (c, rest)) :
    (c 1).getD [] ∈ placeholders u := by
  cases u with
  | nil =>
    obtain ⟨e, -, -, hs⟩ := var_exec_sound _ _ _ h
    simp [holeOpen] at hs
  | cons a s => simp [placeholders, h]

theorem variablePass_agree (fmt : Option Formatter) (d₁ d₂ : JSVal) (t : List Char)
    (h : ∀ e ∈ placeholders t, evaluateExpression e d₁ = evaluateExpression e d₂) :
    variablePass fmt d₁ t = variablePass fmt d₂ t := by
  unfold variablePass replace
  apply replaceFrom_congr_on
  intro pre u c rest hs hex
  have hm := placeholders_suffix pre u _ (placeholders_exec u rest c hex)
  rw [← hs] at hm
  simp only [substituteVariable, h _ hm]

theorem variablePass_placeholder_defined (expr : List Char) (scope v : JSVal)
    (he : isExpr expr = true) (hx : evaluateExpression expr scope = .ok v)
    (hv : v ≠ .undefined) :
    variablePass none scope (holeOpen ++ expr ++ holeClose) = toJSString v := by
  rw [variablePass]
  have hex := var_exec expr [] he rfl
  rw [List.append_nil] at hex
  rw [replace_whole _ _ _ _ (by simp) hex rfl]
  simp only [setCap, if_true, Option.getD_some, substituteVariable, hx, ok_bind]

/-- The loop `{{#each n in names}}{{n}}{{/each}}` over the single text `text` hands that
text to the conditional and the variable pass of the enclosing scope. -/
theorem leak_passes (scope : JSVal) (text : List Char)
    (hnames : evaluateExpression "names".toList scope = .ok (.arr [.str text])) :
    interpolate leakTemplate scope none =
      (conditionPass scope text >>= variablePass none scope) := by
  have hB : containsText eachClose (hole "n".toList) = false := by decide
  obtain ⟨n, hn⟩ : ∃ n, leakTemplate.length = n + 1 := ⟨_, by rfl⟩
  have hn1 := noOpeners_placeholder "n".toList (by decide)
  have hitem : interpolateFuel (n + 1) (hole "n".toList)
      (itemData scope "n".toList (.str text)) none = .ok text := by
    rw [show hole "n".toList = holeOpen ++ "n".toList ++ holeClose from rfl,
      interpolateFuel_plain _ _ _ none hn1.1 hn1.2,
      variablePass_placeholder_defined "n".toList _ (.str text) (by decide)
        (by
          rw [(evaluateExpression_path "n".toList [] _ (by decide)).1,
            getProp_itemData_item _ _ _ (by decide)])
        (by simp)]
    rfl
  have hr : renderItems (fun body scope => interpolateFuel (n + 1) body scope none)
      "n".toList (hole "n".toList) scope [.str text] = .ok text := by
    simp only [renderItems, hitem, ok_bind]
    simp [pure, Except.pure, bind, Except.bind]
  rw [interpolate, hn, interpolateFuel, processTemplate, leakTemplate, eachBlock,
    loopPass_each _ _ _ _ _ (by decide) (by decide) hB, processLoop, hnames]
  simp only [ok_bind]
  rw [hr, ok_bind]

theorem leak_render (v : JSVal) (hv : v ≠ .undefined) :
    interpolate leakTemplate (leakData v) none = toJSString v := by
  have hnames : evaluateExpression "names".toList (leakData v) =
      .ok (.arr [.str (hole "secret".toList)]) := by
    rw [(evaluateExpression_path "names".toList [] _ (by decide)).1]
    rfl
  have hsecret : evaluateExpression "secret".toList (leakData v) = .ok v := by
    rw [(evaluateExpression_path "secret".toList [] _ (by decide)).1]
    rfl
  rw [leak_passes _ _ hnames, conditionPass_absent _ _ (by decide), ok_bind]
  exact variablePass_placeholder_defined "secret".toList _ v (by decide) hsecret hv

theorem gate_render (v : JSVal) :
    interpolate leakTemplate (gateData v) none =
      .ok (if truthy v = true then "Y".toList else "N".toList) := by
  have hnames : evaluateExpression "names".toList (gateData v) =
      .ok (.arr [.str (ifElseBlock "secret".toList "Y".toList "N".toList)]) := by
    rw [(evaluateExpression_path "names".toList [] _ (by decide)).1]
    rfl
  have hsecret : evaluateExpression "secret".toList (gateData v) = .ok v := by
    rw [(evaluateExpression_path "secret".toList [] _ (by decide)).1]
    rfl
  rw [leak_passes _ _ hnames,
    conditionPass_ifElseBlock _ _ _ _ (by decide) (by decide) (by decide) (by decide),
    processConditional, hsecret]
  simp only [ok_bind, Option.getD_some]
  by_cases hb : truthy v = true
  · simp only [hb, if_true]
    exact variablePass_absent none _ _ (by decide)
  · simp only [hb, if_false]
    exact variablePass_absent none _ _ (by decide)

/-- C19: loop output is scanned again by the conditional and the variable pass of the
enclosing scope, so data text can reach keys the template never names:
`{{#each n in names}}{{n}}{{/each}}` does not contain the text `secret`, yet with
`names = ["{{secret}}"]` it renders as `String(secret)` does, and with
`names = ["{{#if secret}}Y{{else}}N{{/if}}"]` it renders `Y` or `N` as `secret` is truthy or
not; two scopes that differ only in `secret` render differently.  A directive-free template
depends on the scope only through the values of its own placeholders, and a placeholder
whose value is the text `{{k}}` renders that text unexpanded. -/
theorem rescan_interference (v : JSVal) (t e k : List Char) (d₁ d₂ scope : JSVal)
    (fmt : Option Formatter) (hv : v ≠ .undefined) (ht : directiveFree t = true)
    (hagree : ∀ p ∈ placeholders t, evaluateExpression p d₁ = evaluateExpression p d₂)
    (he : isExpr e = true) (hval : evaluateExpression e scope = .ok (.str (hole k))) :
    (containsText "secret".toList leakTemplate = false ∧
      interpolate leakTemplate (leakData v) = toJSString v ∧
      interpolate leakTemplate (leakData (.str "A".toList)) ≠
        interpolate leakTemplate (leakData (.str "B".toList))) ∧
    (∀ w : JSVal, interpolate leakTemplate (gateData w) =
        .ok (if truthy w = true then "Y".toList else "N".toList)) ∧
    interpolate leakTemplate (gateData (.bool true)) ≠
      interpolate leakTemplate (gateData (.bool false)) ∧
    interpolate t d₁ fmt = interpolate t d₂ fmt ∧
    interpolate (hole e) scope = .ok (hole k) := by
  refine ⟨⟨by decide, ?_, by decide⟩, gate_render, by decide, ?_, ?_⟩
  · exact leak_render v hv
  · obtain ⟨h₁, h₂, -⟩ := (directiveFree_iff t).mp ht
    rw [interpolate_plain t d₁ fmt h₁ h₂, interpolate_plain t d₂ fmt h₁ h₂]
    exact variablePass_agree fmt d₁ d₂ t hagree
  · exact interpolate_placeholder_defined e scope _ he hval (by simp)

/-- Witness for C19: the secret `s3`, the directive-free template `{{a}}` on two scopes with
the same `a`, and the placeholder `{{a}}` whose value is the text `{{b}}`. -/
theorem rescan_interference_witness :
    ((.str "s3".toList : JSVal) ≠ .undefined ∧ directiveFree (hole "a".toList) = true ∧
      isExpr "a".toList = true) ∧
    (interpolate leakTemplate (leakData (.str "s3".toList)) = .ok "s3".toList ∧
      interpolate (hole "a".toList)
          (.obj [("a".toList, .str (hole "b".toList)), ("b".toList, .str "x".toList)]) none =
        interpolate (hole "a".toList)
          (.obj [("a".toList, .str (hole "b".toList)), ("b".toList, .str "y".toList)]) none ∧
      interpolate (hole "a".toList) chainData = .ok (hole "b".toList)) :=
  ⟨⟨by simp, by decide, by decide⟩,
    have h := rescan_interference (.str "s3".toList) (hole "a".toList) "a".toList "b".toList
      (.obj [("a".toList, .str (hole "b".toList)), ("b".toList, .str "x".toList)])
      (.obj [("a".toList, .str (hole "b".toList)), ("b".toList, .str "y".toList)])
      chainData none (by simp) (by decide)
      (by
        intro p hp
        have hp' : p = "a".toList := by
          have : placeholders (hole "a".toList) = ["a".toList] := by decide
          rw [this] at hp
          simpa using hp
        subst hp'
        rfl)
      (by decide) (by rfl)
    ⟨h.1.2.1, h.2.2.2.1, h.2.2.2.2⟩⟩

theorem ofNat_digit (n : Nat) (h : n < 10) :
    (Char.ofNat (48 + n)).isDigit = true ∧ (Char.ofNat (48 + n)).toNat - 48 = n ∧
    (0 < n → Char.ofNat (48 + n) ≠ '0') ∧ isSpace (Char.ofNat (48 + n)) = false ∧
    Char.ofNat (48 + n) ≠ '-' ∧ Char.ofNat (48 + n) ≠ '+' ∧ Char.ofNat (48 + n) ≠ '[' ∧
    Char.ofNat (48 + n) ≠ ']' ∧ Char.ofNat (48 + n) ≠ '.' := by
  interval_cases n <;> decide

theorem digitsRev_spec (fuel : Nat) : ∀ n, n < fuel →
    (digitsRev fuel n).all Char.isDigit = true ∧ digitsRev fuel n ≠ [] ∧
    (digitsRev fuel n).foldr (fun d acc => acc * 10 + (d.toNat - 48)) 0 = n ∧
    (0 < n → ∀ c, (digitsRev fuel n).getLast? = some c → c ≠ '0') := by
  induction fuel with
  | zero => intro n h; omega
  | succ fuel ih =>
    intro n h
    by_cases hn : n < 10
    · obtain ⟨h1, h2, h3, -⟩ := ofNat_digit n hn
      simp only [digitsRev, hn, if_true]
      refine ⟨by simp [h1], by simp, by simp [h2], ?_⟩
      intro h0 c hc
      simp only [List.getLast?_singleton, Option.some.injEq] at hc
      exact hc ▸ h3 h0
    · obtain ⟨h1, h2, -⟩ := ofNat_digit (n % 10) (Nat.mod_lt _ (by decide))
      have hlt : n / 10 < fuel := by omega
      obtain ⟨i1, i2, i3, i4⟩ := ih (n / 10) hlt
      simp only [digitsRev, hn, if_false]
      refine ⟨by simp [h1, i1], by simp, ?_, ?_⟩
      · simp only [List.foldr_cons, i3, h2]
        omega
      · intro _ c hc
        cases hd : digitsRev fuel (n / 10) with
        | nil => exact absurd hd i2
        | cons b l =>
          rw [hd, List.getLast?_cons_cons] at hc
          rw [hd] at i4
          exact i4 (by omega) c hc

theorem natToString_spec (n : Nat) :
    (natToString n).all Char.isDigit = true ∧ natToString n ≠ [] ∧
    digitsValue (natToString n) = n ∧
    (0 < n → ∀ c, (natToString n).head? = some c → c ≠ '0') := by
  obtain ⟨h1, h2, h3, h4⟩ := digitsRev_spec (n + 1) n (Nat.lt_succ_self n)
  refine ⟨?_, ?_, ?_, ?_⟩
  · simpa [natToString] using h1
  · simpa [natToString] using h2
  · simpa [natToString, digitsValue, List.foldl_reverse] using h3
  · intro h0 c hc
    rw [natToString, List.head?_reverse] at hc
    exact h4 h0 c hc

theorem natToString_zero : natToString 0 = ['0'] := by rfl

theorem isDigit_props (c : Char) (h : c.isDigit = true) :
    isSpace c = false ∧ c ≠ '-' ∧ c ≠ '+' ∧ c ≠ '[' ∧ c ≠ ']' ∧ c ≠ '.' := by
  refine ⟨?_, ?_, ?_, ?_, ?_, ?_⟩
  · simp only [Char.isDigit, Bool.and_eq_true, decide_eq_true_eq] at h
    have h1 : 48 ≤ c.toNat := h.1
    have h2 : c.toNat ≤ 57 := h.2
    simp only [isSpace, Bool.or_eq_false_iff, decide_eq_false_iff_not, Bool.decide_and]
    simp
    omega
  all_goals (intro hc; subst hc; revert h; decide)

theorem parseIndex_natToString (n : Nat) : parseIndex? (natToString n) = some n := by
  obtain ⟨h1, h2, h3, h4⟩ := natToString_spec n
  rcases Nat.eq_zero_or_pos n with h0 | h0
  · subst h0; rfl
  · cases hs : natToString n with
    | nil => exact absurd hs h2
    | cons c rest =>
      rw [hs] at h1 h3
      have hc : c ≠ '0' := h4 h0 c (by rw [hs]; rfl)
      unfold parseIndex?
      split
      · next heq => cases heq
      · next heq =>
        simp only [List.cons.injEq] at heq
        exact absurd heq.1 hc
      · next c' rest' _ heq =>
        simp only [List.cons.injEq] at heq
        obtain ⟨rfl, rfl⟩ := heq
        rw [if_pos ⟨hc, h1⟩]
        exact congrArg some h3

theorem takeWhile_digits (ds rest : List Char) (c : Char)
    (h : ds.all Char.isDigit = true) (hc : c.isDigit = false) :
    (ds ++ c :: rest).takeWhile Char.isDigit = ds := by
  induction ds with
  | nil => simp [List.takeWhile, hc]
  | cons a ds ih =>
    simp only [List.all_cons, Bool.and_eq_true] at h
    simp [List.takeWhile, h.1, ih h.2]

theorem parseInt_digits (d : Char) (ds rest : List Char) (c : Char)
    (h : (d :: ds).all Char.isDigit = true) (hc : c.isDigit = false) :
    parseInt (d :: ds ++ c :: rest) = some (roundDouble (digitsValue (d :: ds)) : Int) := by
  have hd : d.isDigit = true := by
    simp only [List.all_cons, Bool.and_eq_true] at h
    exact h.1
  obtain ⟨p1, p2, p3, -⟩ := isDigit_props d hd
  have hbody : (d :: ds ++ c :: rest).dropWhile isSpace = d :: (ds ++ c :: rest) := by
    simp [List.dropWhile, p1]
  have htw := takeWhile_digits (d :: ds) rest c h hc
  have hm : (match d :: (ds ++ c :: rest) with
      | '-' :: rest => (true, rest)
      | '+' :: rest => (false, rest)
      | _ => (false, d :: (ds ++ c :: rest))) = (false, d :: (ds ++ c :: rest)) := by
    split
    · next r heq => exact absurd (List.cons.inj heq).1 p2
    · next r heq => exact absurd (List.cons.inj heq).1 p3
    · rfl
  unfold parseInt
  simp only [hbody, hm]
  rw [show d :: (ds ++ c :: rest) = d :: ds ++ c :: rest from rfl, htw]
  simp

theorem parseInt_natToString (n : Nat) (rest : List Char) (c : Char) (hc : c.isDigit = false) :
    parseInt (natToString n ++ c :: rest) = some (roundDouble n : Int) := by
  obtain ⟨h1, h2, h3, -⟩ := natToString_spec n
  cases hs : natToString n with
  | nil => exact absurd hs h2
  | cons d ds =>
    rw [hs] at h1 h3
    rw [parseInt_digits d ds rest c h1 hc, h3]

/-- The index text of an integer parses to the number of JavaScript nearest to it. -/
theorem parseInt_intToString (i : Int) (rest : List Char) (c : Char) (hc : c.isDigit = false) :
    parseInt (intToString i ++ c :: rest) = some (toDouble i) := by
  cases i with
  | ofNat n => exact parseInt_natToString n rest c hc
  | negSucc n =>
    obtain ⟨h1, h2, h3, -⟩ := natToString_spec (n + 1)
    cases hs : natToString (n + 1) with
    | nil => exact absurd hs h2
    | cons d ds =>
      rw [hs] at h1 h3
      have hd : d.isDigit = true := by
        simp only [List.all_cons, Bool.and_eq_true] at h1
        exact h1.1
      have htw := takeWhile_digits (d :: ds) rest c h1 hc
      simp only [intToString, hs]
      unfold parseInt
      have hbody : ('-' :: (d :: ds) ++ c :: rest).dropWhile isSpace =
          '-' :: (d :: ds ++ c :: rest) := by
        have hm : isSpace '-' = false := by decide
        simp [List.dropWhile, hm]
      simp only [hbody, htw]
      simp only [List.isEmpty_cons, Bool.false_eq_true, if_false, if_true, h3]
      rfl

theorem roundDouble_exact (n : Nat) (h : n ≤ maxExact) : roundDouble n = n := by
  rw [roundDouble, if_pos h]

theorem toDouble_exact (i : Int) (h : i.natAbs ≤ maxExact) : toDouble i = i := by
  cases i with
  | ofNat n => simp only [toDouble, roundDouble_exact n h]
  | negSucc n =>
    have h' : n + 1 ≤ maxExact := h
    simp only [toDouble, roundDouble_exact (n + 1) h']
    rfl

theorem numberString_exact (i : Int) (h : i.natAbs ≤ maxExact) :
    numberString i = intToString i := by
  cases i with
  | ofNat n =>
    have h' : n ≤ maxExact := h
    simp only [numberString, natNumberString, if_pos h', intToString]
  | negSucc n =>
    have h' : n + 1 ≤ maxExact := h
    simp only [numberString, natNumberString, if_pos h', intToString]

/-- Up to `2^53` in absolute value, the property key of an index is its decimal text. -/
theorem indexKey_exact (i : Int) (h : i.natAbs ≤ maxExact) : indexKey i = intToString i := by
  rw [indexKey, toDouble_exact i h, numberKey, numberString_exact i h]

theorem intToString_chars (i : Int) :
    ∀ c ∈ intToString i, c ≠ '.' ∧ c ≠ '[' ∧ c ≠ ']' := by
  have hnat : ∀ n : Nat, ∀ c ∈ natToString n, c ≠ '.' ∧ c ≠ '[' ∧ c ≠ ']' := by
    intro n c hc
    obtain ⟨h1, -⟩ := natToString_spec n
    obtain ⟨-, -, -, q1, q2, q3⟩ := isDigit_props c (List.all_eq_true.mp h1 c hc)
    exact ⟨q3, q1, q2⟩
  cases i with
  | ofNat n => exact hnat n
  | negSucc n =>
    intro c hc
    simp only [intToString, List.mem_cons] at hc
    rcases hc with rfl | hc
    · decide
    · exact hnat _ c hc

theorem splitOn_ne_nil (sep : Char) (y : List Char) : splitOn sep y ≠ [] := by
  induction y with
  | nil => simp [splitOn]
  | cons a y ih =>
    simp only [splitOn]
    split
    · simp
    · split
      · simp
      · simp

theorem splitOn_prefix (sep : Char) (x y : List Char) (hx : ∀ c ∈ x, c ≠ sep) :
    ∃ h t, splitOn sep y = h :: t ∧ splitOn sep (x ++ y) = (x ++ h) :: t := by
  induction x with
  | nil =>
    cases hs : splitOn sep y with
    | nil => exact absurd hs (splitOn_ne_nil sep y)
    | cons h t => exact ⟨h, t, rfl, by simpa using hs⟩
  | cons a x ih =>
    have ha : a ≠ sep := hx a (List.mem_cons_self _ _)
    obtain ⟨h, t, h1, h2⟩ := ih (fun c hc => hx c (List.mem_cons_of_mem _ hc))
    exact ⟨h, t, h1, by simp [splitOn, ha, h2]⟩

theorem evalStep_indexed (v : JSVal) (name : List Char) (i : Int) (more : List Char)
    (hname : ∀ c ∈ name, c ≠ '[') :
    evalStep v (name ++ '[' :: intToString i ++ ']' :: more) =
      getProp (getProp v name) (indexKey i) := by
  have hx : ∀ c ∈ intToString i ++ [']'], c ≠ '[' := by
    intro c hc
    simp only [List.mem_append, List.mem_singleton] at hc
    rcases hc with hc | rfl
    · exact (intToString_chars i c hc).2.1
    · decide
  obtain ⟨h, t, -, h2⟩ := splitOn_prefix '[' (intToString i ++ [']']) more hx
  have e1 : name ++ '[' :: intToString i ++ ']' :: more =
      name ++ '[' :: (intToString i ++ [']'] ++ more) := by simp
  have hsplit : splitOn '[' (name ++ '[' :: intToString i ++ ']' :: more) =
      name :: (intToString i ++ ']' :: h) :: t := by
    rw [e1, splitOn_cons_sep '[' name _ hname, h2]
    simp
  have hc1 : (name ++ '[' :: intToString i ++ ']' :: more).contains '[' = true := by simp
  have hc2 : (name ++ '[' :: intToString i ++ ']' :: more).contains ']' = true := by simp
  unfold evalStep
  rw [hc1, hc2, hsplit]
  simp only [Bool.and_self, if_true, List.headD_cons, List.tail_cons, List.head?_cons,
    Option.map_some', Option.getD_some, parseInt_intToString i h ']' (by decide), indexKey]

theorem evalStep_nullish (v : JSVal) (key : List Char)
    (hv : v = .undefined ∨ v = .null) : evalStep v key = .undefined := by
  unfold evalStep
  rcases hv with rfl | rfl <;> split <;> rfl

theorem foldl_evalStep_undefined (segs : List (List Char)) :
    segs.foldl evalStep .undefined = .undefined := by
  induction segs with
  | nil => rfl
  | cons s segs ih => rw [List.foldl_cons, evalStep_nullish _ s (Or.inl rfl), ih]

theorem evalStep_plain (v : JSVal) (k : List Char) (hk : '[' ∉ k ∨ ']' ∉ k) :
    evalStep v k = getProp v k := by
  unfold evalStep
  rcases hk with hk | hk <;> simp [hk]

theorem natToString_ne_length (n : Nat) : natToString n ≠ "length".toList := by
  intro h
  have h1 := (natToString_spec n).1
  rw [h] at h1
  revert h1
  decide

theorem joinDots_cons_head (c : Char) (h : List Char) (t : List (List Char)) :
    joinDots ((c :: h) :: t) = c :: joinDots (h :: t) := by
  cases t <;> rfl

theorem splitOn_noSep_mem (sep : Char) (x : List Char) :
    ∀ s ∈ splitOn sep x, ∀ c ∈ s, c ≠ sep := by
  induction x with
  | nil =>
    intro s hs c hc
    simp only [splitOn, List.mem_singleton] at hs
    subst hs
    cases hc
  | cons a x ih =>
    intro s hs c hc
    by_cases ha : a = sep
    · simp only [splitOn, if_pos ha, List.mem_cons] at hs
      rcases hs with rfl | hs
      · cases hc
      · exact ih s hs c hc
    · cases hx : splitOn sep x with
      | nil => exact absurd hx (splitOn_ne_nil sep x)
      | cons h t =>
        simp only [splitOn, if_neg ha, hx, List.mem_cons] at hs
        rcases hs with rfl | hs
        · simp only [List.mem_cons] at hc
          rcases hc with rfl | hc
          · exact ha
          · exact ih h (by rw [hx]; exact List.mem_cons_self _ _) c hc
        · exact ih s (by rw [hx]; exact List.mem_cons_of_mem _ hs) c hc

theorem joinDots_splitOn (x : List Char) : joinDots (splitOn '.' x) = x := by
  induction x with
  | nil => rfl
  | cons a x ih =>
    cases hx : splitOn '.' x with
    | nil => exact absurd hx (splitOn_ne_nil '.' x)
    | cons h t =>
      rw [hx] at ih
      by_cases ha : a = '.'
      · simp only [splitOn, if_pos ha, hx, joinDots, List.nil_append, ih, ha]
      · simp only [splitOn, if_neg ha, hx, joinDots_cons_head, ih]

theorem splitOn_joinDots (segs : List (List Char)) (hne : segs ≠ [])
    (h : ∀ s ∈ segs, ∀ c ∈ s, c ≠ '.') : splitOn '.' (joinDots segs) = segs := by
  induction segs with
  | nil => exact absurd rfl hne
  | cons s tl ih =>
    cases tl with
    | nil => exact splitOn_noSep '.' s (h s (List.mem_cons_self _ _))
    | cons t rest =>
      have ih' := ih (by simp) (fun s' hs' => h s' (List.mem_cons_of_mem _ hs'))
      simp only [joinDots]
      rw [splitOn_cons_sep '.' s _ (h s (List.mem_cons_self _ _)), ih']

/-- C15: evaluation of an expression other than `.` raises no exception and folds
`evalStep` over the segments of the expression.  The segments of a text are the pieces
between its dots: joined with `.` they give the text back, and none holds a dot; for
every non-empty list of dot-free segments whose path text is not `.`, the path text
evaluates to the fold of `evalStep` over that list, from the scope.  A plain segment `k`
projects the property `k`; a segment `name[i]` with the decimal text of an integer `i`
projects `name` and then the property whose key is the number the text denotes, which
is the text of `i` itself up to `2^53` in absolute value; on an array `xs` and
`i = n ≥ 0` that is the `n`-th element or `undefined`; and once the value after some
segments is `undefined` or `null`, any further segments give `undefined`.  On
`{a: {b: [0, {c: "x"}]}, n: null}`: `a.b[1].c` is `"x"`, `a.zz.c` and `n.c` are
`undefined`, `n` is `null`. -/
theorem evaluate_path (scope : JSVal) :
    (∀ expr : List Char, joinDots (splitOn '.' expr) = expr ∧ splitOn '.' expr ≠ [] ∧
      ∀ s ∈ splitOn '.' expr, ∀ c ∈ s, c ≠ '.') ∧
    (∀ segs : List (List Char), segs ≠ [] → (∀ s ∈ segs, ∀ c ∈ s, c ≠ '.') →
      joinDots segs ≠ ['.'] →
      evaluateExpression (joinDots segs) scope = .ok (segs.foldl evalStep scope)) ∧
    (∀ expr : List Char, expr ≠ ['.'] → ∃ v, evaluateExpression expr scope = .ok v) ∧
    (∀ (v : JSVal) (k : List Char), ('[' ∉ k ∨ ']' ∉ k) → evalStep v k = getProp v k) ∧
    (∀ (v : JSVal) (name : List Char) (i : Int), (∀ c ∈ name, c ≠ '[') →
      evalStep v (name ++ '[' :: intToString i ++ [']']) =
        getProp (getProp v name) (indexKey i)) ∧
    (∀ i : Int, i.natAbs ≤ maxExact → indexKey i = intToString i) ∧
    (∀ (v : JSVal) (name : List Char) (n : Nat) (xs : List JSVal), (∀ c ∈ name, c ≠ '[') →
      n ≤ maxExact → getProp v name = .arr xs →
      evalStep v (name ++ '[' :: natToString n ++ [']']) = (xs.get? n).getD .undefined) ∧
    (∀ (segs rest : List (List Char)) (seg : List Char),
      (segs.foldl evalStep scope = .undefined ∨ segs.foldl evalStep scope = .null) →
      (segs ++ seg :: rest).foldl evalStep scope = .undefined) ∧
    (evaluateExpression "a.b[1].c".toList pathData = .ok (.str "x".toList) ∧
      evaluateExpression "a.zz.c".toList pathData = .ok .undefined ∧
      evaluateExpression "n.c".toList pathData = .ok .undefined ∧
      evaluateExpression "n".toList pathData = .ok .null) := by
  refine ⟨?_, ?_, ?_, ?_, ?_, indexKey_exact, ?_, ?_, by rfl, by rfl, by rfl, by rfl⟩
  · intro expr
    exact ⟨joinDots_splitOn expr, splitOn_ne_nil '.' expr, splitOn_noSep_mem '.' expr⟩
  · intro segs hne hdot hexpr
    unfold evaluateExpression
    rw [if_neg hexpr, splitOn_joinDots segs hne hdot]
  · intro expr hexpr
    refine ⟨(splitOn '.' expr).foldl evalStep scope, ?_⟩
    unfold evaluateExpression
    rw [if_neg hexpr]
  · intro v k hk
    exact evalStep_plain v k hk
  · intro v name i hname
    exact evalStep_indexed v name i [] hname
  · intro v name n xs hname hn harr
    have h := evalStep_indexed v name (Int.ofNat n) [] hname
    rw [indexKey_exact (Int.ofNat n) hn] at h
    simp only [intToString] at h
    rw [h, harr]
    simp only [getProp, if_neg (natToString_ne_length n), parseIndex_natToString]
  · intro segs rest seg hmid
    rw [List.foldl_append, List.foldl_cons, evalStep_nullish _ seg hmid,
      foldl_evalStep_undefined]

/-- Witness for C15: the segments `a`, `b[1]`, `c` of the expression `a.b[1].c` on the
scenario data, the indexed segment `b[1]` on `{b: [0, {c: "x"}]}`, and the path `n.c`
whose first segment evaluates to `null`. -/
theorem evaluate_path_witness :
    joinDots ["a".toList, "b[1]".toList, "c".toList] = "a.b[1].c".toList ∧
    evaluateExpression (joinDots ["a".toList, "b[1]".toList, "c".toList]) pathData =
      .ok (["a".toList, "b[1]".toList, "c".toList].foldl evalStep pathData) ∧
    ["a".toList, "b[1]".toList, "c".toList].foldl evalStep pathData = .str "x".toList ∧
    evalStep (.obj [("b".toList, .arr [.num 0, .obj [("c".toList, .str "x".toList)]])])
        ("b".toList ++ '[' :: natToString 1 ++ [']']) =
      ([JSVal.num 0, .obj [("c".toList, .str "x".toList)]].get? 1).getD .undefined ∧
    (["n".toList] ++ "c".toList :: []).foldl evalStep pathData = .undefined :=
  have h := evaluate_path pathData
  ⟨by rfl, h.2.1 ["a".toList, "b[1]".toList, "c".toList] (by simp) (by decide) (by decide),
    by rfl,
    h.2.2.2.2.2.2.1 (.obj [("b".toList, .arr [.num 0, .obj [("c".toList, .str "x".toList)]])])
      "b".toList 1 [.num 0, .obj [("c".toList, .str "x".toList)]] (by decide) (by decide)
      (by rfl),
    h.2.2.2.2.2.2.2.1 ["n".toList] [] "c".toList (Or.inr (by rfl))⟩

theorem var_exec_plain (a : Char) (s : List Char) (ha : a ≠ '{') :
    INTERPOLATE_VARIABLE_REGEXP.exec (a :: s) = none := by
  have ha' : ¬ ('{' = a) := fun h => ha h.symm
  unfold INTERPOLATE_VARIABLE_REGEXP
  simp only [Re.cat]
  apply exec_lit_none
  simp [dropLit, ha']

theorem replaceFrom_plain (f : Caps → Except JSError (List Char)) (s rest : List Char)
    (hs : plainText s = true) :
    replaceFrom INTERPOLATE_VARIABLE_REGEXP f 0 (s ++ rest) =
      (do let tail ← replaceFrom INTERPOLATE_VARIABLE_REGEXP f 0 rest
          pure (s ++ tail)) := by
  induction s with
  | nil =>
    rw [List.nil_append]
    cases replaceFrom INTERPOLATE_VARIABLE_REGEXP f 0 rest <;> rfl
  | cons a s ih =>
    simp only [plainText, List.all_cons, Bool.and_eq_true, bne_iff_ne, ne_eq] at hs
    have hex := var_exec_plain a (s ++ rest) hs.1
    have ih' := ih (by simpa [plainText] using hs.2)
    rw [List.cons_append, replaceFrom, hex]
    simp only [ih']
    cases replaceFrom INTERPOLATE_VARIABLE_REGEXP f 0 rest <;> rfl

theorem replaceFrom_hole (fmt : Option Formatter) (d : JSVal) (e rest : List Char)
    (he : isExpr e = true) :
    replaceFrom INTERPOLATE_VARIABLE_REGEXP
        (fun c => substituteVariable fmt d ((c 1).getD [])) 0 (hole e ++ rest) =
      (do let out ← substituteVariable fmt d e
          let tail ← replaceFrom INTERPOLATE_VARIABLE_REGEXP
            (fun c => substituteVariable fmt d ((c 1).getD [])) 0 rest
          pure (out ++ tail)) := by
  have hex := var_exec e rest he (by rfl)
  have h := replaceFrom_match INTERPOLATE_VARIABLE_REGEXP
    (fun c => substituteVariable fmt d ((c 1).getD [])) (holeOpen ++ e ++ holeClose) rest _
    (by simp) hex
  simpa [hole, setCap] using h

theorem variablePass_pieces (fmt : Option Formatter) (d : JSVal) (ps : List Piece)
    (hps : simplePieces ps = true) :
    variablePass fmt d (templateOf ps) = renderPieces fmt d ps := by
  unfold variablePass replace
  induction ps with
  | nil => rfl
  | cons p ps ih =>
    cases p with
    | text s =>
      simp only [simplePieces, Bool.and_eq_true] at hps
      simp only [templateOf, renderPieces]
      rw [replaceFrom_plain _ s _ hps.1, ih hps.2]
    | slot e =>
      simp only [simplePieces, Bool.and_eq_true] at hps
      simp only [templateOf, renderPieces]
      rw [replaceFrom_hole fmt d e _ hps.1, ih hps.2]

theorem containsText_skip_plain (p s r : List Char) (hs : plainText s = true) :
    containsText ('{' :: p) (s ++ r) = containsText ('{' :: p) r := by
  induction s with
  | nil => rfl
  | cons a s ih =>
    simp only [plainText, List.all_cons, Bool.and_eq_true, bne_iff_ne, ne_eq] at hs
    have ha : ¬ ('{' = a) := fun h => hs.1 h.symm
    have ih' := ih (by simpa [plainText] using hs.2)
    simp [containsText, dropLit, ha, ih']

theorem noOpener_pieces (q : List Char) (ps : List Piece) (hps : simplePieces ps = true) :
    containsText ('{' :: '{' :: '#' :: q) (templateOf ps) = false := by
  induction ps with
  | nil => rfl
  | cons p ps ih =>
    cases p with
    | text s =>
      simp only [simplePieces, Bool.and_eq_true] at hps
      simp only [templateOf]
      rw [containsText_skip_plain _ s _ hps.1]
      exact ih hps.2
    | slot e =>
      simp only [simplePieces, Bool.and_eq_true] at hps
      have he := hps.1
      simp only [isExpr, Bool.and_eq_true, Bool.not_eq_true', List.isEmpty_eq_false] at he
      cases e with
      | nil => simp at he
      | cons a e =>
        have ha : isExprChar a = true := by
          have := he.2
          simp only [List.all_cons, Bool.and_eq_true] at this
          exact this.1
        have ha1 : ¬ ('{' = a) := by intro h; subst h; exact absurd ha (by decide)
        have ha2 : ¬ ('#' = a) := by intro h; subst h; exact absurd ha (by decide)
        have e1 : templateOf (Piece.slot (a :: e) :: ps) =
            '{' :: '{' :: ((a :: e) ++ (['}', '}'] ++ templateOf ps)) := by
          simp [templateOf, hole]
        rw [e1]
        have h3 : containsText ('{' :: '{' :: '#' :: q)
            ((a :: e) ++ (['}', '}'] ++ templateOf ps)) = false := by
          rw [containsText_skip_expr _ (a :: e) _ he.2,
            containsText_skip_plain _ ['}', '}'] _ (by decide)]
          exact ih hps.2
        rw [List.cons_append] at h3
        simp [containsText, dropLit, ha1, ha2] at h3 ⊢
        exact h3

theorem interpolate_pieces (fmt : Option Formatter) (d : JSVal) (ps : List Piece)
    (hps : simplePieces ps = true) :
    interpolate (templateOf ps) d fmt = renderPieces fmt d ps := by
  rw [interpolate_plain _ d fmt (noOpener_pieces _ ps hps) (noOpener_pieces _ ps hps)]
  exact variablePass_pieces fmt d ps hps

theorem renderPieces_unresolved (fmt : Option Formatter) (d : JSVal) (ps : List Piece)
    (h : ∀ e, Piece.slot e ∈ ps → evaluateExpression e d = .ok .undefined) :
    renderPieces fmt d ps = .ok (templateOf ps) := by
  induction ps with
  | nil => rfl
  | cons p ps ih =>
    have ih' := ih (fun e he => h e (List.mem_cons_of_mem _ he))
    cases p with
    | text s =>
      simp only [renderPieces, templateOf, ih']
      rfl
    | slot e =>
      have hu := h e (List.mem_cons_self _ _)
      simp only [renderPieces, templateOf, ih', substituteVariable, hu]
      rfl

theorem renderPieces_settled (fmt : Option Formatter) (d : JSVal) (ps : List Piece)
    (hps : simplePieces ps = true)
    (hval : ∀ e, Piece.slot e ∈ ps → evaluateExpression e d = .ok .undefined ∨
      ∃ out, substituteVariable fmt d e = .ok out ∧ plainText out = true) :
    ∃ qs, simplePieces qs = true ∧ renderPieces fmt d ps = .ok (templateOf qs) ∧
      ∀ e, Piece.slot e ∈ qs → evaluateExpression e d = .ok .undefined := by
  induction ps with
  | nil => exact ⟨[], rfl, rfl, fun e he => by cases he⟩
  | cons p ps ih =>
    cases p with
    | text s =>
      simp only [simplePieces, Bool.and_eq_true] at hps
      obtain ⟨qs, hq, hr, hu⟩ := ih hps.2 (fun e he => hval e (List.mem_cons_of_mem _ he))
      refine ⟨.text s :: qs, by simp [simplePieces, hps.1, hq], ?_, ?_⟩
      · simp only [renderPieces, templateOf, hr]
        rfl
      · intro e he
        simp only [List.mem_cons, reduceCtorEq, false_or] at he
        exact hu e he
    | slot x =>
      simp only [simplePieces, Bool.and_eq_true] at hps
      obtain ⟨qs, hq, hr, hu⟩ := ih hps.2 (fun e he => hval e (List.mem_cons_of_mem _ he))
      rcases hval x (List.mem_cons_self _ _) with hx | ⟨out, ho, hp⟩
      · refine ⟨.slot x :: qs, by simp [simplePieces, hps.1, hq], ?_, ?_⟩
        · simp only [renderPieces, templateOf, hr, substituteVariable, hx]
          rfl
        · intro e he
          simp only [List.mem_cons, Piece.slot.injEq] at he
          rcases he with rfl | he
          · exact hx
          · exact hu e he
      · refine ⟨.text out :: qs, by simp [simplePieces, hp, hq], ?_, ?_⟩
        · simp only [renderPieces, templateOf, hr, ho]
          rfl
        · intro e he
          simp only [List.mem_cons, reduceCtorEq, false_or] at he
          exact hu e he

/-- C13 (amended): for a template made of texts without `{` and of placeholders `{{e}}`
with path expressions `e`, and every scope and formatter: the render is the pieces
rendered from left to right, each placeholder replaced by the result of
`substituteVariable`; and when every placeholder either evaluates to `undefined` or is
replaced by a text without `{`, the render returns a text whose render returns the same
text again, so that rendering twice equals rendering once. -/
theorem rerender_fixed (ps : List Piece) (d : JSVal) (fmt : Option Formatter)
    (hps : simplePieces ps = true) :
    interpolate (templateOf ps) d fmt = renderPieces fmt d ps ∧
    ((∀ e, Piece.slot e ∈ ps → evaluateExpression e d = .ok .undefined ∨
        ∃ out, substituteVariable fmt d e = .ok out ∧ plainText out = true) →
      (∃ r, interpolate (templateOf ps) d fmt = .ok r ∧ interpolate r d fmt = .ok r) ∧
      (interpolate (templateOf ps) d fmt).bind (fun out => interpolate out d fmt) =
        interpolate (templateOf ps) d fmt) := by
  refine ⟨interpolate_pieces fmt d ps hps, ?_⟩
  intro hval
  obtain ⟨qs, hq, hr, hu⟩ := renderPieces_settled fmt d ps hps hval
  have h1 : interpolate (templateOf ps) d fmt = .ok (templateOf qs) := by
    rw [interpolate_pieces fmt d ps hps, hr]
  have h2 : interpolate (templateOf qs) d fmt = .ok (templateOf qs) := by
    rw [interpolate_pieces fmt d qs hq, renderPieces_unresolved fmt d qs hu]
  refine ⟨⟨templateOf qs, h1, h2⟩, ?_⟩
  rw [h1]
  exact h2

/-- Witness for C13: `Hi {{name}}, {{missing}}` with `name = "Ann"` renders
`Hi Ann, {{missing}}`, which renders to itself. -/
theorem rerender_fixed_witness :
    simplePieces [.text "Hi ".toList, .slot "name".toList, .text ", ".toList,
      .slot "missing".toList] = true ∧
    interpolate (templateOf [.text "Hi ".toList, .slot "name".toList, .text ", ".toList,
        .slot "missing".toList]) (.obj [("name".toList, .str "Ann".toList)]) none =
      .ok ("Hi Ann, ".toList ++ hole "missing".toList) ∧
    (interpolate (templateOf [.text "Hi ".toList, .slot "name".toList, .text ", ".toList,
        .slot "missing".toList]) (.obj [("name".toList, .str "Ann".toList)]) none).bind
      (fun out => interpolate out (.obj [("name".toList, .str "Ann".toList)]) none) =
    interpolate (templateOf [.text "Hi ".toList, .slot "name".toList, .text ", ".toList,
      .slot "missing".toList]) (.obj [("name".toList, .str "Ann".toList)]) none :=
  ⟨by rfl, by rfl,
    ((rerender_fixed [.text "Hi ".toList, .slot "name".toList, .text ", ".toList,
      .slot "missing".toList] (.obj [("name".toList, .str "Ann".toList)]) none (by rfl)).2
      (fun e he => by
        simp only [List.mem_cons, reduceCtorEq, Piece.slot.injEq, false_or, List.mem_nil_iff,
          or_false] at he
        rcases he with rfl | rfl
        · exact Or.inr ⟨"Ann".toList, by rfl, by rfl⟩
        · exact Or.inl (by rfl))).2⟩

theorem indexed_noDot (name : List Char) (i : Int) (more : List Char)
    (hname : name.all isWord = true) (hmore : ∀ c ∈ more, c ≠ '.') :
    (∀ c ∈ name ++ '[' :: intToString i ++ ']' :: more, c ≠ '.') ∧
    name ++ '[' :: intToString i ++ ']' :: more ≠ ['.'] := by
  have h : ∀ c ∈ name ++ '[' :: intToString i ++ ']' :: more, c ≠ '.' := by
    intro c hc
    simp only [List.mem_append, List.mem_cons] at hc
    rcases hc with (hc | rfl | hc) | rfl | hc
    · exact isWord_all_ne name hname '.' (by decide) c hc
    · decide
    · exact (intToString_chars i c hc).1
    · decide
    · exact hmore c hc
  refine ⟨h, ?_⟩
  intro he
  have := h '.' (by rw [he]; exact List.mem_singleton_self _)
  exact this rfl

theorem evaluateExpression_indexed (scope : JSVal) (name : List Char) (i : Int)
    (more : List Char) (hname : name.all isWord = true) (hmore : ∀ c ∈ more, c ≠ '.') :
    evaluateExpression (name ++ '[' :: intToString i ++ ']' :: more) scope =
      .ok (getProp (getProp scope name) (indexKey i)) := by
  obtain ⟨h1, h2⟩ := indexed_noDot name i more hname hmore
  unfold evaluateExpression
  rw [if_neg h2, splitOn_noSep '.' _ h1]
  simp only [List.foldl_cons, List.foldl_nil]
  rw [evalStep_indexed scope name i more (isWord_all_ne name hname '[' (by decide))]

/-- C20: only the first bracketed index of a path segment is applied.  For every scope,
every name of word characters (the empty name included) and all integers `i`, `j`, the
expression `name[i][j]` evaluates to the value of `name[i]`, which is the property of
the property `name` of the scope whose key is the number that the decimal text of `i`
denotes: the text of `i` itself when `|i| ≤ 2^53`, the text of the nearest number of
JavaScript beyond (`a[9007199254740993]` reads the key `9007199254740992`).  The
expression `[i]`, whose name is empty, evaluates that property of the property with the
empty key: on the array `[10, 20]` the expression `[0]` is `undefined`, on `{"": [7]}` it
is `7`, and on `{m: [[1, 2], [3, 4]]}` the expression `m[0][1]` is the row `[1, 2]`. -/
theorem first_index_only (scope : JSVal) (name : List Char) (i j : Int)
    (hname : name.all isWord = true) :
    evaluateExpression (name ++ '[' :: intToString i ++ ']' :: '[' :: intToString j ++ [']'])
        scope =
      evaluateExpression (name ++ '[' :: intToString i ++ [']']) scope ∧
    evaluateExpression (name ++ '[' :: intToString i ++ [']']) scope =
      .ok (getProp (getProp scope name) (indexKey i)) ∧
    evaluateExpression ('[' :: intToString i ++ [']']) scope =
      .ok (getProp (getProp scope []) (indexKey i)) ∧
    (i.natAbs ≤ maxExact →
      evaluateExpression (name ++ '[' :: intToString i ++ [']']) scope =
        .ok (getProp (getProp scope name) (intToString i)) ∧
      evaluateExpression ('[' :: intToString i ++ [']']) scope =
        .ok (getProp (getProp scope []) (intToString i))) ∧
    (evaluateExpression "[0]".toList (.arr [.num 10, .num 20]) = .ok .undefined ∧
      evaluateExpression "[0]".toList (.obj [([], .arr [.num 7])]) = .ok (.num 7) ∧
      evaluateExpression "m[0][1]".toList matrixData = .ok (.arr [.num 1, .num 2]) ∧
      indexKey 9007199254740993 = "9007199254740992".toList ∧
      evaluateExpression "a[9007199254740993]".toList bigIndexData =
        .ok (.str "even".toList)) := by
  have hj : ∀ c ∈ '[' :: intToString j ++ [']'], c ≠ '.' := by
    intro c hc
    simp only [List.cons_append, List.mem_cons, List.mem_append, List.mem_singleton] at hc
    rcases hc with rfl | hc | hc
    · decide
    · exact (intToString_chars j c hc).1
    · rcases hc with rfl | hc
      · decide
      · cases hc
  have h1 := evaluateExpression_indexed scope name i ('[' :: intToString j ++ [']']) hname hj
  have h2 := evaluateExpression_indexed scope name i [] hname (by simp)
  have h3 := evaluateExpression_indexed scope [] i [] (by rfl) (by simp)
  have e : name ++ '[' :: intToString i ++ ']' :: '[' :: intToString j ++ [']'] =
      name ++ '[' :: intToString i ++ ']' :: ('[' :: intToString j ++ [']']) := by simp
  refine ⟨e ▸ h1.trans h2.symm, h2, h3, ?_, by rfl, by rfl, by rfl, by rfl, by rfl⟩
  intro hi
  rw [indexKey_exact i hi] at h2 h3
  exact ⟨h2, h3⟩

/-- Witness for C20: the name `m` with the indices `0` and `1` on the matrix data. -/
theorem first_index_only_witness :
    "m".toList.all isWord = true ∧
    evaluateExpression ("m".toList ++ '[' :: intToString 0 ++ ']' :: '[' :: intToString 1 ++
        [']']) matrixData =
      evaluateExpression ("m".toList ++ '[' :: intToString 0 ++ [']']) matrixData ∧
    evaluateExpression ("m".toList ++ '[' :: intToString 0 ++ [']']) matrixData =
      .ok (getProp (getProp matrixData "m".toList) (intToString 0)) :=
  have h := first_index_only matrixData "m".toList 0 1 (by decide)
  ⟨by decide, h.1, (h.2.2.2.1 (by decide)).1⟩

end Template

namespace Context

open Template

theorem truthy_getProp (v : JSVal) (k : List Char) (h : truthy (getProp v k) = true) :
    isNullish v = false := by
  cases v <;> first | rfl | (simp [getProp, truthy] at h)

/-- C17: with a chat id present that converts to the text `a`, a truthy current bot id
that converts to the text `b`, and no forum topic: for a group-type chat with
`GROUP_CHAT_BOT_SHARE_MODE` falsy and a truthy `message.from.id` that converts to the text
`c`, the call returns and sets `chatHistoryKey` to `history:a:b:c` and `configStoreKey` to
`user_config:a:b:c`, and when that id does not convert the call throws a `TypeError` and
leaves both keys as they were; with share mode truthy or a chat that is not of a group
type both keys end after the bot id; and whenever the keys are assigned, `groupAdminKey` is
`group_admin:a` for a group-type chat and `null` otherwise.  In a forum topic the thread id
follows as a further segment: the supergroup `-100` with the bot `123`, the speaker `42`
and the thread `5` gives `history:-100:123:42:5`. -/
theorem initShareContext_keys (CONST : Const) (ENV : Env) (ctx : ShareContext)
    (message : JSVal) (a b : List Char) (hid : isNullish (messageChatId message) = false)
    (hbot : truthy ctx.currentBotId = true) (htopic : inTopic message = false)
    (ha : toJSString (messageChatId message) = .ok a)
    (hb : toJSString ctx.currentBotId = .ok b) :
    (isGroupType CONST message = true → truthy ENV.GROUP_CHAT_BOT_SHARE_MODE = false →
      truthy (messageFromId message) = true →
      (∀ c, toJSString (messageFromId message) = .ok c →
        (_initShareContext CONST ENV ctx message).1 = .ok () ∧
        (_initShareContext CONST ENV ctx message).2.chatHistoryKey =
          .str ("history:".toList ++ a ++ ':' :: b ++ ':' :: c) ∧
        (_initShareContext CONST ENV ctx message).2.configStoreKey =
          .str ("user_config:".toList ++ a ++ ':' :: b ++ ':' :: c)) ∧
      (∀ e, toJSString (messageFromId message) = .error e →
        (_initShareContext CONST ENV ctx message).1 = .error .typeError ∧
        (_initShareContext CONST ENV ctx message).2.chatHistoryKey = ctx.chatHistoryKey ∧
        (_initShareContext CONST ENV ctx message).2.configStoreKey = ctx.configStoreKey)) ∧
    (truthy ENV.GROUP_CHAT_BOT_SHARE_MODE = true ∨ isGroupType CONST message = false →
      (_initShareContext CONST ENV ctx message).2.chatHistoryKey =
        .str ("history:".toList ++ a ++ ':' :: b) ∧
      (_initShareContext CONST ENV ctx message).2.configStoreKey =
        .str ("user_config:".toList ++ a ++ ':' :: b)) ∧
    (truthy ENV.GROUP_CHAT_BOT_SHARE_MODE = true ∨ isGroupType CONST message = false ∨
        (isNullish (getProp message "from".toList) = false ∧
          ∃ c, toJSString (messageFromId message) = .ok c) →
      (_initShareContext CONST ENV ctx message).2.groupAdminKey =
        if isGroupType CONST message = true then .str ("group_admin:".toList ++ a)
        else .null) ∧
    ((_initShareContext groupTypes ⟨.bool false⟩ (freshContext (.str "123".toList))
        topicMessage).2.chatHistoryKey = .str "history:-100:123:42:5".toList ∧
      (_initShareContext groupTypes ⟨.bool false⟩ (freshContext (.str "123".toList))
        (messageOf (.num (-100)) "supergroup".toList unprintable)).1 = .error .typeError) := by
  refine ⟨?_, ?_, ?_, by rfl, by rfl⟩
  · intro hg hs hf
    have hfrom := truthy_getProp _ _ hf
    constructor
    · intro c hc
      simp only [_initShareContext, literal, ha, hb, hc, hid, hbot, htopic, hg, hs, hf, hfrom,
        appendId, Bool.not_false, Bool.not_true, Bool.and_self, Bool.and_true, Bool.and_false,
        Bool.true_and, Bool.false_and, Bool.false_eq_true, if_false, if_true]
      simp
    · intro e he
      simp only [_initShareContext, literal, ha, hb, he, hid, hbot, htopic, hg, hs, hf, hfrom,
        appendId, Bool.not_false, Bool.not_true, Bool.and_self, Bool.and_true, Bool.and_false,
        Bool.true_and, Bool.false_and, Bool.false_eq_true, if_false, if_true]
      simp
  · intro h
    cases hfrom : isNullish (getProp message "from".toList) <;> rcases h with hs | hg
    · simp only [_initShareContext, literal, ha, hb, hid, hbot, htopic, hs, hfrom, appendId,
        Bool.not_false, Bool.not_true, Bool.and_self, Bool.and_true, Bool.and_false,
        Bool.true_and, Bool.false_and, Bool.false_eq_true, if_false, if_true]
      simp
    · simp only [_initShareContext, literal, ha, hb, hid, hbot, htopic, hg, hfrom, appendId,
        Bool.not_false, Bool.not_true, Bool.and_self, Bool.and_true, Bool.and_false,
        Bool.true_and, Bool.false_and, Bool.false_eq_true, if_false, if_true]
      simp
    · simp only [_initShareContext, literal, ha, hb, hid, hbot, htopic, hs, hfrom, appendId,
        Bool.not_false, Bool.not_true, Bool.and_self, Bool.and_true, Bool.and_false,
        Bool.true_and, Bool.false_and, Bool.false_eq_true, if_false, if_true]
      simp
    · simp only [_initShareContext, literal, ha, hb, hid, hbot, htopic, hg, hfrom, appendId,
        Bool.not_false, Bool.not_true, Bool.and_self, Bool.and_true, Bool.and_false,
        Bool.true_and, Bool.false_and, Bool.false_eq_true, if_false, if_true]
      simp
  · intro h
    rcases h with hs | hg | ⟨hfrom, c, hc⟩
    · cases hfrom : isNullish (getProp message "from".toList) <;>
        cases hg : isGroupType CONST message <;>
        simp only [_initShareContext, literal, ha, hb, hid, hbot, htopic, hs, hg, hfrom,
          appendId, Bool.not_false, Bool.not_true, Bool.and_self, Bool.and_true,
          Bool.and_false, Bool.true_and, Bool.false_and, Bool.false_eq_true, if_false,
          if_true]
    · cases hfrom : isNullish (getProp message "from".toList) <;>
        simp only [_initShareContext, literal, ha, hb, hid, hbot, htopic, hg, hfrom,
          appendId, Bool.not_false, Bool.not_true, Bool.and_self, Bool.and_true,
          Bool.and_false, Bool.true_and, Bool.false_and, Bool.false_eq_true, if_false,
          if_true]
    · cases hg : isGroupType CONST message <;>
        cases hs : truthy ENV.GROUP_CHAT_BOT_SHARE_MODE <;>
        cases hf : truthy (messageFromId message) <;>
        simp only [_initShareContext, literal, ha, hb, hc, hid, hbot, htopic, hg, hs, hf,
          hfrom, appendId, Bool.not_false, Bool.not_true, Bool.and_self, Bool.and_true,
          Bool.and_false, Bool.true_and, Bool.false_and, Bool.false_eq_true, if_false,
          if_true]

/-- Witness for C17: the supergroup `-100`, the bot `123` and the speaker `42`. -/
theorem initShareContext_keys_witness :
    (isNullish (messageChatId (messageOf (.num (-100)) "supergroup".toList (.num 42))) = false ∧
      truthy (freshContext (.str "123".toList)).currentBotId = true ∧
      inTopic (messageOf (.num (-100)) "supergroup".toList (.num 42)) = false ∧
      toJSString (messageChatId (messageOf (.num (-100)) "supergroup".toList (.num 42))) =
        .ok "-100".toList ∧
      toJSString (freshContext (.str "123".toList)).currentBotId = .ok "123".toList ∧
      toJSString (messageFromId (messageOf (.num (-100)) "supergroup".toList (.num 42))) =
        .ok "42".toList) ∧
    (_initShareContext groupTypes ⟨.bool false⟩ (freshContext (.str "123".toList))
        (messageOf (.num (-100)) "supergroup".toList (.num 42))).1 = .ok () ∧
    (_initShareContext groupTypes ⟨.bool false⟩ (freshContext (.str "123".toList))
        (messageOf (.num (-100)) "supergroup".toList (.num 42))).2.chatHistoryKey =
      .str "history:-100:123:42".toList ∧
    (_initShareContext groupTypes ⟨.bool false⟩ (freshContext (.str "123".toList))
        (messageOf (.num (-100)) "supergroup".toList (.num 42))).2.configStoreKey =
      .str "user_config:-100:123:42".toList :=
  have h := ((initShareContext_keys groupTypes ⟨.bool false⟩ (freshContext (.str "123".toList))
    (messageOf (.num (-100)) "supergroup".toList (.num 42)) "-100".toList "123".toList
    (by rfl) (by rfl) (by rfl) (by rfl) (by rfl)).1
    (by rfl) (by rfl) (by rfl)).1 "42".toList (by rfl)
  ⟨⟨by rfl, by rfl, by rfl, by rfl, by rfl, by rfl⟩, h.1, h.2.1, h.2.2⟩

theorem initShareContext_ok_iff (CONST : Const) (ENV : Env) (ctx : ShareContext)
    (message : JSVal) :
    (_initShareContext CONST ENV ctx message).1 = .ok () ↔
      (∃ b, toJSString ctx.currentBotId = .ok b) ∧
      isNullish (messageChatId message) = false ∧
      (∃ a, toJSString (messageChatId message) = .ok a) ∧
      isNullish (getProp message "from".toList) = false ∧
      ((isGroupType CONST message && !truthy ENV.GROUP_CHAT_BOT_SHARE_MODE &&
          truthy (messageFromId message)) = true →
        ∃ c, toJSString (messageFromId message) = .ok c) ∧
      (inTopic message = true →
        ∃ t, toJSString (getProp message "message_thread_id".toList) = .ok t) := by
  cases hb : toJSString ctx.currentBotId with
  | error e =>
    (simp only [_initShareContext, literal, hb, appendId, Bool.not_false, Bool.not_true,
        Bool.and_self, Bool.and_true, Bool.and_false, Bool.true_and, Bool.false_and,
        Bool.false_eq_true, if_false, if_true] <;> simp)
  | ok b =>
  cases hid : isNullish (messageChatId message) with
  | true =>
    (simp only [_initShareContext, literal, hb, hid, appendId, Bool.not_false, Bool.not_true,
        Bool.and_self, Bool.and_true, Bool.and_false, Bool.true_and, Bool.false_and,
        Bool.false_eq_true, if_false, if_true] <;> simp)
  | false =>
  cases ha : toJSString (messageChatId message) with
  | error e =>
    (simp only [_initShareContext, literal, hb, hid, ha, appendId, Bool.not_false, Bool.not_true,
        Bool.and_self, Bool.and_true, Bool.and_false, Bool.true_and, Bool.false_and,
        Bool.false_eq_true, if_false, if_true] <;> simp)
  | ok a =>
  cases hfrom : isNullish (getProp message "from".toList) with
  | true =>
    cases hr : (isGroupType CONST message && !truthy ENV.GROUP_CHAT_BOT_SHARE_MODE)
    · cases ht : inTopic message
      ·
        (simp only [_initShareContext, literal, hb, hid, ha, hfrom, hr, ht, appendId,
            Bool.not_false, Bool.not_true, Bool.and_self, Bool.and_true, Bool.and_false,
            Bool.true_and, Bool.false_and, Bool.false_eq_true, if_false, if_true] <;> simp)
      · cases htt : toJSString (getProp message "message_thread_id".toList) <;>
          (simp only [_initShareContext, literal, hb, hid, ha, hfrom, hr, ht, htt, appendId,
              Bool.not_false, Bool.not_true, Bool.and_self, Bool.and_true, Bool.and_false,
              Bool.true_and, Bool.false_and, Bool.false_eq_true, if_false, if_true] <;> simp)
    ·
      (simp only [_initShareContext, literal, hb, hid, ha, hfrom, hr, appendId, Bool.not_false,
          Bool.not_true, Bool.and_self, Bool.and_true, Bool.and_false, Bool.true_and,
          Bool.false_and, Bool.false_eq_true, if_false, if_true] <;> simp)
  | false =>
  cases hadd : (isGroupType CONST message && !truthy ENV.GROUP_CHAT_BOT_SHARE_MODE &&
      truthy (messageFromId message)) with
  | false =>
    cases ht : inTopic message
    ·
      (simp only [_initShareContext, literal, hb, hid, ha, hfrom, hadd, ht, appendId,
          Bool.not_false, Bool.not_true, Bool.and_self, Bool.and_true, Bool.and_false,
          Bool.true_and, Bool.false_and, Bool.false_eq_true, if_false, if_true] <;> simp)
    · cases htt : toJSString (getProp message "message_thread_id".toList) <;>
        (simp only [_initShareContext, literal, hb, hid, ha, hfrom, hadd, ht, htt, appendId,
            Bool.not_false, Bool.not_true, Bool.and_self, Bool.and_true, Bool.and_false,
            Bool.true_and, Bool.false_and, Bool.false_eq_true, if_false, if_true] <;> simp)
  | true =>
    cases hc : toJSString (messageFromId message) with
    | error e =>
      (simp only [_initShareContext, literal, hb, hid, ha, hfrom, hadd, hc, appendId,
          Bool.not_false, Bool.not_true, Bool.and_self, Bool.and_true, Bool.and_false,
          Bool.true_and, Bool.false_and, Bool.false_eq_true, if_false, if_true] <;> simp)
    | ok c =>
      cases ht : inTopic message
      ·
        (simp only [_initShareContext, literal, hb, hid, ha, hfrom, hadd, hc, ht, appendId,
            Bool.not_false, Bool.not_true, Bool.and_self, Bool.and_true, Bool.and_false,
            Bool.true_and, Bool.false_and, Bool.false_eq_true, if_false, if_true] <;> simp)
      · cases htt : toJSString (getProp message "message_thread_id".toList) <;>
          (simp only [_initShareContext, literal, hb, hid, ha, hfrom, hadd, hc, ht, htt, appendId,
              Bool.not_false, Bool.not_true, Bool.and_self, Bool.and_true, Bool.and_false,
              Bool.true_and, Bool.false_and, Bool.false_eq_true, if_false, if_true] <;> simp)

theorem initShareContext_notFound_iff (CONST : Const) (ENV : Env) (ctx : ShareContext)
    (message : JSVal) :
    (_initShareContext CONST ENV ctx message).1 = .error (.error "Chat id not found".toList) ↔
      (∃ b, toJSString ctx.currentBotId = .ok b) ∧
        isNullish (messageChatId message) = true := by
  cases hb : toJSString ctx.currentBotId with
  | error e =>
    (simp only [_initShareContext, literal, hb, appendId, Bool.not_false, Bool.not_true,
        Bool.and_self, Bool.and_true, Bool.and_false, Bool.true_and, Bool.false_and,
        Bool.false_eq_true, if_false, if_true] <;> simp)
  | ok b =>
  cases hid : isNullish (messageChatId message) with
  | true =>
    (simp only [_initShareContext, literal, hb, hid, appendId, Bool.not_false, Bool.not_true,
        Bool.and_self, Bool.and_true, Bool.and_false, Bool.true_and, Bool.false_and,
        Bool.false_eq_true, if_false, if_true] <;> simp)
  | false =>
  cases ha : toJSString (messageChatId message) with
  | error e =>
    (simp only [_initShareContext, literal, hb, hid, ha, appendId, Bool.not_false, Bool.not_true,
        Bool.and_self, Bool.and_true, Bool.and_false, Bool.true_and, Bool.false_and,
        Bool.false_eq_true, if_false, if_true] <;> simp)
  | ok a =>
  cases hfrom : isNullish (getProp message "from".toList) with
  | true =>
    cases hr : (isGroupType CONST message && !truthy ENV.GROUP_CHAT_BOT_SHARE_MODE)
    · cases ht : inTopic message
      ·
        (simp only [_initShareContext, literal, hb, hid, ha, hfrom, hr, ht, appendId,
            Bool.not_false, Bool.not_true, Bool.and_self, Bool.and_true, Bool.and_false,
            Bool.true_and, Bool.false_and, Bool.false_eq_true, if_false, if_true] <;> simp)
      · cases htt : toJSString (getProp message "message_thread_id".toList) <;>
          (simp only [_initShareContext, literal, hb, hid, ha, hfrom, hr, ht, htt, appendId,
              Bool.not_false, Bool.not_true, Bool.and_self, Bool.and_true, Bool.and_false,
              Bool.true_and, Bool.false_and, Bool.false_eq_true, if_false, if_true] <;> simp)
    ·
      (simp only [_initShareContext, literal, hb, hid, ha, hfrom, hr, appendId, Bool.not_false,
          Bool.not_true, Bool.and_self, Bool.and_true, Bool.and_false, Bool.true_and,
          Bool.false_and, Bool.false_eq_true, if_false, if_true] <;> simp)
  | false =>
  cases hadd : (isGroupType CONST message && !truthy ENV.GROUP_CHAT_BOT_SHARE_MODE &&
      truthy (messageFromId message)) with
  | false =>
    cases ht : inTopic message
    ·
      (simp only [_initShareContext, literal, hb, hid, ha, hfrom, hadd, ht, appendId,
          Bool.not_false, Bool.not_true, Bool.and_self, Bool.and_true, Bool.and_false,
          Bool.true_and, Bool.false_and, Bool.false_eq_true, if_false, if_true] <;> simp)
    · cases htt : toJSString (getProp message "message_thread_id".toList) <;>
        (simp only [_initShareContext, literal, hb, hid, ha, hfrom, hadd, ht, htt, appendId,
            Bool.not_false, Bool.not_true, Bool.and_self, Bool.and_true, Bool.and_false,
            Bool.true_and, Bool.false_and, Bool.false_eq_true, if_false, if_true] <;> simp)
  | true =>
    cases hc : toJSString (messageFromId message) with
    | error e =>
      (simp only [_initShareContext, literal, hb, hid, ha, hfrom, hadd, hc, appendId,
          Bool.not_false, Bool.not_true, Bool.and_self, Bool.and_true, Bool.and_false,
          Bool.true_and, Bool.false_and, Bool.false_eq_true, if_false, if_true] <;> simp)
    | ok c =>
      cases ht : inTopic message
      ·
        (simp only [_initShareContext, literal, hb, hid, ha, hfrom, hadd, hc, ht, appendId,
            Bool.not_false, Bool.not_true, Bool.and_self, Bool.and_true, Bool.and_false,
            Bool.true_and, Bool.false_and, Bool.false_eq_true, if_false, if_true] <;> simp)
      · cases htt : toJSString (getProp message "message_thread_id".toList) <;>
          (simp only [_initShareContext, literal, hb, hid, ha, hfrom, hadd, hc, ht, htt, appendId,
              Bool.not_false, Bool.not_true, Bool.and_self, Bool.and_true, Bool.and_false,
              Bool.true_and, Bool.false_and, Bool.false_eq_true, if_false, if_true] <;> simp)

/-- C18: whenever `_initShareContext` returns, `chatHistoryKey` is `history:` followed by a
suffix, `configStoreKey` is `user_config:` followed by the same suffix, and
`chatLastMessageIdKey` is `last_message_id:` followed by the text of `chatHistoryKey`.  The
call returns exactly when the current bot id converts to a string, `message?.chat?.id` is
neither `undefined` nor `null` and converts, `message.from` is neither `undefined` nor
`null`, and the id of the sender and the id of the thread convert where they are appended.
It throws the error `Chat id not found` exactly when the current bot id converts to a
string and `message?.chat?.id` is `undefined` or `null`; so, for a bot id that converts,
exactly when `message?.chat?.id` is `undefined` or `null`.  A chat id `{toString: 1}`
throws a `TypeError` instead, and so does a bot id `{toString: 1}` on a message without
chat. -/
theorem initShareContext_invariants (CONST : Const) (ENV : Env) (ctx : ShareContext)
    (message : JSVal) :
    ((_initShareContext CONST ENV ctx message).1 = .ok () →
      ∃ suffix : List Char,
        (_initShareContext CONST ENV ctx message).2.chatHistoryKey =
          .str ("history:".toList ++ suffix) ∧
        (_initShareContext CONST ENV ctx message).2.configStoreKey =
          .str ("user_config:".toList ++ suffix) ∧
        (_initShareContext CONST ENV ctx message).2.chatLastMessageIdKey =
          .str ("last_message_id:".toList ++ ("history:".toList ++ suffix))) ∧
    ((_initShareContext CONST ENV ctx message).1 = .ok () ↔
      (∃ b, toJSString ctx.currentBotId = .ok b) ∧
      isNullish (messageChatId message) = false ∧
      (∃ a, toJSString (messageChatId message) = .ok a) ∧
      isNullish (getProp message "from".toList) = false ∧
      ((isGroupType CONST message && !truthy ENV.GROUP_CHAT_BOT_SHARE_MODE &&
          truthy (messageFromId message)) = true →
        ∃ c, toJSString (messageFromId message) = .ok c) ∧
      (inTopic message = true →
        ∃ t, toJSString (getProp message "message_thread_id".toList) = .ok t)) ∧
    ((_initShareContext CONST ENV ctx message).1 = .error (.error "Chat id not found".toList) ↔
      (∃ b, toJSString ctx.currentBotId = .ok b) ∧
        isNullish (messageChatId message) = true) ∧
    ((∃ b, toJSString ctx.currentBotId = .ok b) →
      ((_initShareContext CONST ENV ctx message).1 =
          .error (.error "Chat id not found".toList) ↔
        isNullish (messageChatId message) = true)) ∧
    ((_initShareContext groupTypes ⟨.bool true⟩ (freshContext (.str "123".toList))
        (messageOf unprintable "private".toList (.num 7))).1 = .error .typeError ∧
      (_initShareContext groupTypes ⟨.bool true⟩ (freshContext unprintable)
        (.obj [])).1 = .error .typeError) := by
  refine ⟨?_, initShareContext_ok_iff CONST ENV ctx message,
    initShareContext_notFound_iff CONST ENV ctx message, ?_, by rfl, by rfl⟩
  · intro hok
    obtain ⟨⟨b, hb⟩, hid, ⟨a, ha⟩, hfrom, hc, ht⟩ :=
      (initShareContext_ok_iff CONST ENV ctx message).mp hok
    cases hadd : (isGroupType CONST message && !truthy ENV.GROUP_CHAT_BOT_SHARE_MODE &&
        truthy (messageFromId message)) with
    | false =>
      cases htop : inTopic message with
      | false =>
        refine ⟨a ++ (if truthy ctx.currentBotId = true then ':' :: b else []), ?_⟩
        cases hbot : truthy ctx.currentBotId <;>
          (simp only [_initShareContext, literal, hb, hid, ha, hfrom, hadd, htop, hbot, appendId,
              Bool.not_false, Bool.not_true, Bool.and_self, Bool.and_true, Bool.and_false,
              Bool.true_and, Bool.false_and, Bool.false_eq_true, if_false, if_true] <;> simp)
      | true =>
        obtain ⟨t, ht⟩ := ht htop
        refine ⟨a ++ (if truthy ctx.currentBotId = true then ':' :: b else []) ++ ':' :: t, ?_⟩
        cases hbot : truthy ctx.currentBotId <;>
          (simp only [_initShareContext, literal, hb, hid, ha, hfrom, hadd, htop, hbot, ht,
              appendId, Bool.not_false, Bool.not_true, Bool.and_self, Bool.and_true, Bool.and_false,
              Bool.true_and, Bool.false_and, Bool.false_eq_true, if_false, if_true] <;> simp)
    | true =>
      obtain ⟨c, hc⟩ := hc hadd
      cases htop : inTopic message with
      | false =>
        refine ⟨a ++ (if truthy ctx.currentBotId = true then ':' :: b else []) ++ ':' :: c, ?_⟩
        cases hbot : truthy ctx.currentBotId <;>
          (simp only [_initShareContext, literal, hb, hid, ha, hfrom, hadd, htop, hbot, hc,
              appendId, Bool.not_false, Bool.not_true, Bool.and_self, Bool.and_true, Bool.and_false,
              Bool.true_and, Bool.false_and, Bool.false_eq_true, if_false, if_true] <;> simp)
      | true =>
        obtain ⟨t, ht⟩ := ht htop
        refine ⟨a ++ (if truthy ctx.currentBotId = true then ':' :: b else []) ++ ':' :: c ++
          ':' :: t, ?_⟩
        cases hbot : truthy ctx.currentBotId <;>
          (simp only [_initShareContext, literal, hb, hid, ha, hfrom, hadd, htop, hbot, hc, ht,
              appendId, Bool.not_false, Bool.not_true, Bool.and_self, Bool.and_true, Bool.and_false,
              Bool.true_and, Bool.false_and, Bool.false_eq_true, if_false, if_true] <;> simp)
  · intro hb
    rw [initShareContext_notFound_iff CONST ENV ctx message]
    exact ⟨fun h => h.2, fun h => ⟨hb, h⟩⟩

/-- Witness for C18: a private chat `7` with the bot `123` returns; a message without `chat`
throws `Chat id not found`. -/
theorem initShareContext_invariants_witness :
    (_initShareContext groupTypes ⟨.bool true⟩ (freshContext (.str "123".toList))
        (messageOf (.num 7) "private".toList (.num 7))).1 = .ok () ∧
    (∃ suffix : List Char,
      (_initShareContext groupTypes ⟨.bool true⟩ (freshContext (.str "123".toList))
          (messageOf (.num 7) "private".toList (.num 7))).2.chatHistoryKey =
        .str ("history:".toList ++ suffix) ∧
      (_initShareContext groupTypes ⟨.bool true⟩ (freshContext (.str "123".toList))
          (messageOf (.num 7) "private".toList (.num 7))).2.configStoreKey =
        .str ("user_config:".toList ++ suffix) ∧
      (_initShareContext groupTypes ⟨.bool true⟩ (freshContext (.str "123".toList))
          (messageOf (.num 7) "private".toList (.num 7))).2.chatLastMessageIdKey =
        .str ("last_message_id:".toList ++ ("history:".toList ++ suffix))) ∧
    (_initShareContext groupTypes ⟨.bool true⟩ (freshContext (.str "123".toList))
        (.obj [])).1 = .error (.error "Chat id not found".toList) :=
  ⟨by rfl,
    (initShareContext_invariants groupTypes ⟨.bool true⟩ (freshContext (.str "123".toList))
      (messageOf (.num 7) "private".toList (.num 7))).1 (by rfl),
    ((initShareContext_invariants groupTypes ⟨.bool true⟩ (freshContext (.str "123".toList))
      (.obj [])).2.2.2.1 ⟨"123".toList, by rfl⟩).mpr (by rfl)⟩

theorem excluded_hasIncludes (keys : JSVal) (key : List Char) :
    (hasIncludes keys = true → ∃ b, excluded keys key = .ok b) ∧
    (hasIncludes keys = false → excluded keys key = .error .typeError) := by
  cases keys with
  | null => exact ⟨fun _ => ⟨_, rfl⟩, fun h => Bool.noConfusion h⟩
  | arr xs => exact ⟨fun _ => ⟨_, rfl⟩, fun h => Bool.noConfusion h⟩
  | str s => exact ⟨fun _ => ⟨_, rfl⟩, fun h => Bool.noConfusion h⟩
  | _ => exact ⟨fun h => Bool.noConfusion h, fun _ => rfl⟩

theorem mergeKeys_cons (source keys : JSVal) (key : List Char) (rest : List (List Char))
    (target : List (List Char × JSVal)) :
    mergeKeys source keys (key :: rest) target =
      if throwsAt source keys key = true then (.error .typeError, target)
      else mergeKeys source keys rest
        (if merges target source keys key = true then
          defineProp key (getProp source key) target
        else target) := by
  rw [mergeKeys]
  cases hs : isNullish source
  · cases ht : truthy (getProp source key)
    · simp [throwsAt, merges, hs, ht]
    · cases hi : hasIncludes keys
      · rw [(excluded_hasIncludes keys key).2 hi]
        simp [throwsAt, hs, ht, hi]
      · obtain ⟨b, hb⟩ := (excluded_hasIncludes keys key).1 hi
        rw [hb]
        cases b
        · by_cases hty : typeOf (getProp source key) = typeOf (lookupKey key target)
          · simp [throwsAt, merges, hs, ht, hi, hb, hty]
          · simp [throwsAt, merges, hs, ht, hi, hb, hty]
        · simp [throwsAt, merges, hs, ht, hi, hb]
  · simp [throwsAt, hs]

theorem defineProp_keys (key : List Char) (v : JSVal) (kvs : List (List Char × JSVal))
    (h : key ∈ kvs.map Prod.fst) :
    (defineProp key v kvs).map Prod.fst = kvs.map Prod.fst := by
  induction kvs with
  | nil => simp at h
  | cons a kvs ih =>
    obtain ⟨k, w⟩ := a
    by_cases hk : k = key
    · simp [defineProp, hk]
    · have h' : key ∈ kvs.map Prod.fst := by
        simp only [List.map_cons, List.mem_cons] at h
        rcases h with h | h
        · exact absurd h.symm hk
        · exact h
      simp [defineProp, hk, ih h']

theorem typeOf_truthy (v : JSVal) (h : truthy v = true) : typeOf v ≠ "undefined".toList := by
  cases v with
  | undefined => cases h
  | null => cases h
  | _ => simp [typeOf]

theorem merges_spec (target : List (List Char × JSVal)) (source keys : JSVal)
    (key : List Char) :
    merges target source keys key = true ↔
      truthy (getProp source key) = true ∧ excluded keys key = .ok false ∧
        typeOf (getProp source key) = typeOf (lookupKey key target) := by
  simp [merges, and_assoc]

theorem lookupKey_absent (key : List Char) (kvs : List (List Char × JSVal))
    (h : key ∉ kvs.map Prod.fst) : lookupKey key kvs = .undefined := by
  induction kvs with
  | nil => rfl
  | cons a kvs ih =>
    obtain ⟨k, w⟩ := a
    simp only [List.map_cons, List.mem_cons, not_or] at h
    simp [lookupKey, Ne.symm h.1, ih h.2]

theorem merges_key (target : List (List Char × JSVal)) (source keys : JSVal)
    (key : List Char) (h : merges target source keys key = true) :
    key ∈ target.map Prod.fst := by
  obtain ⟨h1, -, h3⟩ := (merges_spec target source keys key).mp h
  by_contra hn
  rw [lookupKey_absent key target hn] at h3
  exact typeOf_truthy _ h1 h3

theorem merges_congr (t₁ t₂ : List (List Char × JSVal)) (source keys : JSVal)
    (key : List Char) (h : typeOf (lookupKey key t₁) = typeOf (lookupKey key t₂)) :
    merges t₁ source keys key = merges t₂ source keys key := by
  simp only [merges, h]

theorem mergeKeys_returns (source keys : JSVal) :
    ∀ (ks : List (List Char)) (target : List (List Char × JSVal)),
      (∀ k ∈ ks, throwsAt source keys k = false) →
      (mergeKeys source keys ks target).1 = .ok () ∧
      (mergeKeys source keys ks target).2.map Prod.fst = target.map Prod.fst ∧
      ∀ k, lookupKey k (mergeKeys source keys ks target).2 =
        if k ∈ ks ∧ merges target source keys k = true then getProp source k
        else lookupKey k target := by
  intro ks
  induction ks with
  | nil => intro target _; simp [mergeKeys]
  | cons key rest ih =>
    intro target hnt
    have hhead := hnt key (List.mem_cons_self _ _)
    have hrest : ∀ k ∈ rest, throwsAt source keys k = false :=
      fun k hk => hnt k (List.mem_cons_of_mem _ hk)
    rw [mergeKeys_cons, hhead]
    simp only [Bool.false_eq_true, if_false]
    by_cases hm : merges target source keys key = true
    · obtain ⟨-, -, hty⟩ := (merges_spec target source keys key).mp hm
      have hmem := merges_key target source keys key hm
      obtain ⟨i1, i2, i3⟩ := ih (defineProp key (getProp source key) target) hrest
      simp only [hm, if_true]
      refine ⟨i1, by rw [i2, defineProp_keys key _ target hmem], ?_⟩
      intro k
      rw [i3 k]
      by_cases hk : k = key
      · subst hk
        simp [hm, lookupKey_defineProp_same]
      · have hc := merges_congr (defineProp key (getProp source key) target) target source keys
          k (by rw [lookupKey_defineProp_other key k _ target hk])
        simp [hc, hk, lookupKey_defineProp_other key k _ target hk]
    · have hm' : merges target source keys key = false := by simpa using hm
      obtain ⟨i1, i2, i3⟩ := ih target hrest
      simp only [hm', Bool.false_eq_true, if_false]
      refine ⟨i1, i2, ?_⟩
      intro k
      rw [i3 k]
      by_cases hk : k = key
      · subst hk
        simp [hm']
      · simp [hk]

theorem mergeKeys_throws (source keys : JSVal) :
    ∀ (ks : List (List Char)) (target : List (List Char × JSVal)),
      (∃ k ∈ ks, throwsAt source keys k = true) →
      mergeKeys source keys ks target = (.error .typeError, target) := by
  intro ks
  induction ks with
  | nil => intro target h; obtain ⟨k, hk, -⟩ := h; cases hk
  | cons key rest ih =>
    intro target h
    rw [mergeKeys_cons]
    cases hhead : throwsAt source keys key
    · obtain ⟨k, hk, hthrow⟩ := h
      have hk' : k ∈ rest := by
        rcases List.mem_cons.mp hk with rfl | hk'
        · rw [hhead] at hthrow; cases hthrow
        · exact hk'
      have hinc : hasIncludes keys = false := by
        simp only [throwsAt, Bool.or_eq_false_iff, Bool.or_eq_true, Bool.and_eq_true,
          Bool.not_eq_true'] at hhead hthrow
        rcases hthrow with h1 | h1
        · rw [hhead.1] at h1; cases h1
        · exact h1.2
      have hm : merges target source keys key = false := by
        cases hmm : merges target source keys key
        · rfl
        · obtain ⟨-, h2, -⟩ := (merges_spec target source keys key).mp hmm
          rw [(excluded_hasIncludes keys key).2 hinc] at h2
          cases h2
      simp only [Bool.false_eq_true, if_false, hm]
      exact ih target ⟨k, hk', hthrow⟩
    · simp

theorem mergeKeys_outcome (source keys : JSVal) (ks : List (List Char)) :
    (∀ k ∈ ks, throwsAt source keys k = false) ∨ ∃ k ∈ ks, throwsAt source keys k = true := by
  by_cases h : ∃ k ∈ ks, throwsAt source keys k = true
  · exact Or.inr h
  · refine Or.inl (fun k hk => ?_)
    cases ht : throwsAt source keys k
    · rfl
    · exact absurd ⟨k, hk, ht⟩ h

theorem mergeKeys_lookup (source keys : JSVal) (ks : List (List Char))
    (target : List (List Char × JSVal)) (hks : ∀ k ∈ target.map Prod.fst, k ∈ ks)
    (k : List Char) :
    lookupKey k (mergeKeys source keys ks target).2 =
      if (mergeKeys source keys ks target).1 = .ok () ∧ merges target source keys k = true then
        getProp source k
      else lookupKey k target := by
  rcases mergeKeys_outcome source keys ks with h | h
  · obtain ⟨i1, -, i3⟩ := mergeKeys_returns source keys ks target h
    rw [i3 k, i1]
    by_cases hm : merges target source keys k = true
    · have hmem := hks k (merges_key target source keys k hm)
      simp [hm, hmem]
    · simp [hm]
  · rw [mergeKeys_throws source keys ks target h]
    simp

theorem mergeKeys_order (source keys : JSVal) (ks₁ ks₂ : List (List Char))
    (target : List (List Char × JSVal)) (h₁ : ∀ k ∈ target.map Prod.fst, k ∈ ks₁)
    (h : ∀ k, k ∈ ks₁ ↔ k ∈ ks₂) :
    (mergeKeys source keys ks₁ target).1 = (mergeKeys source keys ks₂ target).1 ∧
    (mergeKeys source keys ks₁ target).2.map Prod.fst =
      (mergeKeys source keys ks₂ target).2.map Prod.fst ∧
    ∀ k, lookupKey k (mergeKeys source keys ks₁ target).2 =
      lookupKey k (mergeKeys source keys ks₂ target).2 := by
  have h₂ : ∀ k ∈ target.map Prod.fst, k ∈ ks₂ := fun k hk => (h k).mp (h₁ k hk)
  rcases mergeKeys_outcome source keys ks₁ with hr | ht
  · have hr' : ∀ k ∈ ks₂, throwsAt source keys k = false := fun k hk => hr k ((h k).mpr hk)
    obtain ⟨a1, a2, -⟩ := mergeKeys_returns source keys ks₁ target hr
    obtain ⟨b1, b2, -⟩ := mergeKeys_returns source keys ks₂ target hr'
    refine ⟨a1.trans b1.symm, a2.trans b2.symm, fun k => ?_⟩
    rw [mergeKeys_lookup source keys ks₁ target h₁ k,
      mergeKeys_lookup source keys ks₂ target h₂ k, a1, b1]
  · have ht' : ∃ k ∈ ks₂, throwsAt source keys k = true := by
      obtain ⟨k, hk, hthrow⟩ := ht
      exact ⟨k, (h k).mp hk, hthrow⟩
    rw [mergeKeys_throws source keys ks₁ target ht, mergeKeys_throws source keys ks₂ target ht']
    exact ⟨rfl, rfl, fun _ => rfl⟩

theorem excluded_names (names : List (List Char)) (key : List Char) :
    excluded (.arr (names.map JSVal.str)) key = .ok (!names.contains key) := by
  have h : (names.map JSVal.str).any (sameString key) = names.contains key := by
    induction names with
    | nil => rfl
    | cons a names ih =>
      simp only [List.map_cons, List.any_cons, ih, sameString, List.contains_cons]
      by_cases hk : a = key
      · simp [hk]
      · have hk' : ¬ (key = a) := fun e => hk e.symm
        simp [hk, hk']
  simp only [excluded, h]

/-- C21: `mergeObject(target, source, keys)` leaves the keys of the target as they are and
keeps the `typeof` of every field.  After the call the field `k` holds `source[k]` when the call
returned and `source[k]` is truthy, `k` is not excluded by `keys` and `typeof source[k]` equals
`typeof target[k]`; in every other case it holds what it held before.  With `keys` equal to
`null` no key is excluded, with an array of strings exactly the keys outside the array are.  A
falsy source value is never merged.  The call either returns or throws a `TypeError` with
the target untouched.  On `{on: true, n: 1, name: "x", list: null}` the source
`{on: false, n: 0, name: "", list: ["a"], extra: 5}` with `keys = null` changes only `list`,
and the source `{on: "yes", n: 7, name: "y"}` with `keys = ["n"]` changes only `n`. -/
theorem mergeObject_preserves (target : List (List Char × JSVal)) (source keys : JSVal) :
    (mergeObject target source keys).2.map Prod.fst = target.map Prod.fst ∧
    (∀ k, typeOf (lookupKey k (mergeObject target source keys).2) =
      typeOf (lookupKey k target)) ∧
    (∀ k, lookupKey k (mergeObject target source keys).2 =
      if (mergeObject target source keys).1 = .ok () ∧ merges target source keys k = true then
        getProp source k
      else lookupKey k target) ∧
    (∀ k, merges target source keys k = true ↔
      truthy (getProp source k) = true ∧ excluded keys k = .ok false ∧
        typeOf (getProp source k) = typeOf (lookupKey k target)) ∧
    (∀ k (names : List (List Char)), excluded .null k = .ok false ∧
      excluded (.arr (names.map JSVal.str)) k = .ok (!names.contains k)) ∧
    (∀ k, truthy (getProp source k) = false →
      lookupKey k (mergeObject target source keys).2 = lookupKey k target) ∧
    ((mergeObject target source keys).1 = .ok () ∨
      mergeObject target source keys = (.error .typeError, target)) ∧
    (mergeObject configTarget falsySource .null =
        (.ok (), [("on".toList, .bool true), ("n".toList, .num 1),
          ("name".toList, .str "x".toList), ("list".toList, .arr [.str "a".toList])]) ∧
      mergeObject configTarget mixedSource (.arr [.str "n".toList]) =
        (.ok (), [("on".toList, .bool true), ("n".toList, .num 7),
          ("name".toList, .str "x".toList), ("list".toList, .null)])) := by
  have hlook := mergeKeys_lookup source keys (target.map Prod.fst) target (fun _ hk => hk)
  refine ⟨?_, ?_, hlook, merges_spec target source keys,
    fun k names => ⟨rfl, excluded_names names k⟩, ?_, ?_, by rfl, by rfl⟩
  · rcases mergeKeys_outcome source keys (target.map Prod.fst) with h | h
    · exact (mergeKeys_returns source keys _ target h).2.1
    · rw [mergeObject, mergeKeys_throws source keys _ target h]
  · intro k
    rw [mergeObject, hlook k]
    split
    · next hc => exact ((merges_spec target source keys k).mp hc.2).2.2
    · rfl
  · intro k hf
    have hm : merges target source keys k = false := by
      simp [merges, hf]
    rw [mergeObject, hlook k]
    simp [hm]
  · rcases mergeKeys_outcome source keys (target.map Prod.fst) with h | h
    · exact Or.inl (mergeKeys_returns source keys _ target h).1
    · exact Or.inr (mergeKeys_throws source keys _ target h)

/-- Witness for C21: the falsy source on the scenario target leaves `on` as it was, and the
source `{on: "yes", n: 7, name: "y"}` with `keys = ["n"]` merges the field `n`. -/
theorem mergeObject_preserves_witness :
    (truthy (getProp falsySource "on".toList) = false ∧
      merges configTarget mixedSource (.arr [.str "n".toList]) "n".toList = true) ∧
    lookupKey "on".toList (mergeObject configTarget falsySource .null).2 =
      lookupKey "on".toList configTarget ∧
    (truthy (getProp mixedSource "n".toList) = true ∧
      excluded (.arr [.str "n".toList]) "n".toList = .ok false ∧
      typeOf (getProp mixedSource "n".toList) = typeOf (lookupKey "n".toList configTarget)) :=
  ⟨⟨by rfl, by rfl⟩,
    (mergeObject_preserves configTarget falsySource .null).2.2.2.2.2.1 "on".toList (by rfl),
    ((mergeObject_preserves configTarget mixedSource (.arr [.str "n".toList])).2.2.2.1
      "n".toList).mp (by rfl)⟩

end Context
